import Mathlib

/-!
Verification development for the gittuf Reference State Log (RSL) subsystem.

The definitions below are a shallow embedding of `internal/rsl/rsl.go` and of
the go-git backed writer (`GoGitClient.Commit` / `ApplyCommit`), together with
the small parts of the Go standard library the RSL code relies on
(`strings.Split`, `strings.TrimSpace`, `strings.HasPrefix`, `strings.Join`,
`encoding/hex`, `encoding/pem` with base64 armoring) and of go-git's
`plumbing.Hash`.  Go strings are modelled as lists of characters, Go byte
slices as lists of naturals, Go maps and the object store as association
lists, and the unbounded walk loops as fuel-indexed recursions (running out
of fuel yields the distinguished `outOfFuel` result, which no theorem below
treats as a real outcome of the Go code).
-/

/-- Go strings, modelled as lists of characters. -/
abbrev GoStr := List Char

/-- `unicode.IsSpace` from the Go standard library: the white space code
points recognised by `strings.TrimSpace`. -/
def goIsSpace (c : Char) : Bool :=
  [9, 10, 11, 12, 13, 32, 0x85, 0xA0, 0x1680,
   0x2000, 0x2001, 0x2002, 0x2003, 0x2004, 0x2005, 0x2006, 0x2007,
   0x2008, 0x2009, 0x200A, 0x2028, 0x2029, 0x202F, 0x205F, 0x3000].contains c.toNat

/-- Left part of Go's `strings.TrimSpace`. -/
def trimLeftGo (s : GoStr) : GoStr := s.dropWhile goIsSpace

/-- Right part of Go's `strings.TrimSpace`. -/
def trimRightGo (s : GoStr) : GoStr := (s.reverse.dropWhile goIsSpace).reverse

/-- Go's `strings.TrimSpace`. -/
def trimSpaceGo (s : GoStr) : GoStr := trimRightGo (trimLeftGo s)

/-- Go's `strings.Split` for a single-character separator: the list of
(possibly empty) segments between occurrences of `c`; always non-empty. -/
def splitOnChar (c : Char) : GoStr → List GoStr
  | [] => [[]]
  | x :: xs =>
    let r := splitOnChar c xs
    if x = c then [] :: r
    else
      match r with
      | [] => [[x]]
      | y :: ys => (x :: y) :: ys

/-- Go's `strings.Join` with a single-character separator. -/
def joinSep (c : Char) : List GoStr → GoStr
  | [] => []
  | [x] => x
  | x :: xs => x ++ c :: joinSep c xs

/-- Go's `strings.HasPrefix pref s` (argument order: prefix first). -/
def hasPref : GoStr → GoStr → Bool
  | [], _ => true
  | _ :: _, [] => false
  | p :: ps, x :: xs => decide (p = x) && hasPref ps xs

/-- Value of a hexadecimal digit, as in Go's `encoding/hex.fromHexChar`. -/
def hexVal (c : Char) : Option Nat :=
  if 48 ≤ c.toNat ∧ c.toNat ≤ 57 then some (c.toNat - 48)
  else if 97 ≤ c.toNat ∧ c.toNat ≤ 102 then some (c.toNat - 87)
  else if 65 ≤ c.toNat ∧ c.toNat ≤ 70 then some (c.toNat - 55)
  else none

/-- Go's `hex.DecodeString`, keeping only the successfully decoded prefix
(the error is discarded by `plumbing.NewHash`): decode two characters per
byte, stopping at the first invalid pair or at an odd-length tail. -/
def hexDecodeGo : GoStr → List Nat
  | c1 :: c2 :: rest =>
    match hexVal c1, hexVal c2 with
    | some a, some b => (16 * a + b) :: hexDecodeGo rest
    | _, _ => []
  | _ => []

/-- go-git's `plumbing.Hash`: a 20-byte SHA-1 object id.  We carry the raw
byte list; well-formedness (length 20, bytes below 256) is `GitHash.WF`. -/
structure GitHash where
  bytes : List Nat
deriving DecidableEq

/-- go-git's `plumbing.ZeroHash`. -/
def zeroHash : GitHash := ⟨List.replicate 20 0⟩

/-- go-git's `plumbing.Hash.IsZero`. -/
def GitHash.IsZero (h : GitHash) : Bool := decide (h = zeroHash)

/-- Hashes produced by go-git are 20 bytes, each below 256. -/
def GitHash.WF (h : GitHash) : Prop :=
  h.bytes.length = 20 ∧ ∀ b ∈ h.bytes, b < 256

instance (h : GitHash) : Decidable h.WF := by
  unfold GitHash.WF; infer_instance

/-- Lower-case hexadecimal digit, as in Go's `encoding/hex` encoder. -/
def hexDigitChar (n : Nat) : Char := "0123456789abcdef".toList.getD n '0'

/-- go-git's `plumbing.Hash.String`: lower-case hex encoding of the bytes. -/
def GitHash.str (h : GitHash) : GoStr :=
  h.bytes.foldr (fun b acc => hexDigitChar (b / 16) :: hexDigitChar (b % 16) :: acc) []

/-- go-git's `plumbing.NewHash`: `b, _ := hex.DecodeString(s)` followed by
`copy(h[:], b)` into a zeroed 20-byte array (so at most 20 decoded bytes are
kept and a short decode is zero-padded). -/
def newHashGo (s : GoStr) : GitHash :=
  let bs := (hexDecodeGo s).take 20
  ⟨bs ++ List.replicate (20 - bs.length) 0⟩

/-! ### Base64 and PEM armoring (`encoding/base64`, `encoding/pem`) -/

/-- The standard base64 alphabet used by `base64.StdEncoding`. -/
def b64Alphabet : GoStr :=
  "ABCDEFGHIJKLMNOPQRSTUVWXYZabcdefghijklmnopqrstuvwxyz0123456789+/".toList

/-- Character for a six-bit group. -/
def b64Char (n : Nat) : Char := b64Alphabet.getD n '='

/-- Index of a character in a list, used to invert the base64 alphabet. -/
def idxLookup : List Char → Nat → Char → Option Nat
  | [], _, _ => none
  | x :: xs, i, c => if x = c then some i else idxLookup xs (i + 1) c

/-- Six-bit value of a base64 character. -/
def b64Val (c : Char) : Option Nat := idxLookup b64Alphabet 0 c

/-- `base64.StdEncoding` encoding with `=` padding, three input bytes per
four output characters. -/
def b64Encode : List Nat → List Char
  | [] => []
  | [a] => [b64Char (a / 4), b64Char (a % 4 * 16), '=', '=']
  | [a, b] => [b64Char (a / 4), b64Char (a % 4 * 16 + b / 16), b64Char (b % 16 * 4), '=']
  | a :: b :: c :: rest =>
    b64Char (a / 4) :: b64Char (a % 4 * 16 + b / 16) ::
      b64Char (b % 16 * 4 + c / 64) :: b64Char (c % 64) :: b64Encode rest

/-- `base64.StdEncoding` decoding (default, non-strict mode: bits covered by
padding are ignored, as Go does without `Strict()`). -/
def b64Decode : List Char → Option (List Nat)
  | [] => some []
  | c1 :: c2 :: c3 :: c4 :: rest =>
    if c3 = '=' ∧ c4 = '=' ∧ rest = [] then do
      let a ← b64Val c1
      let b ← b64Val c2
      some [a * 4 + b / 16]
    else if c4 = '=' ∧ rest = [] then do
      let a ← b64Val c1
      let b ← b64Val c2
      let c ← b64Val c3
      some [a * 4 + b / 16, b % 16 * 16 + c / 4]
    else do
      let a ← b64Val c1
      let b ← b64Val c2
      let c ← b64Val c3
      let d ← b64Val c4
      let tail ← b64Decode rest
      some ((a * 4 + b / 16) :: (b % 16 * 16 + c / 4) :: (c % 4 * 64 + d) :: tail)
  | _ => none

/-- Split into chunks of 64 characters (PEM line width); the first argument
is fuel, instantiated with the list length by `chunks64`. -/
def chunksAux : Nat → List Char → List GoStr
  | 0, _ => []
  | _, [] => []
  | n + 1, l => l.take 64 :: chunksAux n (l.drop 64)

/-- The 64-column line split `encoding/pem` applies to the base64 body. -/
def chunks64 (l : List Char) : List GoStr := chunksAux l.length l

/-- `"-----BEGIN MESSAGE-----"` (`rsl.BeginMessage`). -/
def beginMsgS : GoStr := "-----BEGIN MESSAGE-----".toList

/-- `"-----END MESSAGE-----"` (`rsl.EndMessage`). -/
def endMsgS : GoStr := "-----END MESSAGE-----".toList

/-- `pem.Encode` of a `MESSAGE` block with no headers: BEGIN line, base64 of
the bytes wrapped to 64 columns, END line, each line newline-terminated. -/
def pemEncodeMsg (bytes : List Nat) : GoStr :=
  beginMsgS ++ '\n' :: (chunks64 (b64Encode bytes)).foldr
    (fun line acc => line ++ '\n' :: acc) (endMsgS ++ ['\n'])

/-- Drop everything up to and including the first line satisfying `p`;
`none` when no line matches. -/
def afterFirstLine (p : GoStr → Bool) : List GoStr → Option (List GoStr)
  | [] => none
  | x :: xs => if p x then some xs else afterFirstLine p xs

/-- The lines strictly before the first line satisfying `p`; `none` when no
line matches. -/
def takeUntilLine (p : GoStr → Bool) : List GoStr → Option (List GoStr)
  | [] => none
  | x :: xs => if p x then some [] else (takeUntilLine p xs).map (x :: ·)

/-- `pem.Decode` restricted to the header-less `MESSAGE` blocks this
repository produces: find the first `-----BEGIN MESSAGE-----` line, collect
the following lines up to the `-----END MESSAGE-----` line, and base64-decode
their concatenation; `none` when either marker is missing or the base64 body
is invalid. -/
def pemDecodeMsg (text : GoStr) : Option (List Nat) :=
  match afterFirstLine (fun l => decide (l = beginMsgS)) (splitOnChar '\n' text) with
  | none => none
  | some rest =>
    match takeUntilLine (fun l => decide (l = endMsgS)) rest with
    | none => none
    | some body => b64Decode (body.foldr (· ++ ·) [])

/-! ### The RSL data model (`internal/rsl/rsl.go`) -/

/-- `rsl.GittufNamespacePrefix` (`"refs/gittuf/"`). -/
def gittufNamespaceS : GoStr := "refs/gittuf/".toList

/-- `rsl.Ref`, the ledger reference name. -/
def rslRefS : GoStr := "refs/gittuf/reference-state-log".toList

/-- `rsl.EntryHeader`. -/
def entryHeaderS : GoStr := "RSL Entry".toList

/-- `rsl.AnnotationHeader`. -/
def annotHeaderS : GoStr := "RSL Annotation".toList

/-- `rsl.RefKey`. -/
def refKeyS : GoStr := "ref".toList

/-- `rsl.TargetIDKey`. -/
def targetIDKeyS : GoStr := "targetID".toList

/-- `rsl.EntryIDKey`. -/
def entryIDKeyS : GoStr := "entryID".toList

/-- `rsl.SkipKey`. -/
def skipKeyS : GoStr := "skip".toList

/-- `rsl.Entry`, a standard RSL entry. -/
structure Entry where
  ID : GitHash
  RefName : GoStr
  TargetID : GitHash
deriving DecidableEq

/-- `rsl.Annotation` (named `Annot` here), an annotation entry.  The message
is carried as the list of its bytes. -/
structure Annot where
  ID : GitHash
  RSLEntryIDs : List GitHash
  Skip : Bool
  Message : List Nat
deriving DecidableEq

/-- `rsl.EntryType`: the two-variant union of entry kinds. -/
inductive EntryT where
  | std : Entry → EntryT
  | annot : Annot → EntryT
deriving DecidableEq

/-- `EntryType.GetID`. -/
def EntryT.getID : EntryT → GitHash
  | .std e => e.ID
  | .annot a => a.ID

/-- `Annotation.RefersTo`. -/
def Annot.RefersTo (a : Annot) (entryID : GitHash) : Bool :=
  a.RSLEntryIDs.any (fun id => decide (id = entryID))

/-- `rsl.filterAnnotationsForRelevantAnnotations`: the annotations referring
to `entryID`, in the order they were accumulated (Go returns `nil` for the
empty result, which coincides with `[]` here). -/
def filterAnnotationsForRelevant (allAnnotations : List Annot) (entryID : GitHash) :
    List Annot :=
  allAnnotations.filter (fun a => a.RefersTo entryID)

/-- `Entry.createCommitMessage`. -/
def Entry.createCommitMessage (e : Entry) : GoStr :=
  joinSep '\n'
    [entryHeaderS, [],
     refKeyS ++ ": ".toList ++ e.RefName,
     targetIDKeyS ++ ": ".toList ++ GitHash.str e.TargetID]

/-- `Annotation.createCommitMessage`.  `pem.Encode` can only fail on invalid
header keys and the block has no headers, so the Go error path is dead and
the model is total. -/
def Annot.createCommitMessage (a : Annot) : GoStr :=
  joinSep '\n'
    ([annotHeaderS, []]
      ++ a.RSLEntryIDs.map (fun t => entryIDKeyS ++ ": ".toList ++ GitHash.str t)
      ++ [skipKeyS ++ (if a.Skip then ": true" else ": false").toList]
      ++ (if a.Message = [] then [] else [trimSpaceGo (pemEncodeMsg a.Message)]))

/-- The errors of `internal/rsl` (plus the distinct go-git object-lookup and
reference-lookup errors, CAS conflict, and the fuel cut-off marker). -/
inductive RSLErr where
  | rslExists
  | entryNotFound
  | branchDetected
  | invalidEntry
  | noRecordOfCommit
  | refNotFound
  | objectNotFound
  | conflict
  | outOfFuel
deriving DecidableEq

instance {ε α : Type} [DecidableEq ε] [DecidableEq α] : DecidableEq (Except ε α) := by
  intro a b
  cases a <;> cases b
  case error.error x y =>
    exact if h : x = y then .isTrue (by rw [h]) else .isFalse (by simp [h])
  case ok.ok x y =>
    exact if h : x = y then .isTrue (by rw [h]) else .isFalse (by simp [h])
  case error.ok x y => exact .isFalse (by simp)
  case ok.error x y => exact .isFalse (by simp)

/-! ### The entry codec (`parseRSLEntryText` and helpers) -/

/-- The key-value loop of `rsl.parseEntryText`: each line is trimmed, split
on `":"`, rejected when it has no second field, and the `ref` / `targetID`
keys update the entry (later occurrences win; unknown keys are ignored). -/
def parseEntryLines (e : Entry) : List GoStr → Except RSLErr Entry
  | [] => .ok e
  | l :: rest =>
    match splitOnChar ':' (trimSpaceGo l) with
    | k :: v :: _ =>
      if trimSpaceGo k = refKeyS then
        parseEntryLines { e with RefName := trimSpaceGo v } rest
      else if trimSpaceGo k = targetIDKeyS then
        parseEntryLines { e with TargetID := newHashGo (trimSpaceGo v) } rest
      else
        parseEntryLines e rest
    | _ => .error .invalidEntry

/-- `rsl.parseEntryText`. -/
def parseEntryText (id : GitHash) (text : GoStr) : Except RSLErr Entry :=
  let lines := splitOnChar '\n' text
  if lines.length < 4 then .error .invalidEntry
  else parseEntryLines { ID := id, RefName := [], TargetID := zeroHash } (lines.drop 2)

/-- The key-value loop of `rsl.parseAnnotationText`: like the entry loop but
`entryID` accumulates, `skip` compares against `"true"`, and the loop breaks
at the `-----BEGIN MESSAGE-----` line. -/
def parseAnnotLines (a : Annot) : List GoStr → Except RSLErr Annot
  | [] => .ok a
  | l :: rest =>
    let lt := trimSpaceGo l
    if lt = beginMsgS then .ok a
    else
      match splitOnChar ':' lt with
      | k :: v :: _ =>
        if trimSpaceGo k = entryIDKeyS then
          parseAnnotLines
            { a with RSLEntryIDs := a.RSLEntryIDs ++ [newHashGo (trimSpaceGo v)] } rest
        else if trimSpaceGo k = skipKeyS then
          parseAnnotLines { a with Skip := decide (trimSpaceGo v = "true".toList) } rest
        else
          parseAnnotLines a rest
      | _ => .error .invalidEntry

/-- `rsl.parseAnnotationText`: the message is whatever `pem.Decode` finds in
the whole text (empty when there is no block), and the line loop runs over
the lines after the first two. -/
def parseAnnotText (id : GitHash) (text : GoStr) : Except RSLErr Annot :=
  let msg := (pemDecodeMsg text).getD []
  let lines := splitOnChar '\n' text
  if lines.length < 4 then .error .invalidEntry
  else parseAnnotLines { ID := id, RSLEntryIDs := [], Skip := false, Message := msg }
    (lines.drop 2)

/-- `rsl.parseRSLEntryText`: trim the message, dispatch on the
`RSL Annotation` prefix (the standard-entry header is never checked). -/
def parseRSLEntryText (id : GitHash) (text : GoStr) : Except RSLErr EntryT :=
  let t := trimSpaceGo text
  if hasPref annotHeaderS t then (parseAnnotText id t).map .annot
  else (parseEntryText id t).map .std

/-! ### Repository state (`ObjectStore`: go-git storer, modelled as maps) -/

/-- The parts of go-git's `object.Commit` the RSL code reads or writes.
Author, committer and signature only influence the commit's content hash,
which is supplied by the `hashOf` oracle below, so they are not carried. -/
structure CommitObj where
  treeHash : GitHash
  parentHashes : List GitHash
  message : GoStr
deriving DecidableEq

/-- A repository: the commit object store and the reference store, both as
association lists (insertion prepends, lookup takes the first match). -/
structure RepoState where
  objects : List (GitHash × CommitObj)
  refs : List (GoStr × GitHash)
deriving DecidableEq

/-- `repo.CommitObject`. -/
def lookupObj (s : RepoState) (id : GitHash) : Option CommitObj :=
  (s.objects.find? (fun p => decide (p.1 = id))).map Prod.snd

/-- `repo.Reference` (resolved). -/
def lookupRef (s : RepoState) (name : GoStr) : Option GitHash :=
  (s.refs.find? (fun p => decide (p.1 = name))).map Prod.snd

/-- `Storer.SetReference` (prepend-shadowing update). -/
def setRef (s : RepoState) (name : GoStr) (h : GitHash) : RepoState :=
  { s with refs := (name, h) :: s.refs }

/-- `Storer.SetEncodedObject`'s effect on the object map. -/
def addObj (s : RepoState) (id : GitHash) (c : CommitObj) : RepoState :=
  { s with objects := (id, c) :: s.objects }

/-- `gitinterface.EmptyTree()`: the canonical empty-tree hash, which the Go
code recomputes on the fly. -/
def emptyTreeHash : GitHash := newHashGo "4b825dc642cb6eb9a060e54bf8d69288fbee4904".toList

/-! ### RSL readers (`internal/rsl/rsl.go`) -/

/-- `rsl.GetEntry`: look the commit up (failure becomes
`ErrRSLEntryNotFound`) and decode its message. -/
def getEntry (s : RepoState) (entryID : GitHash) : Except RSLErr EntryT :=
  match lookupObj s entryID with
  | none => .error .entryNotFound
  | some c => parseRSLEntryText entryID c.message

/-- `rsl.GetParentForEntry`: a missing commit object propagates go-git's
lookup error unchanged; zero parents is `ErrRSLEntryNotFound` (genesis); two
or more parents is `ErrRSLBranchDetected`; one parent decodes via
`GetEntry`. -/
def getParentForEntry (s : RepoState) (entry : EntryT) : Except RSLErr EntryT :=
  match lookupObj s (EntryT.getID entry) with
  | none => .error .objectNotFound
  | some c =>
    match c.parentHashes with
    | [] => .error .entryNotFound
    | [p] => getEntry s p
    | _ => .error .branchDetected

/-- `rsl.GetLatestEntry`: resolve the ledger reference (its absence is
go-git's reference-not-found error), then decode the tip commit. -/
def getLatestEntry (s : RepoState) : Except RSLErr EntryT :=
  match lookupRef s rslRefS with
  | none => .error .refNotFound
  | some h =>
    match lookupObj s h with
    | none => .error .entryNotFound
    | some c => parseRSLEntryText h c.message

/-- The backward-walk loop shared verbatim by `GetLatestNonGittufEntry`,
`GetNonGittufParentForEntry` and `GetLatestEntryForRefBefore` (the three Go
loops are textually identical apart from the stop test on standard entries):
accumulate annotations in encounter order, stop at the first standard entry
satisfying `stop`, and return it with the relevant annotations. -/
def walkLoop (s : RepoState) (stop : Entry → Bool) :
    Nat → EntryT → List Annot → Except RSLErr (Entry × List Annot)
  | 0, _, _ => .error .outOfFuel
  | fuel + 1, it, anns =>
    match it with
    | .std e =>
      if stop e then .ok (e, filterAnnotationsForRelevant anns e.ID)
      else do walkLoop s stop fuel (← getParentForEntry s it) anns
    | .annot a => do walkLoop s stop fuel (← getParentForEntry s it) (anns ++ [a])

/-- The stop test of `GetLatestNonGittufEntry` and
`GetNonGittufParentForEntry`: a user (non-gittuf-namespace) entry. -/
def isUserEntry (e : Entry) : Bool := !hasPref gittufNamespaceS e.RefName

/-- `rsl.GetLatestNonGittufEntry`. -/
def getLatestNonGittufEntry (s : RepoState) (fuel : Nat) :
    Except RSLErr (Entry × List Annot) := do
  walkLoop s isUserEntry fuel (← getLatestEntry s) []

/-- `rsl.GetNonGittufParentForEntry`: the same walk started at the parent of
the given entry. -/
def getNonGittufParentForEntry (s : RepoState) (fuel : Nat) (entry : EntryT) :
    Except RSLErr (Entry × List Annot) := do
  walkLoop s isUserEntry fuel (← getParentForEntry s entry) []

/-- The starting iterator of `rsl.GetLatestEntryForRefBefore`: the tip when
the anchor is zero, otherwise the parent of the anchor's entry. -/
def refBeforeStart (s : RepoState) (anchor : GitHash) : Except RSLErr EntryT :=
  if anchor.IsZero then getLatestEntry s
  else do getParentForEntry s (← getEntry s anchor)

/-- `rsl.GetLatestEntryForRefBefore`. -/
def getLatestEntryForRefBefore (s : RepoState) (fuel : Nat) (refName : GoStr)
    (anchor : GitHash) : Except RSLErr (Entry × List Annot) := do
  walkLoop s (fun e => decide (e.RefName = refName)) fuel (← refBeforeStart s anchor) []

/-- `rsl.GetLatestEntryForRef`. -/
def getLatestEntryForRef (s : RepoState) (fuel : Nat) (refName : GoStr) :
    Except RSLErr (Entry × List Annot) :=
  getLatestEntryForRefBefore s fuel refName zeroHash

/-- The loop of `rsl.GetFirstEntry`: step to the parent until the lookup
reports `ErrRSLEntryNotFound` (genesis); the last visited item must be a
standard entry, and every annotation met on the way joins the pool. -/
def firstEntryLoop (s : RepoState) :
    Nat → EntryT → List Annot → Except RSLErr (Entry × List Annot)
  | 0, _, _ => .error .outOfFuel
  | fuel + 1, it, anns =>
    match getParentForEntry s it with
    | .error .entryNotFound =>
      match it with
      | .std e => .ok (e, filterAnnotationsForRelevant anns e.ID)
      | .annot _ => .error .invalidEntry
    | .error err => .error err
    | .ok parent =>
      match parent with
      | .annot a => firstEntryLoop s fuel parent (anns ++ [a])
      | .std _ => firstEntryLoop s fuel parent anns

/-- `rsl.GetFirstEntry`. -/
def getFirstEntry (s : RepoState) (fuel : Nat) : Except RSLErr (Entry × List Annot) := do
  let it ← getLatestEntry s
  let anns : List Annot := match it with | .annot a => [a] | .std _ => []
  firstEntryLoop s fuel it anns

/-- Modelled from the spec: `gitinterface.KnowsCommit` is not under `src/`
(only its callers are).  Per §4.1/§4.4 of the spec, `knows_commit` tests
reachability via parent edges: the commit graph starting at `start` reaches
`target`. -/
def commitReachable (s : RepoState) : Nat → GitHash → GitHash → Bool
  | 0, _, _ => false
  | fuel + 1, start, target =>
    if start = target then true
    else
      match lookupObj s start with
      | none => false
      | some c => c.parentHashes.any (fun p => commitReachable s fuel p target)

/-- Modelled from the spec: `knows_commit(E.target_id, C)` is true iff `C`
is in the ancestry of (reachable from) the target. -/
def knowsCommit (s : RepoState) (kfuel : Nat) (targetID commit : GitHash) : Bool :=
  commitReachable s kfuel targetID commit

/-- The pair-testing loop of `rsl.GetFirstEntryForCommit`: step to earlier
user entries while their targets still know the commit; return the last
knowing entry when the previous user entry does not know it (or when there
is no previous user entry). -/
def firstForCommitLoop (s : RepoState) (kfuel wfuel : Nat) (commit : GitHash) :
    Nat → Entry → List Annot → Except RSLErr (Entry × List Annot)
  | 0, _, _ => .error .outOfFuel
  | ofuel + 1, firstEntry, firstAnns =>
    match getNonGittufParentForEntry s wfuel (.std firstEntry) with
    | .error .entryNotFound => .ok (firstEntry, firstAnns)
    | .error err => .error err
    | .ok (iterEntry, iterAnns) =>
      if knowsCommit s kfuel iterEntry.TargetID commit then
        firstForCommitLoop s kfuel wfuel commit ofuel iterEntry iterAnns
      else .ok (firstEntry, firstAnns)

/-- `rsl.GetFirstEntryForCommit` (the commit argument is carried by id). -/
def getFirstEntryForCommit (s : RepoState) (kfuel wfuel ofuel : Nat) (commit : GitHash) :
    Except RSLErr (Entry × List Annot) :=
  match getLatestNonGittufEntry s wfuel with
  | .error .entryNotFound => .error .noRecordOfCommit
  | .error err => .error err
  | .ok (e0, anns0) =>
    if knowsCommit s kfuel e0.TargetID commit then
      firstForCommitLoop s kfuel wfuel commit ofuel e0 anns0
    else .error .noRecordOfCommit

/-! ### Range queries (`GetEntriesInRange[ForRef]`) -/

/-- The relevance test of `GetEntriesInRangeForRef`: no filter, matching
ref name, or a gittuf-namespace entry. -/
def relevantEntry (refName : GoStr) (e : Entry) : Bool :=
  decide (refName = []) || decide (e.RefName = refName) ||
    hasPref gittufNamespaceS e.RefName

/-- Skip phase of `GetEntriesInRangeForRef`: walk from the tip until the
entry with id `lastID`, keeping only annotations. -/
def rangePhase1 (s : RepoState) (lastID : GitHash) :
    Nat → EntryT → List Annot → Except RSLErr (EntryT × List Annot)
  | 0, _, _ => .error .outOfFuel
  | fuel + 1, it, anns =>
    if it.getID = lastID then .ok (it, anns)
    else
      let anns2 := match it with | .annot a => anns ++ [a] | .std _ => anns
      do rangePhase1 s lastID fuel (← getParentForEntry s it) anns2

/-- Collect phase of `GetEntriesInRangeForRef`: until the entry with id
`firstID`, push relevant standard entries on the stack (recording their ids
in the in-range set) and pool annotations; the item at `firstID` itself is
returned for the explicit final handling. -/
def rangePhase2 (s : RepoState) (firstID : GitHash) (refName : GoStr) :
    Nat → EntryT → List Entry → List GitHash → List Annot →
      Except RSLErr (List Entry × List GitHash × List Annot × EntryT)
  | 0, _, _, _, _ => .error .outOfFuel
  | fuel + 1, it, stack, inRange, anns =>
    if it.getID = firstID then .ok (stack, inRange, anns, it)
    else
      match it with
      | .std e =>
        if relevantEntry refName e then do
          rangePhase2 s firstID refName fuel (← getParentForEntry s it)
            (stack ++ [e]) (inRange ++ [e.ID]) anns
        else do
          rangePhase2 s firstID refName fuel (← getParentForEntry s it) stack inRange anns
      | .annot a => do
        rangePhase2 s firstID refName fuel (← getParentForEntry s it) stack inRange
          (anns ++ [a])

/-- Go's `annotationMap[entryID] = append(annotationMap[entryID], annotation)`
on an association-list map. -/
def mapAppend (m : List (GitHash × List Annot)) (k : GitHash) (a : Annot) :
    List (GitHash × List Annot) :=
  match m with
  | [] => [(k, [a])]
  | (k2, l) :: rest => if k2 = k then (k2, l ++ [a]) :: rest else (k2, l) :: mapAppend rest k a

/-- Map lookup, with Go's zero value (`nil` list) for absent keys. -/
def lookupAnnMap (m : List (GitHash × List Annot)) (k : GitHash) : List Annot :=
  ((m.find? (fun p => decide (p.1 = k))).map Prod.snd).getD []

/-- One annotation's contribution to the map: append it to every in-range
target. -/
def addAnnotTargets (inRange : List GitHash) (m : List (GitHash × List Annot))
    (a : Annot) : List (GitHash × List Annot) :=
  a.RSLEntryIDs.foldl
    (fun m t => if inRange.any (fun x => decide (x = t)) then mapAppend m t a else m) m

/-- Attribute phase of `GetEntriesInRangeForRef`: iterate the pooled
annotations in reverse so each entry's list ends up in ledger order. -/
def buildAnnotationMap (inRange : List GitHash) (allAnnotations : List Annot) :
    List (GitHash × List Annot) :=
  allAnnotations.reverse.foldl (addAnnotTargets inRange) []

/-- `rsl.GetEntriesInRangeForRef` (the Go early returns written as explicit
error propagation). -/
def getEntriesInRangeForRef (s : RepoState) (fuel : Nat) (firstID lastID : GitHash)
    (refName : GoStr) :
    Except RSLErr (List Entry × List (GitHash × List Annot)) :=
  match getLatestEntry s with
  | .error e => .error e
  | .ok it0 =>
    match rangePhase1 s lastID fuel it0 [] with
    | .error e => .error e
    | .ok (itLast, anns1) =>
      match rangePhase2 s firstID refName fuel itLast [] [] anns1 with
      | .error e => .error e
      | .ok (stack, inRange, anns2, itFirst) =>
        let (stack2, inRange2) :=
          match itFirst with
          | .std e =>
            if relevantEntry refName e then (stack ++ [e], inRange ++ [e.ID])
            else (stack, inRange)
          | .annot _ => (stack, inRange)
        .ok (stack2.reverse, buildAnnotationMap inRange2 anns2)

/-- `rsl.GetEntriesInRange`. -/
def getEntriesInRange (s : RepoState) (fuel : Nat) (firstID lastID : GitHash) :
    Except RSLErr (List Entry × List (GitHash × List Annot)) :=
  getEntriesInRangeForRef s fuel firstID lastID []

/-! ### The writer (`GoGitClient.Commit` / `ApplyCommit`, `Entry.Commit`,
`Annotation.Commit`) -/

/-- `gogit.createCommitObject`: zero parent hashes are filtered out (author,
committer and clock do not affect the modelled fields). -/
def createCommitObjectGo (treeHash : GitHash) (parentHashes : List GitHash)
    (message : GoStr) : CommitObj :=
  { treeHash := treeHash,
    parentHashes := parentHashes.filter (fun p => !p.IsZero),
    message := message }

/-- `Storer.CheckAndSetReference`: update the reference only when its stored
value still equals the observed old value (compare-and-swap). -/
def checkAndSetRef (s : RepoState) (name : GoStr) (newH oldH : GitHash) :
    Except RSLErr RepoState :=
  match lookupRef s name with
  | some cur => if cur = oldH then .ok (setRef s name newH) else .error .conflict
  | none => .error .refNotFound

/-- `GoGitClient.ApplyCommit`: write the commit object (its id given by the
content-hash oracle `hashOf`), then CAS the reference onto it. -/
def applyCommitGo (hashOf : CommitObj → GitHash) (s : RepoState) (c : CommitObj)
    (refName : GoStr) (oldH : GitHash) : Except RSLErr (GitHash × RepoState) :=
  let commitHash := hashOf c
  let s2 := addObj s commitHash c
  (checkAndSetRef s2 refName commitHash oldH).map (fun s3 => (commitHash, s3))

/-- `GoGitClient.Commit`: read the target reference (creating it at the zero
hash when absent), build the commit with the current tip as its only
(zero-filtered) parent, and apply it.  Signing only perturbs the content
hash, which `hashOf` accounts for. -/
def gitClientCommit (hashOf : CommitObj → GitHash) (s : RepoState) (treeHash : GitHash)
    (targetRef : GoStr) (message : GoStr) (_sign : Bool) :
    Except RSLErr (GitHash × RepoState) :=
  let (s1, cur) :=
    match lookupRef s targetRef with
    | some h => (s, h)
    | none => (setRef s targetRef zeroHash, zeroHash)
  applyCommitGo hashOf s1 (createCommitObjectGo treeHash [cur] message) targetRef cur

/-- `rsl.Entry.Commit`: encode the entry body and commit it onto the ledger
reference with the empty tree. -/
def Entry.commitOp (hashOf : CommitObj → GitHash) (s : RepoState) (e : Entry)
    (sign : Bool) : Except RSLErr (GitHash × RepoState) :=
  gitClientCommit hashOf s emptyTreeHash rslRefS e.createCommitMessage sign

/-- The target check of `rsl.Annotation.Commit`: the first failing
`GetEntry` aborts with its error. -/
def checkAnnotTargets (s : RepoState) : List GitHash → Option RSLErr
  | [] => none
  | id :: rest =>
    match getEntry s id with
    | .error e => some e
    | .ok _ => checkAnnotTargets s rest

/-- `rsl.Annotation.Commit`: check each referred id resolves via `GetEntry`,
then encode and commit like a standard entry. -/
def Annot.commitOp (hashOf : CommitObj → GitHash) (s : RepoState) (a : Annot)
    (sign : Bool) : Except RSLErr (GitHash × RepoState) :=
  match checkAnnotTargets s a.RSLEntryIDs with
  | some e => .error e
  | none => gitClientCommit hashOf s emptyTreeHash rslRefS a.createCommitMessage sign

/-- A sequence of `record` calls (`NewEntry` + `Entry.Commit`), returning the
final state and the ids of the written entries (newest first).  In this
sequential model the CAS never fails, so the error branch is dead. -/
def recordSeq (hashOf : CommitObj → GitHash) (s : RepoState) :
    List (GoStr × GitHash) → RepoState × List GitHash
  | [] => (s, [])
  | (refName, targetID) :: rest =>
    match Entry.commitOp hashOf s ⟨zeroHash, refName, targetID⟩ false with
    | .ok (h, s2) =>
      let (sf, ids) := recordSeq hashOf s2 rest
      (sf, h :: ids)
    | .error _ => recordSeq hashOf s rest

/-! ### Specification-side helpers used to state the claims -/

/-- The decoded chain from an iterator down to genesis: the entry itself,
then its parents in walk order.  Errors of the parent step propagate;
`entryNotFound` (genesis) ends the list. -/
def chainFrom (s : RepoState) : Nat → EntryT → Except RSLErr (List EntryT)
  | 0, _ => .error .outOfFuel
  | fuel + 1, it =>
    match getParentForEntry s it with
    | .error .entryNotFound => .ok [it]
    | .error e => .error e
    | .ok p => (chainFrom s fuel p).map (it :: ·)

/-- The annotations among a chain segment, in segment order. -/
def annotsIn (L : List EntryT) : List Annot :=
  L.filterMap (fun et => match et with | .annot a => some a | .std _ => none)

/-- Chain-shape check for C3: from `h`, every commit on the parent chain has
exactly one parent except the final genesis commit, which has none. -/
def chainShapeOk (s : RepoState) : Nat → GitHash → Bool
  | 0, _ => false
  | fuel + 1, h =>
    match lookupObj s h with
    | none => false
    | some c =>
      match c.parentHashes with
      | [] => true
      | [p] => chainShapeOk s fuel p
      | _ => false

/-- The keys of the object store. -/
def objKeys (s : RepoState) : List GitHash := s.objects.map Prod.fst

/-- Freshness of a hash oracle along a `recordSeq` run: every commit written
receives an id that is neither an existing object-store key nor the zero
hash (content-addressed storage provides this absent hash collisions). -/
def recordFresh (hashOf : CommitObj → GitHash) (s : RepoState) :
    List (GoStr × GitHash) → Bool
  | [] => true
  | (refName, targetID) :: rest =>
    match Entry.commitOp hashOf s ⟨zeroHash, refName, targetID⟩ false with
    | .ok (h, s2) =>
      !decide (h ∈ objKeys s) && !h.IsZero && recordFresh hashOf s2 rest
    | .error _ => false

/-- The relevant standard entries of a chain segment, in segment (walk)
order: the selection applied by the collect phase of
`GetEntriesInRangeForRef`. -/
def stdRel (refName : GoStr) (L : List EntryT) : List Entry :=
  L.filterMap (fun x => match x with
    | .std e => if relevantEntry refName e then some e else none
    | .annot _ => none)

/-- C1 repository: the ledger tip `1…1` is a genesis entry commit; a second
parseable entry commit `4…4` sits in the object store without being an
ancestor of the tip. -/
def c1Repo : RepoState :=
  { objects :=
      [(⟨List.replicate 20 1⟩, ⟨emptyTreeHash, [],
          Entry.createCommitMessage
            ⟨zeroHash, "refs/heads/main".toList, ⟨List.replicate 20 2⟩⟩⟩),
       (⟨List.replicate 20 4⟩, ⟨emptyTreeHash, [],
          Entry.createCommitMessage
            ⟨zeroHash, "refs/heads/dev".toList, ⟨List.replicate 20 3⟩⟩⟩)],
    refs := [(rslRefS, ⟨List.replicate 20 1⟩)] }

/-- A constant hash oracle (enough where only one commit is written). -/
def constOracle : CommitObj → GitHash := fun _ => ⟨List.replicate 20 9⟩

/-- A content-determined hash oracle for concrete `recordSeq` runs: the
commit's parent bytes and message bytes behind a nonzero tag byte. -/
def c3Oracle : CommitObj → GitHash :=
  fun c => ⟨5 :: ((c.parentHashes.map GitHash.bytes).flatten ++ c.message.map Char.toNat)⟩

/-- C8 witness ledger, newest first: annotation `c8A1` (tip, targets `c8E3`
and `c8E1`), gittuf-namespace entry `c8E3`, annotation `c8A2` (targets
`c8E2`), user entries `c8E2`, `c8E1`, `c8E0` (genesis). -/
def c8E0 : Entry := ⟨⟨List.replicate 20 10⟩, "refs/heads/feature".toList, ⟨List.replicate 20 30⟩⟩

def c8E1 : Entry := ⟨⟨List.replicate 20 11⟩, "refs/heads/main".toList, ⟨List.replicate 20 31⟩⟩

def c8E2 : Entry := ⟨⟨List.replicate 20 12⟩, "refs/heads/main".toList, ⟨List.replicate 20 32⟩⟩

def c8E3 : Entry := ⟨⟨List.replicate 20 13⟩, "refs/gittuf/policy".toList, ⟨List.replicate 20 33⟩⟩

def c8A1 : Annot :=
  ⟨⟨List.replicate 20 21⟩, [⟨List.replicate 20 13⟩, ⟨List.replicate 20 11⟩], true, []⟩

def c8A2 : Annot := ⟨⟨List.replicate 20 22⟩, [⟨List.replicate 20 12⟩], true, []⟩

def c8Repo : RepoState :=
  { objects :=
      [(c8E0.ID, ⟨emptyTreeHash, [],
          Entry.createCommitMessage ⟨zeroHash, c8E0.RefName, c8E0.TargetID⟩⟩),
       (c8E1.ID, ⟨emptyTreeHash, [c8E0.ID],
          Entry.createCommitMessage ⟨zeroHash, c8E1.RefName, c8E1.TargetID⟩⟩),
       (c8E2.ID, ⟨emptyTreeHash, [c8E1.ID],
          Entry.createCommitMessage ⟨zeroHash, c8E2.RefName, c8E2.TargetID⟩⟩),
       (c8A2.ID, ⟨emptyTreeHash, [c8E2.ID],
          Annot.createCommitMessage ⟨zeroHash, c8A2.RSLEntryIDs, c8A2.Skip, c8A2.Message⟩⟩),
       (c8E3.ID, ⟨emptyTreeHash, [c8A2.ID],
          Entry.createCommitMessage ⟨zeroHash, c8E3.RefName, c8E3.TargetID⟩⟩),
       (c8A1.ID, ⟨emptyTreeHash, [c8E3.ID],
          Annot.createCommitMessage ⟨zeroHash, c8A1.RSLEntryIDs, c8A1.Skip, c8A1.Message⟩⟩)],
    refs := [(rslRefS, c8A1.ID)] }

/-- Lines whose characters never include a newline: the joined text splits
back into exactly these lines. -/
def NLFree (L : List GoStr) : Prop := ∀ l ∈ L, '\n' ∉ l

/-- The encoded `entryID` line for a target hash. -/
def idLine (t : GitHash) : GoStr := entryIDKeyS ++ ": ".toList ++ GitHash.str t

/-- The encoded `skip` line. -/
def skipLine (sk : Bool) : GoStr := skipKeyS ++ (if sk then ": true" else ": false").toList

/-- The key of a `"key: value"` line as the decoder sees it. -/
def lineKey (l : GoStr) : GoStr := trimSpaceGo ((splitOnChar ':' (trimSpaceGo l)).headI)

/-- The bodies `parseRSLEntryText` actually rejects: fewer than four lines
after the outer trim, or a key-value line without a colon — for annotations
only the lines before the `BEGIN MESSAGE` marker count. -/
def malformedBody (text : GoStr) : Prop :=
  (splitOnChar '\n' (trimSpaceGo text)).length < 4
  ∨ ∃ l ∈ (if hasPref annotHeaderS (trimSpaceGo text) = true
           then ((splitOnChar '\n' (trimSpaceGo text)).drop 2).takeWhile
                  (fun l => !decide (trimSpaceGo l = beginMsgS))
           else (splitOnChar '\n' (trimSpaceGo text)).drop 2),
      (splitOnChar ':' (trimSpaceGo l)).length < 2

/-- Concrete repository used by the C9 witness: a genesis commit, a commit
with two parents (an out-of-band branch), and a normal one-parent commit. -/
def c9Repo : RepoState :=
  { objects :=
      [(⟨List.replicate 20 1⟩, ⟨emptyTreeHash, [],
          Entry.createCommitMessage ⟨zeroHash, "refs/heads/main".toList, ⟨List.replicate 20 9⟩⟩⟩),
       (⟨List.replicate 20 2⟩, ⟨emptyTreeHash, [⟨List.replicate 20 1⟩, ⟨List.replicate 20 1⟩],
          Entry.createCommitMessage ⟨zeroHash, "refs/heads/main".toList, ⟨List.replicate 20 9⟩⟩⟩),
       (⟨List.replicate 20 3⟩, ⟨emptyTreeHash, [⟨List.replicate 20 1⟩],
          Entry.createCommitMessage ⟨zeroHash, "refs/heads/main".toList, ⟨List.replicate 20 9⟩⟩⟩)],
    refs := [(rslRefS, ⟨List.replicate 20 3⟩)] }

/-- Whether an item stops the generic backward walk. -/
def entStopped (stop : Entry → Bool) : EntryT → Bool
  | .std e => stop e
  | .annot _ => false

/-- Ledger used by the C5 counterexample and witness: a user genesis entry
followed by two annotations that both target it. -/
def c5Repo : RepoState :=
  { objects :=
      [(⟨List.replicate 20 1⟩, ⟨emptyTreeHash, [],
          Entry.createCommitMessage ⟨zeroHash, "refs/heads/main".toList, ⟨List.replicate 20 9⟩⟩⟩),
       (⟨List.replicate 20 2⟩, ⟨emptyTreeHash, [⟨List.replicate 20 1⟩],
          Annot.createCommitMessage ⟨zeroHash, [⟨List.replicate 20 1⟩], true, []⟩⟩),
       (⟨List.replicate 20 3⟩, ⟨emptyTreeHash, [⟨List.replicate 20 2⟩],
          Annot.createCommitMessage ⟨zeroHash, [⟨List.replicate 20 1⟩], false, []⟩⟩)],
    refs := [(rslRefS, ⟨List.replicate 20 3⟩)] }

/-- Decoded items of `c5Repo`, used by the C5 witness. -/
def c5G : Entry := ⟨⟨List.replicate 20 1⟩, "refs/heads/main".toList, ⟨List.replicate 20 9⟩⟩

/-- First (older) annotation of `c5Repo`. -/
def c5A1 : Annot := ⟨⟨List.replicate 20 2⟩, [⟨List.replicate 20 1⟩], true, []⟩

/-- Second (newer) annotation of `c5Repo`. -/
def c5A2 : Annot := ⟨⟨List.replicate 20 3⟩, [⟨List.replicate 20 1⟩], false, []⟩

/-- The decoded chain of `c5Repo`, tip first. -/
def c5Chain : List EntryT := [.annot c5A2, .annot c5A1, .std c5G]

/-- Ledger used by the C6 counterexample and witness: commit `100…` (C0)
with descendants `101…` (t1) and `103…` (t3) and an unrelated commit `102…`
(t2); RSL entries E1→t1, E2→t2, E3→t3 on `refs/heads/main`. -/
def c6Repo : RepoState :=
  { objects :=
      [(⟨List.replicate 20 100⟩, ⟨emptyTreeHash, [], "base".toList⟩),
       (⟨List.replicate 20 101⟩, ⟨emptyTreeHash, [⟨List.replicate 20 100⟩], "t1".toList⟩),
       (⟨List.replicate 20 102⟩, ⟨emptyTreeHash, [], "t2".toList⟩),
       (⟨List.replicate 20 103⟩, ⟨emptyTreeHash, [⟨List.replicate 20 100⟩], "t3".toList⟩),
       (⟨List.replicate 20 1⟩, ⟨emptyTreeHash, [],
          Entry.createCommitMessage ⟨zeroHash, "refs/heads/main".toList, ⟨List.replicate 20 101⟩⟩⟩),
       (⟨List.replicate 20 2⟩, ⟨emptyTreeHash, [⟨List.replicate 20 1⟩],
          Entry.createCommitMessage ⟨zeroHash, "refs/heads/main".toList, ⟨List.replicate 20 102⟩⟩⟩),
       (⟨List.replicate 20 3⟩, ⟨emptyTreeHash, [⟨List.replicate 20 2⟩],
          Entry.createCommitMessage ⟨zeroHash, "refs/heads/main".toList, ⟨List.replicate 20 103⟩⟩⟩)],
    refs := [(rslRefS, ⟨List.replicate 20 3⟩)] }

/-- Empty-ledger repository for the first C6 witness conjunct. -/
def emptyRSLRepo : RepoState := { objects := [], refs := [(rslRefS, zeroHash)] }

/-! ### String-machinery lemmas -/

theorem trimLeftGo_cons {c : Char} {s : GoStr} (hc : goIsSpace c = false) :
    trimLeftGo (c :: s) = c :: s := by
  simp [trimLeftGo, List.dropWhile_cons, hc]

theorem trimLeftGo_eq_self {s : GoStr}
    (h : ∀ c, s.head? = some c → goIsSpace c = false) : trimLeftGo s = s := by
  cases s with
  | nil => rfl
  | cons c t => exact trimLeftGo_cons (h c rfl)

theorem trimRightGo_eq_self {s : GoStr}
    (h : ∀ c, s.getLast? = some c → goIsSpace c = false) : trimRightGo s = s := by
  unfold trimRightGo
  have hrev : s.reverse.dropWhile goIsSpace = s.reverse := by
    cases hs : s.reverse with
    | nil => rfl
    | cons c t =>
      have hlast : s.getLast? = some c := by
        rw [← List.head?_reverse, hs]; rfl
      simp [List.dropWhile_cons, h c hlast]
  rw [hrev, List.reverse_reverse]

theorem trimSpaceGo_eq_self {s : GoStr}
    (h1 : ∀ c, s.head? = some c → goIsSpace c = false)
    (h2 : ∀ c, s.getLast? = some c → goIsSpace c = false) : trimSpaceGo s = s := by
  unfold trimSpaceGo
  rw [trimLeftGo_eq_self h1, trimRightGo_eq_self h2]

theorem trimRightGo_append_space {s : GoStr} {c : Char} (hc : goIsSpace c = true) :
    trimRightGo (s ++ [c]) = trimRightGo s := by
  unfold trimRightGo
  rw [List.reverse_append]
  simp [List.dropWhile_cons, hc]

theorem splitOnChar_of_not_mem {c : Char} {s : GoStr} (h : c ∉ s) :
    splitOnChar c s = [s] := by
  induction s with
  | nil => rfl
  | cons x xs ih =>
    have hx : ¬ x = c := fun hxc => h (by simp [hxc])
    have hxs : c ∉ xs := fun hm => h (List.mem_cons_of_mem _ hm)
    rw [splitOnChar]
    simp only [hx, if_false, ih hxs]

theorem splitOnChar_append_cons {c : Char} {x t : GoStr} (h : c ∉ x) :
    splitOnChar c (x ++ c :: t) = x :: splitOnChar c t := by
  induction x with
  | nil => simp [splitOnChar]
  | cons y ys ih =>
    have hy : ¬ y = c := fun hyc => h (by simp [hyc])
    have hys : c ∉ ys := fun hm => h (List.mem_cons_of_mem _ hm)
    have hne : splitOnChar c (ys ++ c :: t) ≠ [] := by
      rw [ih hys]; exact List.cons_ne_nil _ _
    rw [List.cons_append, splitOnChar]
    simp only [hy, if_false]
    rw [ih hys]

theorem splitOnChar_joinSep {c : Char} {L : List GoStr} (hL : L ≠ [])
    (h : ∀ l ∈ L, c ∉ l) : splitOnChar c (joinSep c L) = L := by
  induction L with
  | nil => exact absurd rfl hL
  | cons x xs ih =>
    cases xs with
    | nil =>
      show splitOnChar c (joinSep c [x]) = [x]
      rw [joinSep]
      exact splitOnChar_of_not_mem (h x (by simp))
    | cons y ys =>
      have hj : joinSep c (x :: y :: ys) = x ++ c :: joinSep c (y :: ys) := rfl
      rw [hj, splitOnChar_append_cons (h x (by simp))]
      rw [ih (List.cons_ne_nil _ _) (fun l hl => h l (List.mem_cons_of_mem _ hl))]

theorem joinSep_flatten {c : Char} {B : List GoStr} (hB : B ≠ []) :
    ∀ A : List GoStr, joinSep c (A ++ [joinSep c B]) = joinSep c (A ++ B) := by
  intro A
  induction A with
  | nil =>
    show joinSep c [joinSep c B] = joinSep c B
    rfl
  | cons a A2 ih =>
    cases A2 with
    | nil =>
      cases B with
      | nil => exact absurd rfl hB
      | cons b bs =>
        show joinSep c [a, joinSep c (b :: bs)] = joinSep c (a :: b :: bs)
        rfl
    | cons a2 A3 =>
      have h1 : joinSep c ((a :: a2 :: A3) ++ [joinSep c B])
          = a ++ c :: joinSep c ((a2 :: A3) ++ [joinSep c B]) := rfl
      have h2 : joinSep c ((a :: a2 :: A3) ++ B)
          = a ++ c :: joinSep c ((a2 :: A3) ++ B) := by
        cases B with
        | nil => exact absurd rfl hB
        | cons b bs => rfl
      rw [h1, h2, ih]

theorem hasPref_append (p s : GoStr) : hasPref p (p ++ s) = true := by
  induction p with
  | nil => rfl
  | cons c cs ih => simp [hasPref, ih]

/-! ### Hex round-trip lemmas -/

theorem getD_mem_or_default (l : List Char) (n : Nat) (d : Char) :
    l.getD n d ∈ l ∨ l.getD n d = d := by
  rw [List.getD_eq_getElem?_getD]
  rcases h : l[n]? with _ | c
  · right; rfl
  · left
    obtain ⟨hn, rfl⟩ := List.getElem?_eq_some_iff.mp h
    exact List.getElem_mem hn

theorem hexDigitChar_mem (n : Nat) : hexDigitChar n ∈ "0123456789abcdef".toList := by
  rcases getD_mem_or_default "0123456789abcdef".toList n '0' with h | h
  · exact h
  · rw [hexDigitChar, h]; decide

theorem hexDigit_props :
    ∀ c ∈ "0123456789abcdef".toList,
      goIsSpace c = false ∧ ¬c = '\n' ∧ ¬c = ':' ∧ ¬c = '-' := by decide

theorem hexVal_hexDigitChar {n : Nat} (h : n < 16) :
    hexVal (hexDigitChar n) = some n := by
  have : ∀ m : Nat, m < 16 → hexVal (hexDigitChar m) = some m := by decide
  exact this n h

theorem GitHash.str_cons (b : Nat) (rest : List Nat) :
    GitHash.str ⟨b :: rest⟩ =
      hexDigitChar (b / 16) :: hexDigitChar (b % 16) :: GitHash.str ⟨rest⟩ := rfl

theorem hexDecodeGo_str {bs : List Nat} (h : ∀ b ∈ bs, b < 256) :
    hexDecodeGo (GitHash.str ⟨bs⟩) = bs := by
  induction bs with
  | nil => rfl
  | cons b rest ih =>
    rw [GitHash.str_cons, hexDecodeGo]
    have hb : b < 256 := h b (by simp)
    rw [hexVal_hexDigitChar (by omega), hexVal_hexDigitChar (by omega)]
    show (16 * (b / 16) + b % 16) :: hexDecodeGo (GitHash.str ⟨rest⟩) = b :: rest
    have hbeq : 16 * (b / 16) + b % 16 = b := by omega
    rw [hbeq, ih (fun x hx => h x (List.mem_cons_of_mem _ hx))]

theorem newHashGo_str {h : GitHash} (hwf : h.WF) : newHashGo (GitHash.str h) = h := by
  obtain ⟨bs⟩ := h
  obtain ⟨hlen, hbytes⟩ := hwf
  have hlen2 : bs.length = 20 := hlen
  have hbytes2 : ∀ b ∈ bs, b < 256 := hbytes
  unfold newHashGo
  rw [hexDecodeGo_str hbytes2]
  rw [List.take_of_length_le (by omega)]
  show ({ bytes := bs ++ List.replicate (20 - bs.length) 0 } : GitHash) = { bytes := bs }
  rw [hlen2]
  simp

theorem mem_str_hexDigit {h : GitHash} : ∀ c ∈ GitHash.str h, c ∈ "0123456789abcdef".toList := by
  obtain ⟨bs⟩ := h
  induction bs with
  | nil => intro c hc; cases hc
  | cons b rest ih =>
    intro c hc
    rw [GitHash.str_cons] at hc
    rcases hc with _ | ⟨_, hc⟩
    · exact hexDigitChar_mem _
    · rcases hc with _ | ⟨_, hc⟩
      · exact hexDigitChar_mem _
      · exact ih c hc

theorem str_ne_nil {h : GitHash} (hne : h.bytes ≠ []) : GitHash.str h ≠ [] := by
  obtain ⟨bs⟩ := h
  cases bs with
  | nil => exact absurd rfl hne
  | cons b rest => rw [GitHash.str_cons]; exact List.cons_ne_nil _ _

/-! ### Base64 round-trip -/

theorem b64Val_b64Char {n : Nat} (h : n < 64) : b64Val (b64Char n) = some n := by
  have : ∀ m : Nat, m < 64 → b64Val (b64Char m) = some m := by decide
  exact this n h

theorem b64Char_ne_pad (n : Nat) (h : n < 64) : ¬b64Char n = '=' := by
  have : ∀ m : Nat, m < 64 → ¬b64Char m = '=' := by decide
  exact this n h

theorem b64Char_mem_or_pad (n : Nat) : b64Char n ∈ b64Alphabet ∨ b64Char n = '=' :=
  getD_mem_or_default b64Alphabet n '=' 

theorem b64Alphabet_props :
    ∀ c ∈ b64Alphabet, goIsSpace c = false ∧ ¬c = '\n' ∧ ¬c = '-' := by decide

theorem mem_b64Encode {bs : List Nat} :
    ∀ c ∈ b64Encode bs, c ∈ b64Alphabet ∨ c = '=' := by
  induction bs using b64Encode.induct with
  | case1 => intro c hc; cases hc
  | case2 a =>
    intro c hc
    rw [b64Encode] at hc
    rcases hc with _ | ⟨_, hc⟩
    · exact b64Char_mem_or_pad _
    · rcases hc with _ | ⟨_, hc⟩
      · exact b64Char_mem_or_pad _
      · rcases hc with _ | ⟨_, hc⟩
        · right; rfl
        · rcases hc with _ | ⟨_, hc⟩
          · right; rfl
          · cases hc
  | case3 a b =>
    intro c hc
    rw [b64Encode] at hc
    rcases hc with _ | ⟨_, hc⟩
    · exact b64Char_mem_or_pad _
    · rcases hc with _ | ⟨_, hc⟩
      · exact b64Char_mem_or_pad _
      · rcases hc with _ | ⟨_, hc⟩
        · exact b64Char_mem_or_pad _
        · rcases hc with _ | ⟨_, hc⟩
          · right; rfl
          · cases hc
  | case4 a b c rest ih =>
    intro x hx
    rw [b64Encode] at hx
    rcases hx with _ | ⟨_, hx⟩
    · exact b64Char_mem_or_pad _
    · rcases hx with _ | ⟨_, hx⟩
      · exact b64Char_mem_or_pad _
      · rcases hx with _ | ⟨_, hx⟩
        · exact b64Char_mem_or_pad _
        · rcases hx with _ | ⟨_, hx⟩
          · exact b64Char_mem_or_pad _
          · exact ih x hx

theorem b64_roundtrip : ∀ bs : List Nat, (∀ b ∈ bs, b < 256) →
    b64Decode (b64Encode bs) = some bs := by
  intro bs
  induction bs using b64Encode.induct with
  | case1 => intro _; rfl
  | case2 a =>
    intro h
    have ha : a < 256 := h a (by simp)
    rw [b64Encode]
    simp only [b64Decode]
    rw [if_pos (by simp)]
    rw [b64Val_b64Char (by omega), b64Val_b64Char (by omega)]
    show some [a / 4 * 4 + a % 4 * 16 / 16] = some [a]
    have : a / 4 * 4 + a % 4 * 16 / 16 = a := by omega
    rw [this]
  | case3 a b =>
    intro h
    have ha : a < 256 := h a (by simp)
    have hb : b < 256 := h b (by simp)
    rw [b64Encode]
    simp only [b64Decode]
    rw [if_neg (fun hcon => b64Char_ne_pad (b % 16 * 4) (by omega) hcon.1)]
    rw [if_pos (by simp)]
    rw [b64Val_b64Char (by omega), b64Val_b64Char (by omega), b64Val_b64Char (by omega)]
    show some [a / 4 * 4 + (a % 4 * 16 + b / 16) / 16,
               (a % 4 * 16 + b / 16) % 16 * 16 + b % 16 * 4 / 4] = some [a, b]
    have h1 : a / 4 * 4 + (a % 4 * 16 + b / 16) / 16 = a := by omega
    have h2 : (a % 4 * 16 + b / 16) % 16 * 16 + b % 16 * 4 / 4 = b := by omega
    rw [h1, h2]
  | case4 a b c rest ih =>
    intro h
    have ha : a < 256 := h a (by simp)
    have hb : b < 256 := h b (by simp)
    have hc : c < 256 := h c (by simp)
    rw [b64Encode]
    simp only [b64Decode]
    rw [if_neg (fun hcon => b64Char_ne_pad (b % 16 * 4 + c / 64) (by omega) hcon.1)]
    rw [if_neg (fun hcon => b64Char_ne_pad (c % 64) (by omega) hcon.1)]
    rw [b64Val_b64Char (by omega), b64Val_b64Char (by omega),
        b64Val_b64Char (by omega), b64Val_b64Char (by omega)]
    rw [ih (fun x hx => h x (by simp [hx]))]
    show some ((a / 4 * 4 + (a % 4 * 16 + b / 16) / 16) ::
               ((a % 4 * 16 + b / 16) % 16 * 16 + (b % 16 * 4 + c / 64) / 4) ::
               ((b % 16 * 4 + c / 64) % 4 * 64 + c % 64) :: rest) = some (a :: b :: c :: rest)
    have h1 : a / 4 * 4 + (a % 4 * 16 + b / 16) / 16 = a := by omega
    have h2 : (a % 4 * 16 + b / 16) % 16 * 16 + (b % 16 * 4 + c / 64) / 4 = b := by omega
    have h3 : (b % 16 * 4 + c / 64) % 4 * 64 + c % 64 = c := by omega
    rw [h1, h2, h3]

/-! ### PEM armor lemmas -/

theorem chunksAux_zero (l : List Char) : chunksAux 0 l = [] := by cases l <;> rfl

theorem chunksAux_nil (n : Nat) : chunksAux n [] = [] := by cases n <;> rfl

theorem chunksAux_succ_cons (n : Nat) (x : Char) (xs : List Char) :
    chunksAux (n + 1) (x :: xs) = (x :: xs).take 64 :: chunksAux n ((x :: xs).drop 64) := rfl

theorem chunksAux_join : ∀ (n : Nat) (l : List Char), l.length ≤ n →
    (chunksAux n l).foldr (· ++ ·) [] = l := by
  intro n
  induction n with
  | zero =>
    intro l hl
    have : l = [] := List.eq_nil_of_length_eq_zero (Nat.le_zero.mp hl)
    rw [this]; rfl
  | succ n ih =>
    intro l hl
    cases l with
    | nil => rfl
    | cons x xs =>
      have hl2 : xs.length + 1 ≤ n + 1 := by simpa using hl
      rw [chunksAux_succ_cons, List.foldr_cons]
      rw [ih ((x :: xs).drop 64)
        (by simp only [List.length_drop, List.length_cons]; omega)]
      exact List.take_append_drop 64 (x :: xs)

theorem chunks64_join (l : List Char) : (chunks64 l).foldr (· ++ ·) [] = l :=
  chunksAux_join l.length l (Nat.le_refl _)

theorem chunksAux_mem : ∀ (n : Nat) (l : List Char), ∀ ch ∈ chunksAux n l,
    ch ≠ [] ∧ ∀ c ∈ ch, c ∈ l := by
  intro n
  induction n with
  | zero => intro l ch hch; rw [chunksAux_zero] at hch; cases hch
  | succ n ih =>
    intro l ch hch
    cases l with
    | nil => rw [chunksAux_nil] at hch; cases hch
    | cons x xs =>
      rw [chunksAux_succ_cons] at hch
      rcases hch with _ | ⟨_, hch⟩
      · constructor
        · show (x :: xs).take 64 ≠ []
          simp
        · intro c hc
          exact List.take_subset 64 (x :: xs) hc
      · obtain ⟨hne, hsub⟩ := ih ((x :: xs).drop 64) ch hch
        exact ⟨hne, fun c hc => List.drop_subset 64 (x :: xs) (hsub c hc)⟩

theorem chunks64_mem (l : List Char) : ∀ ch ∈ chunks64 l, ch ≠ [] ∧ ∀ c ∈ ch, c ∈ l :=
  chunksAux_mem l.length l

theorem foldr_pemLines (L : List GoStr) :
    L.foldr (fun line acc => line ++ '\n' :: acc) (endMsgS ++ ['\n'])
      = joinSep '\n' (L ++ [endMsgS]) ++ ['\n'] := by
  induction L with
  | nil => rfl
  | cons l L2 ih =>
    rw [List.foldr_cons, ih]
    have hj : joinSep '\n' ((l :: L2) ++ [endMsgS]) = l ++ '\n' :: joinSep '\n' (L2 ++ [endMsgS]) := by
      cases L2 <;> rfl
    rw [hj]
    simp

theorem pemEncodeMsg_eq (m : List Nat) :
    pemEncodeMsg m
      = joinSep '\n' (beginMsgS :: chunks64 (b64Encode m) ++ [endMsgS]) ++ ['\n'] := by
  unfold pemEncodeMsg
  rw [foldr_pemLines]
  have hj : joinSep '\n' (beginMsgS :: chunks64 (b64Encode m) ++ [endMsgS])
      = beginMsgS ++ '\n' :: joinSep '\n' (chunks64 (b64Encode m) ++ [endMsgS]) := by
    cases chunks64 (b64Encode m) <;> rfl
  rw [hj]
  simp

theorem afterFirstLine_spec {p : GoStr → Bool} {A C : List GoStr} {b : GoStr}
    (hA : ∀ l ∈ A, p l = false) (hb : p b = true) :
    afterFirstLine p (A ++ b :: C) = some C := by
  induction A with
  | nil => simp [afterFirstLine, hb]
  | cons a A2 ih =>
    rw [List.cons_append, afterFirstLine]
    rw [hA a (by simp)]
    simp only [Bool.false_eq_true, if_false]
    exact ih (fun l hl => hA l (List.mem_cons_of_mem _ hl))

theorem afterFirstLine_none {p : GoStr → Bool} {L : List GoStr}
    (hL : ∀ l ∈ L, p l = false) : afterFirstLine p L = none := by
  induction L with
  | nil => rfl
  | cons a L2 ih =>
    rw [afterFirstLine, hL a (by simp)]
    simp only [Bool.false_eq_true, if_false]
    exact ih (fun l hl => hL l (List.mem_cons_of_mem _ hl))

theorem takeUntilLine_spec {p : GoStr → Bool} {L C : List GoStr} {x : GoStr}
    (hL : ∀ l ∈ L, p l = false) (hx : p x = true) :
    takeUntilLine p (L ++ x :: C) = some L := by
  induction L with
  | nil => simp [takeUntilLine, hx]
  | cons a L2 ih =>
    rw [List.cons_append, takeUntilLine]
    rw [hL a (by simp)]
    simp only [Bool.false_eq_true, if_false]
    rw [ih (fun l hl => hL l (List.mem_cons_of_mem _ hl))]
    rfl

theorem getLast?_append_of {l1 l2 : List Char} {c : Char} (h : l2.getLast? = some c) :
    (l1 ++ l2).getLast? = some c := by
  rw [List.getLast?_append, h]; rfl

theorem joinSep_cons_of_ne (c : Char) (x : GoStr) (T : List GoStr) (hT : T ≠ []) :
    joinSep c (x :: T) = x ++ c :: joinSep c T := by
  cases T with
  | nil => exact absurd rfl hT
  | cons y ys => rfl

theorem joinSep_append_last {c : Char} {L : List GoStr} (hL : L ≠ []) (x : GoStr) :
    joinSep c (L ++ [x]) = joinSep c L ++ c :: x := by
  induction L with
  | nil => exact absurd rfl hL
  | cons a L2 ih =>
    cases L2 with
    | nil => rfl
    | cons b L3 =>
      rw [List.cons_append, joinSep_cons_of_ne _ _ _ (by simp),
          joinSep_cons_of_ne _ _ _ (List.cons_ne_nil _ _), ih (List.cons_ne_nil _ _)]
      simp

theorem trimSpace_pemEncodeMsg (m : List Nat) :
    trimSpaceGo (pemEncodeMsg m)
      = joinSep '\n' (beginMsgS :: chunks64 (b64Encode m) ++ [endMsgS]) := by
  rw [pemEncodeMsg_eq]
  have hhead : ∀ c, (joinSep '\n' (beginMsgS :: chunks64 (b64Encode m) ++ [endMsgS])
      ++ ['\n']).head? = some c → goIsSpace c = false := by
    intro c hc
    rw [List.cons_append] at hc
    rw [joinSep_cons_of_ne '\n' beginMsgS (chunks64 (b64Encode m) ++ [endMsgS]) (by simp)] at hc
    have : beginMsgS = '-' :: "----BEGIN MESSAGE-----".toList := by decide
    rw [this] at hc
    simp only [List.cons_append, List.head?_cons] at hc
    cases hc
    decide
  have hlast0 : (joinSep '\n' (beginMsgS :: chunks64 (b64Encode m) ++ [endMsgS])).getLast?
      = some '-' := by
    rw [joinSep_append_last (List.cons_ne_nil _ _)]
    apply getLast?_append_of
    show ('\n' :: endMsgS).getLast? = some '-'
    decide
  unfold trimSpaceGo
  rw [trimLeftGo_eq_self hhead, trimRightGo_append_space (by decide), trimRightGo_eq_self]
  intro c hc
  rw [hlast0] at hc
  cases hc
  decide

theorem chunk_line_props {m : List Nat} :
    ∀ ch ∈ chunks64 (b64Encode m), ('\n' ∉ ch) ∧ ¬ch = beginMsgS ∧ ¬ch = endMsgS := by
  intro ch hch
  obtain ⟨hne, hsub⟩ := chunks64_mem (b64Encode m) ch hch
  have hchars : ∀ c ∈ ch, ¬c = '\n' ∧ ¬c = '-' := by
    intro c hc
    rcases mem_b64Encode c (hsub c hc) with h | h
    · obtain ⟨_, h2, h3⟩ := b64Alphabet_props c h
      exact ⟨h2, h3⟩
    · rw [h]; constructor <;> decide
  refine ⟨fun hmem => (hchars _ hmem).1 rfl, ?_, ?_⟩
  · intro heq
    cases ch with
    | nil => exact hne rfl
    | cons c0 ch2 =>
      have hh := congrArg List.head? heq
      rw [List.head?_cons, show beginMsgS.head? = some '-' from rfl] at hh
      exact (hchars c0 (by simp)).2 (Option.some.inj hh)
  · intro heq
    cases ch with
    | nil => exact hne rfl
    | cons c0 ch2 =>
      have hh := congrArg List.head? heq
      rw [List.head?_cons, show endMsgS.head? = some '-' from rfl] at hh
      exact (hchars c0 (by simp)).2 (Option.some.inj hh)

theorem pemDecodeMsg_some (pre : List GoStr) (m : List Nat)
    (hpre1 : NLFree pre) (hpre2 : ∀ l ∈ pre, ¬l = beginMsgS)
    (hm : ∀ b ∈ m, b < 256) :
    pemDecodeMsg (joinSep '\n'
      (pre ++ (beginMsgS :: (chunks64 (b64Encode m) ++ [endMsgS])))) = some m := by
  have hsplit : splitOnChar '\n' (joinSep '\n'
      (pre ++ (beginMsgS :: (chunks64 (b64Encode m) ++ [endMsgS]))))
      = pre ++ (beginMsgS :: (chunks64 (b64Encode m) ++ [endMsgS])) := by
    apply splitOnChar_joinSep (by simp)
    intro l hl
    rcases List.mem_append.mp hl with h | h
    · exact hpre1 l h
    · rcases h with _ | ⟨_, h⟩
      · decide
      · rcases List.mem_append.mp h with h | h
        · exact (chunk_line_props l h).1
        · rcases h with _ | ⟨_, h⟩
          · decide
          · cases h
  unfold pemDecodeMsg
  rw [hsplit]
  rw [afterFirstLine_spec (fun l hl => by simp [hpre2 l hl]) (by simp)]
  show (match takeUntilLine (fun l => decide (l = endMsgS))
          (chunks64 (b64Encode m) ++ [endMsgS]) with
        | none => none
        | some body => b64Decode (body.foldr (· ++ ·) [])) = some m
  rw [takeUntilLine_spec (fun l hl => by simp [(chunk_line_props l hl).2.2]) (by simp)]
  show b64Decode ((chunks64 (b64Encode m)).foldr (· ++ ·) []) = some m
  rw [chunks64_join]
  exact b64_roundtrip m hm

theorem pemDecodeMsg_none (L : List GoStr) (hL0 : L ≠ []) (hL1 : NLFree L)
    (hL2 : ∀ l ∈ L, ¬l = beginMsgS) :
    pemDecodeMsg (joinSep '\n' L) = none := by
  have hsplit : splitOnChar '\n' (joinSep '\n' L) = L := splitOnChar_joinSep hL0 hL1
  unfold pemDecodeMsg
  rw [hsplit]
  rw [afterFirstLine_none (fun l hl => by simp [hL2 l hl])]

/-! ### Trim-invariance helpers -/

theorem trimLeftGo_eq_of_trim {R : GoStr} (h : trimSpaceGo R = R) : trimLeftGo R = R := by
  have h1 : (trimLeftGo R).length ≤ R.length := (List.dropWhile_sublist _).length_le
  have h2 : (trimSpaceGo R).length ≤ (trimLeftGo R).length := by
    unfold trimSpaceGo trimRightGo
    rw [List.length_reverse]
    calc ((trimLeftGo R).reverse.dropWhile goIsSpace).length
        ≤ (trimLeftGo R).reverse.length := (List.dropWhile_sublist _).length_le
      _ = (trimLeftGo R).length := List.length_reverse _
  have hlen : (trimLeftGo R).length = R.length := by
    rw [h] at h2; omega
  exact List.IsSuffix.eq_of_length (List.dropWhile_suffix _) hlen

theorem head_nonspace_of_trim {R : GoStr} (h : trimSpaceGo R = R) :
    ∀ c, R.head? = some c → goIsSpace c = false := by
  intro c hc
  cases hR : R with
  | nil => rw [hR] at hc; cases hc
  | cons c0 t =>
    rw [hR] at hc
    have hc0 : c0 = c := by simpa using hc
    subst hc0
    by_contra hsp
    have hsp2 : goIsSpace c0 = true := by
      cases hb : goIsSpace c0
      · exact absurd hb hsp
      · rfl
    have hleft := trimLeftGo_eq_of_trim h
    rw [hR] at hleft
    unfold trimLeftGo at hleft
    rw [List.dropWhile_cons, hsp2] at hleft
    simp only [if_true] at hleft
    have : (t.dropWhile goIsSpace).length ≤ t.length := (List.dropWhile_sublist _).length_le
    have hlen := congrArg List.length hleft
    simp only [List.length_cons] at hlen
    omega

theorem getLast_nonspace_of_trim {R : GoStr} (h : trimSpaceGo R = R) :
    ∀ c, R.getLast? = some c → goIsSpace c = false := by
  intro c hc
  have hleft := trimLeftGo_eq_of_trim h
  have hright : trimRightGo R = R := by
    have := h
    unfold trimSpaceGo at this
    rw [hleft] at this
    exact this
  by_contra hsp
  have hsp2 : goIsSpace c = true := by
    cases hb : goIsSpace c
    · exact absurd hb hsp
    · rfl
  have hrev : R.reverse.head? = some c := by
    rw [List.head?_reverse]; exact hc
  cases hR : R.reverse with
  | nil => rw [hR] at hrev; cases hrev
  | cons c0 t =>
    rw [hR] at hrev
    have hc0 : c0 = c := by simpa using hrev
    subst hc0
    unfold trimRightGo at hright
    rw [hR, List.dropWhile_cons, hsp2] at hright
    simp only [if_true] at hright
    have hlen := congrArg List.length hright
    rw [List.length_reverse] at hlen
    have h1 : (t.dropWhile goIsSpace).length ≤ t.length := (List.dropWhile_sublist _).length_le
    have h2 : R.length = t.length + 1 := by
      have := congrArg List.length hR
      rw [List.length_reverse] at this
      simpa using this
    omega

theorem trim_cons_space {c : Char} {R : GoStr} (hc : goIsSpace c = true) :
    trimSpaceGo (c :: R) = trimSpaceGo R := by
  unfold trimSpaceGo trimLeftGo
  rw [List.dropWhile_cons, hc]
  simp

theorem trimSpaceGo_of_trim {R : GoStr} (h : trimSpaceGo R = R) :
    trimSpaceGo (' ' :: R) = R := by
  rw [trim_cons_space (by decide)]
  exact h

theorem hexstr_trim (t : GitHash) : trimSpaceGo (GitHash.str t) = GitHash.str t := by
  apply trimSpaceGo_eq_self
  · intro c hc
    have hmem : c ∈ GitHash.str t := by
      cases hs : GitHash.str t with
      | nil => rw [hs] at hc; cases hc
      | cons a b =>
        rw [hs] at hc
        have ha : a = c := by simpa using hc
        rw [← ha]
        simp
    exact (hexDigit_props c (mem_str_hexDigit c hmem)).1
  · intro c hc
    have hmem : c ∈ GitHash.str t := by
      obtain ⟨hne, heq⟩ := List.mem_getLast?_eq_getLast (by rw [hc]; rfl)
      rw [heq]
      exact List.getLast_mem hne
    exact (hexDigit_props c (mem_str_hexDigit c hmem)).1

theorem head?_append_of_ne {K : GoStr} (X : GoStr) (hK : K ≠ []) :
    (K ++ X).head? = K.head? := by
  cases K with
  | nil => exact absurd rfl hK
  | cons c t => rfl

theorem getLast?_joinSep_last {c : Char} {L : List GoStr} (hL : L ≠ []) {x : GoStr}
    {d : Char} (hx : x.getLast? = some d) :
    (joinSep c (L ++ [x])).getLast? = some d := by
  rw [joinSep_append_last hL]
  apply getLast?_append_of
  rw [show c :: x = [c] ++ x from rfl]
  exact getLast?_append_of hx

/-- Processing one `"key: value"` line: after Go's per-line trim, the split
on `":"` yields the key and a blank-led value whose trim is the value. -/
theorem keyline_split (K V : GoStr)
    (hKhead : ∀ ch, K.head? = some ch → goIsSpace ch = false)
    (hKc : ':' ∉ K) (hKne : K ≠ [])
    (hVc : ':' ∉ V) (hV : trimSpaceGo V = V) :
    ∃ vs, splitOnChar ':' (trimSpaceGo (K ++ ':' :: (' ' :: V))) = [K, vs]
      ∧ trimSpaceGo vs = V := by
  cases hVnil : V with
  | nil =>
    refine ⟨[], ?_, rfl⟩
    have htrim : trimSpaceGo (K ++ ':' :: (' ' :: [])) = K ++ [':'] := by
      unfold trimSpaceGo
      rw [trimLeftGo_eq_self (by
        intro ch hch
        rw [head?_append_of_ne _ hKne] at hch
        exact hKhead ch hch)]
      rw [show K ++ ':' :: (' ' :: []) = (K ++ [':']) ++ [' '] by simp]
      rw [trimRightGo_append_space (by decide)]
      apply trimRightGo_eq_self
      intro ch hch
      rw [getLast?_append_of (show [':'].getLast? = some ':' from rfl)] at hch
      cases hch
      decide
    rw [htrim, show K ++ [':'] = K ++ ':' :: [] from rfl, splitOnChar_append_cons hKc]
    rfl
  | cons v0 vt =>
    rw [← hVnil]
    have hVne : V ≠ [] := by rw [hVnil]; exact List.cons_ne_nil _ _
    have htrim : trimSpaceGo (K ++ ':' :: (' ' :: V)) = K ++ ':' :: (' ' :: V) := by
      apply trimSpaceGo_eq_self
      · intro ch hch
        rw [head?_append_of_ne _ hKne] at hch
        exact hKhead ch hch
      · intro ch hch
        rw [getLast?_append_of (show (':' :: (' ' :: V)).getLast? = some (V.getLast hVne) by
              rw [show ':' :: (' ' :: V) = [':', ' '] ++ V from rfl]
              exact getLast?_append_of (List.getLast?_eq_getLast_of_ne_nil hVne))] at hch
        cases hch
        exact getLast_nonspace_of_trim hV _ (List.getLast?_eq_getLast_of_ne_nil hVne)
    rw [htrim, splitOnChar_append_cons hKc]
    rw [splitOnChar_of_not_mem (by
      intro hmem
      rcases List.mem_cons.mp hmem with h | h
      · exact absurd h (by decide)
      · exact hVc h)]
    exact ⟨' ' :: V, rfl, trimSpaceGo_of_trim hV⟩

theorem hasPref_annot_entry (x : GoStr) :
    hasPref annotHeaderS (entryHeaderS ++ ('\n' :: x)) = false := rfl

theorem entry_line3_eq (R : GoStr) :
    refKeyS ++ ": ".toList ++ R = refKeyS ++ (':' :: (' ' :: R)) := rfl

theorem entry_line4_eq (t : GitHash) :
    targetIDKeyS ++ ": ".toList ++ GitHash.str t
      = targetIDKeyS ++ (':' :: (' ' :: GitHash.str t)) := rfl

/-- The codec round-trip on standard entries, for reference names free of
newlines and colons and invariant under trimming. -/
theorem parseEntry_roundtrip (h : GitHash) (e : Entry)
    (hnl : '\n' ∉ e.RefName) (hcolon : ':' ∉ e.RefName)
    (htrim : trimSpaceGo e.RefName = e.RefName) (hwf : e.TargetID.WF) :
    parseRSLEntryText h (Entry.createCommitMessage e) = .ok (.std { e with ID := h }) := by
  obtain ⟨eid, R, T⟩ := e
  simp only at hnl hcolon htrim hwf
  have hTbytes : T.bytes ≠ [] := by
    intro hb
    have := hwf.1
    rw [hb] at this
    simp at this
  have hTne : GitHash.str T ≠ [] := str_ne_nil hTbytes
  have hThex : ∀ c ∈ GitHash.str T, c ∈ "0123456789abcdef".toList := fun c hc =>
    mem_str_hexDigit c hc
  have hmsg : Entry.createCommitMessage ⟨eid, R, T⟩
      = joinSep '\n' [entryHeaderS, [], refKeyS ++ (':' :: (' ' :: R)),
          targetIDKeyS ++ (':' :: (' ' :: GitHash.str T))] := rfl
  set l3 := refKeyS ++ (':' :: (' ' :: R)) with hl3
  set l4 := targetIDKeyS ++ (':' :: (' ' :: GitHash.str T)) with hl4
  have hl4last : l4.getLast? = some ((GitHash.str T).getLast hTne) := by
    rw [hl4]
    apply getLast?_append_of
    rw [show ':' :: (' ' :: GitHash.str T) = [':', ' '] ++ GitHash.str T from rfl]
    exact getLast?_append_of (List.getLast?_eq_getLast_of_ne_nil hTne)
  have hl4nonspace : ∀ c, l4.getLast? = some c → goIsSpace c = false := by
    intro c hc
    rw [hl4last] at hc
    cases hc
    exact (hexDigit_props _ (hThex _ (List.getLast_mem hTne))).1
  have htrimmsg : trimSpaceGo (joinSep '\n' [entryHeaderS, [], l3, l4])
      = joinSep '\n' [entryHeaderS, [], l3, l4] := by
    apply trimSpaceGo_eq_self
    · intro c hc
      rw [joinSep_cons_of_ne _ _ _ (by simp),
          head?_append_of_ne _ (by decide)] at hc
      rw [show entryHeaderS.head? = some 'R' from rfl] at hc
      cases hc
      decide
    · intro c hc
      rw [show ([entryHeaderS, [], l3, l4] : List GoStr)
            = [entryHeaderS, [], l3] ++ [l4] from rfl] at hc
      rw [getLast?_joinSep_last (by simp) hl4last] at hc
      cases hc
      exact (hexDigit_props _ (hThex _ (List.getLast_mem hTne))).1
  have hsplitmsg : splitOnChar '\n' (joinSep '\n' [entryHeaderS, [], l3, l4])
      = [entryHeaderS, [], l3, l4] := by
    apply splitOnChar_joinSep (by simp)
    intro l hl
    rcases hl with _ | ⟨_, hl⟩
    · decide
    · rcases hl with _ | ⟨_, hl⟩
      · simp
      · rcases hl with _ | ⟨_, hl⟩
        · rw [hl3]
          intro hmem
          rcases List.mem_append.mp hmem with hm | hm
          · exact absurd hm (by decide)
          · rcases List.mem_cons.mp hm with hm2 | hm2
            · exact absurd hm2 (by decide)
            · rcases List.mem_cons.mp hm2 with hm3 | hm3
              · exact absurd hm3 (by decide)
              · exact hnl hm3
        · rcases hl with _ | ⟨_, hl⟩
          · rw [hl4]
            intro hmem
            rcases List.mem_append.mp hmem with hm | hm
            · exact absurd hm (by decide)
            · rcases List.mem_cons.mp hm with hm2 | hm2
              · exact absurd hm2 (by decide)
              · rcases List.mem_cons.mp hm2 with hm3 | hm3
                · exact absurd hm3 (by decide)
                · exact absurd rfl (hexDigit_props _ (hThex _ hm3)).2.1
          · cases hl
  have hpref : hasPref annotHeaderS (joinSep '\n' [entryHeaderS, [], l3, l4]) = false := by
    rw [joinSep_cons_of_ne _ _ _ (by simp)]
    exact hasPref_annot_entry _
  obtain ⟨vs3, hsplit3, htrim3⟩ :=
    keyline_split refKeyS R (by decide) (by decide) (by decide) hcolon htrim
  obtain ⟨vs4, hsplit4, htrim4⟩ :=
    keyline_split targetIDKeyS (GitHash.str T) (by decide) (by decide) (by decide)
      (fun hmem => absurd rfl (hexDigit_props _ (hThex _ hmem)).2.2.1) (hexstr_trim T)
  have hstep : parseEntryLines ⟨h, [], zeroHash⟩ [l3, l4] = .ok ⟨h, R, T⟩ := by
    rw [parseEntryLines, hsplit3]
    show (if trimSpaceGo refKeyS = refKeyS then
            parseEntryLines ⟨h, trimSpaceGo vs3, zeroHash⟩ [l4]
          else if trimSpaceGo refKeyS = targetIDKeyS then
            parseEntryLines ⟨h, [], newHashGo (trimSpaceGo vs3)⟩ [l4]
          else parseEntryLines ⟨h, [], zeroHash⟩ [l4]) = .ok ⟨h, R, T⟩
    rw [if_pos (by decide), htrim3]
    rw [parseEntryLines, hsplit4]
    show (if trimSpaceGo targetIDKeyS = refKeyS then
            parseEntryLines ⟨h, trimSpaceGo vs4, T⟩ []
          else if trimSpaceGo targetIDKeyS = targetIDKeyS then
            parseEntryLines ⟨h, R, newHashGo (trimSpaceGo vs4)⟩ []
          else parseEntryLines ⟨h, R, T⟩ []) = .ok ⟨h, R, T⟩
    rw [if_neg (by decide), if_pos (by decide), htrim4, newHashGo_str hwf]
    rfl
  have hparse : parseEntryText h (joinSep '\n' [entryHeaderS, [], l3, l4])
      = .ok ⟨h, R, T⟩ := by
    unfold parseEntryText
    rw [hsplitmsg]
    show (if ([entryHeaderS, [], l3, l4] : List GoStr).length < 4
          then (.error .invalidEntry : Except RSLErr Entry)
          else parseEntryLines ⟨h, [], zeroHash⟩ ([entryHeaderS, [], l3, l4].drop 2))
        = .ok ⟨h, R, T⟩
    rw [if_neg (by simp)]
    exact hstep
  rw [hmsg]
  unfold parseRSLEntryText
  rw [htrimmsg]
  show (if hasPref annotHeaderS (joinSep '\n' [entryHeaderS, [], l3, l4]) = true
        then Except.map EntryT.annot (parseAnnotText h (joinSep '\n' [entryHeaderS, [], l3, l4]))
        else Except.map EntryT.std (parseEntryText h (joinSep '\n' [entryHeaderS, [], l3, l4])))
      = Except.ok (EntryT.std ⟨h, R, T⟩)
  rw [hpref]
  simp only [Bool.false_eq_true, if_false]
  rw [hparse]
  rfl

theorem idLine_eq (t : GitHash) : idLine t = entryIDKeyS ++ (':' :: (' ' :: GitHash.str t)) := rfl

theorem idLine_nl (t : GitHash) : '\n' ∉ idLine t := by
  rw [idLine_eq]
  intro hmem
  rcases List.mem_append.mp hmem with hm | hm
  · exact absurd hm (by decide)
  · rcases List.mem_cons.mp hm with hm2 | hm2
    · exact absurd hm2 (by decide)
    · rcases List.mem_cons.mp hm2 with hm3 | hm3
      · exact absurd hm3 (by decide)
      · exact absurd rfl (hexDigit_props _ (mem_str_hexDigit _ hm3)).2.1

theorem idLine_ne_begin (t : GitHash) : ¬idLine t = beginMsgS := by
  intro heq
  have hh := congrArg List.head? heq
  rw [idLine_eq, head?_append_of_ne _ (by decide)] at hh
  rw [show entryIDKeyS.head? = some 'e' from rfl,
      show beginMsgS.head? = some '-' from rfl] at hh
  cases hh

theorem skipLine_eq (sk : Bool) :
    skipLine sk = skipKeyS ++ (':' :: (' ' :: (if sk then "true".toList else "false".toList))) := by
  cases sk <;> rfl

theorem skipLine_nl (sk : Bool) : '\n' ∉ skipLine sk := by
  cases sk <;> decide

theorem skipLine_ne_begin (sk : Bool) : ¬skipLine sk = beginMsgS := by
  cases sk <;> decide

theorem skipLine_getLast (sk : Bool) : (skipLine sk).getLast? = some 'e' := by
  cases sk <;> decide

/-- Splitting a trimmed line of the annotation body never equals the BEGIN
marker when the split has two fields (the marker holds no colon). -/
theorem trimmed_ne_begin_of_split {l : GoStr} {K vs : GoStr}
    (hsplit : splitOnChar ':' (trimSpaceGo l) = [K, vs]) :
    ¬trimSpaceGo l = beginMsgS := by
  intro heq
  rw [heq] at hsplit
  rw [splitOnChar_of_not_mem (by decide)] at hsplit
  cases hsplit

/-- The `entryID` lines accumulate the decoded targets in order. -/
theorem parseAnnotLines_ids (ts : List GitHash) (hwf : ∀ t ∈ ts, t.WF) :
    ∀ (a : Annot) (rest : List GoStr),
      parseAnnotLines a (ts.map idLine ++ rest)
        = parseAnnotLines { a with RSLEntryIDs := a.RSLEntryIDs ++ ts } rest := by
  induction ts with
  | nil =>
    intro a rest
    simp
  | cons t ts2 ih =>
    intro a rest
    have hwt : t.WF := hwf t (by simp)
    obtain ⟨vs, hsplit, htrimv⟩ :=
      keyline_split entryIDKeyS (GitHash.str t) (by decide) (by decide) (by decide)
        (fun hmem => absurd rfl (hexDigit_props _ (mem_str_hexDigit _ hmem)).2.2.1)
        (hexstr_trim t)
    rw [List.map_cons, List.cons_append, parseAnnotLines, idLine_eq]
    rw [if_neg (trimmed_ne_begin_of_split hsplit), hsplit]
    show (if trimSpaceGo entryIDKeyS = entryIDKeyS then
            parseAnnotLines
              { a with RSLEntryIDs := a.RSLEntryIDs ++ [newHashGo (trimSpaceGo vs)] }
              (ts2.map idLine ++ rest)
          else if trimSpaceGo entryIDKeyS = skipKeyS then
            parseAnnotLines { a with Skip := decide (trimSpaceGo vs = "true".toList) }
              (ts2.map idLine ++ rest)
          else parseAnnotLines a (ts2.map idLine ++ rest))
        = parseAnnotLines { a with RSLEntryIDs := a.RSLEntryIDs ++ (t :: ts2) } rest
    rw [if_pos (by decide), htrimv, newHashGo_str hwt]
    rw [ih (fun x hx => hwf x (List.mem_cons_of_mem _ hx))]
    simp

theorem parseAnnotLines_skip (a : Annot) (sk : Bool) (rest : List GoStr) :
    parseAnnotLines a (skipLine sk :: rest) = parseAnnotLines { a with Skip := sk } rest := by
  cases sk with
  | false =>
    obtain ⟨vs, hsplit, htrimv⟩ :=
      keyline_split skipKeyS "false".toList (by decide) (by decide) (by decide)
        (by decide) (by decide)
    rw [parseAnnotLines, skipLine_eq]
    show (if trimSpaceGo (skipKeyS ++ (':' :: (' ' :: "false".toList))) = beginMsgS
          then Except.ok a
          else match splitOnChar ':' (trimSpaceGo (skipKeyS ++ (':' :: (' ' :: "false".toList)))) with
            | k :: v :: _ =>
              if trimSpaceGo k = entryIDKeyS then
                parseAnnotLines
                  { a with RSLEntryIDs := a.RSLEntryIDs ++ [newHashGo (trimSpaceGo v)] } rest
              else if trimSpaceGo k = skipKeyS then
                parseAnnotLines { a with Skip := decide (trimSpaceGo v = "true".toList) } rest
              else parseAnnotLines a rest
            | _ => Except.error RSLErr.invalidEntry)
        = parseAnnotLines { a with Skip := false } rest
    rw [if_neg (trimmed_ne_begin_of_split hsplit), hsplit]
    show (if trimSpaceGo skipKeyS = entryIDKeyS then
            parseAnnotLines { a with RSLEntryIDs := a.RSLEntryIDs ++ [newHashGo (trimSpaceGo vs)] } rest
          else if trimSpaceGo skipKeyS = skipKeyS then
            parseAnnotLines { a with Skip := decide (trimSpaceGo vs = "true".toList) } rest
          else parseAnnotLines a rest)
        = parseAnnotLines { a with Skip := false } rest
    rw [if_neg (by decide), if_pos (by decide), htrimv]
    rw [show decide (("false".toList : GoStr) = "true".toList) = false from rfl]
  | true =>
    obtain ⟨vs, hsplit, htrimv⟩ :=
      keyline_split skipKeyS "true".toList (by decide) (by decide) (by decide)
        (by decide) (by decide)
    rw [parseAnnotLines, skipLine_eq]
    show (if trimSpaceGo (skipKeyS ++ (':' :: (' ' :: "true".toList))) = beginMsgS
          then Except.ok a
          else match splitOnChar ':' (trimSpaceGo (skipKeyS ++ (':' :: (' ' :: "true".toList)))) with
            | k :: v :: _ =>
              if trimSpaceGo k = entryIDKeyS then
                parseAnnotLines
                  { a with RSLEntryIDs := a.RSLEntryIDs ++ [newHashGo (trimSpaceGo v)] } rest
              else if trimSpaceGo k = skipKeyS then
                parseAnnotLines { a with Skip := decide (trimSpaceGo v = "true".toList) } rest
              else parseAnnotLines a rest
            | _ => Except.error RSLErr.invalidEntry)
        = parseAnnotLines { a with Skip := true } rest
    rw [if_neg (trimmed_ne_begin_of_split hsplit), hsplit]
    show (if trimSpaceGo skipKeyS = entryIDKeyS then
            parseAnnotLines { a with RSLEntryIDs := a.RSLEntryIDs ++ [newHashGo (trimSpaceGo vs)] } rest
          else if trimSpaceGo skipKeyS = skipKeyS then
            parseAnnotLines { a with Skip := decide (trimSpaceGo vs = "true".toList) } rest
          else parseAnnotLines a rest)
        = parseAnnotLines { a with Skip := true } rest
    rw [if_neg (by decide), if_pos (by decide), htrimv]
    rw [show decide (("true".toList : GoStr) = "true".toList) = true from rfl]

/-- The codec round-trip on annotations: any non-empty target list of
well-formed hashes and any byte message (including binary content) survive
encode-then-decode, with the ID set to the supplied commit id. -/
theorem parseAnnot_roundtrip (h : GitHash) (a : Annot)
    (hids : a.RSLEntryIDs ≠ [])
    (hwf : ∀ t ∈ a.RSLEntryIDs, t.WF)
    (hm : ∀ b ∈ a.Message, b < 256) :
    parseRSLEntryText h (Annot.createCommitMessage a) = .ok (.annot { a with ID := h }) := by
  obtain ⟨aid, ids, sk, m⟩ := a
  simp only at hids hwf hm
  have hidsNL : ∀ l ∈ ids.map idLine, '\n' ∉ l := by
    intro l hl
    obtain ⟨t, _, rfl⟩ := List.mem_map.mp hl
    exact idLine_nl t
  have hidsNB : ∀ l ∈ ids.map idLine, ¬l = beginMsgS := by
    intro l hl
    obtain ⟨t, _, rfl⟩ := List.mem_map.mp hl
    exact idLine_ne_begin t
  have hidslen : 1 ≤ ids.length := List.length_pos.mpr hids
  by_cases hm0 : m = []
  · subst hm0
    have hlist : Annot.createCommitMessage ⟨aid, ids, sk, []⟩
        = joinSep '\n' (annotHeaderS :: ([] :: (ids.map idLine ++ [skipLine sk]))) := by
      unfold Annot.createCommitMessage
      rw [if_pos rfl]
      congr 1
      simp [idLine, skipLine]
    set LL := annotHeaderS :: ([] :: (ids.map idLine ++ [skipLine sk])) with hLLdef
    have hNL : NLFree LL := by
      intro l hl
      rcases List.mem_cons.mp hl with rfl | hl
      · decide
      · rcases List.mem_cons.mp hl with rfl | hl
        · simp
        · rcases List.mem_append.mp hl with hl | hl
          · exact hidsNL l hl
          · rcases List.mem_cons.mp hl with rfl | hl
            · exact skipLine_nl sk
            · cases hl
    have hNB : ∀ l ∈ LL, ¬l = beginMsgS := by
      intro l hl
      rcases List.mem_cons.mp hl with rfl | hl
      · decide
      · rcases List.mem_cons.mp hl with rfl | hl
        · decide
        · rcases List.mem_append.mp hl with hl | hl
          · exact hidsNB l hl
          · rcases List.mem_cons.mp hl with rfl | hl
            · exact skipLine_ne_begin sk
            · cases hl
    have hsplitLL : splitOnChar '\n' (joinSep '\n' LL) = LL :=
      splitOnChar_joinSep (List.cons_ne_nil _ _) hNL
    have hLLalt : LL = (annotHeaderS :: ([] :: ids.map idLine)) ++ [skipLine sk] := by
      simp
    have htrimLL : trimSpaceGo (joinSep '\n' LL) = joinSep '\n' LL := by
      apply trimSpaceGo_eq_self
      · intro c hc
        rw [joinSep_cons_of_ne _ _ _ (by simp),
            head?_append_of_ne _ (by decide),
            show annotHeaderS.head? = some 'R' from rfl] at hc
        cases hc
        decide
      · intro c hc
        rw [hLLalt, getLast?_joinSep_last (by simp) (skipLine_getLast sk)] at hc
        cases hc
        decide
    have hdec : pemDecodeMsg (joinSep '\n' LL) = none :=
      pemDecodeMsg_none LL (List.cons_ne_nil _ _) hNL hNB
    have hpref : hasPref annotHeaderS (joinSep '\n' LL) = true := by
      rw [joinSep_cons_of_ne _ _ _ (by simp)]
      exact hasPref_append _ _
    have hlen : ¬LL.length < 4 := by
      rw [hLLdef]
      simp only [List.length_cons, List.length_append, List.length_map]
      omega
    have hparse : parseAnnotText h (joinSep '\n' LL) = .ok ⟨h, ids, sk, []⟩ := by
      unfold parseAnnotText
      rw [hdec, hsplitLL]
      show (if LL.length < 4 then (.error .invalidEntry : Except RSLErr Annot)
            else parseAnnotLines ⟨h, [], false, []⟩ (LL.drop 2)) = .ok ⟨h, ids, sk, []⟩
      rw [if_neg hlen]
      show parseAnnotLines ⟨h, [], false, []⟩ (ids.map idLine ++ [skipLine sk])
          = .ok ⟨h, ids, sk, []⟩
      rw [parseAnnotLines_ids ids hwf, parseAnnotLines_skip]
      rfl
    rw [hlist]
    unfold parseRSLEntryText
    rw [htrimLL]
    show (if hasPref annotHeaderS (joinSep '\n' LL) = true
          then Except.map EntryT.annot (parseAnnotText h (joinSep '\n' LL))
          else Except.map EntryT.std (parseEntryText h (joinSep '\n' LL)))
        = Except.ok (.annot ⟨h, ids, sk, []⟩)
    rw [hpref]
    simp only [if_true]
    rw [hparse]
    rfl
  · have hlist : Annot.createCommitMessage ⟨aid, ids, sk, m⟩
        = joinSep '\n' (annotHeaderS :: ([] :: (ids.map idLine ++
            (skipLine sk :: (beginMsgS :: (chunks64 (b64Encode m) ++ [endMsgS])))))) := by
      unfold Annot.createCommitMessage
      rw [if_neg hm0, trimSpace_pemEncodeMsg]
      have h1 : ([annotHeaderS, []]
            ++ ids.map (fun t => entryIDKeyS ++ ": ".toList ++ GitHash.str t)
            ++ [skipKeyS ++ (if sk then ": true" else ": false").toList]
            ++ [joinSep '\n' ((beginMsgS :: chunks64 (b64Encode m)) ++ [endMsgS])] : List GoStr)
          = ([annotHeaderS, []] ++ ids.map idLine ++ [skipLine sk])
            ++ [joinSep '\n' ((beginMsgS :: chunks64 (b64Encode m)) ++ [endMsgS])] := by
        simp [idLine, skipLine, List.append_assoc]
      rw [h1, joinSep_flatten (by simp)]
      congr 1
      simp [List.append_assoc]
    set LL := annotHeaderS :: ([] :: (ids.map idLine ++
        (skipLine sk :: (beginMsgS :: (chunks64 (b64Encode m) ++ [endMsgS]))))) with hLLdef
    have hNL : NLFree LL := by
      intro l hl
      rcases List.mem_cons.mp hl with rfl | hl
      · decide
      · rcases List.mem_cons.mp hl with rfl | hl
        · simp
        · rcases List.mem_append.mp hl with hl | hl
          · exact hidsNL l hl
          · rcases List.mem_cons.mp hl with rfl | hl
            · exact skipLine_nl sk
            · rcases List.mem_cons.mp hl with rfl | hl
              · decide
              · rcases List.mem_append.mp hl with hl | hl
                · exact (chunk_line_props l hl).1
                · rcases List.mem_cons.mp hl with rfl | hl
                  · decide
                  · cases hl
    have hsplitLL : splitOnChar '\n' (joinSep '\n' LL) = LL :=
      splitOnChar_joinSep (List.cons_ne_nil _ _) hNL
    have hLLalt : LL = (annotHeaderS :: ([] :: (ids.map idLine ++
        (skipLine sk :: (beginMsgS :: chunks64 (b64Encode m)))))) ++ [endMsgS] := by
      simp
    have htrimLL : trimSpaceGo (joinSep '\n' LL) = joinSep '\n' LL := by
      apply trimSpaceGo_eq_self
      · intro c hc
        rw [joinSep_cons_of_ne _ _ _ (by simp),
            head?_append_of_ne _ (by decide),
            show annotHeaderS.head? = some 'R' from rfl] at hc
        cases hc
        decide
      · intro c hc
        rw [hLLalt, getLast?_joinSep_last (by simp)
              (show endMsgS.getLast? = some '-' from rfl)] at hc
        cases hc
        decide
    have hpre2 : LL = (annotHeaderS :: ([] :: (ids.map idLine ++ [skipLine sk])))
        ++ (beginMsgS :: (chunks64 (b64Encode m) ++ [endMsgS])) := by
      simp
    have hdec : pemDecodeMsg (joinSep '\n' LL) = some m := by
      rw [hpre2]
      apply pemDecodeMsg_some _ _ _ _ hm
      · intro l hl
        rcases List.mem_cons.mp hl with rfl | hl
        · decide
        · rcases List.mem_cons.mp hl with rfl | hl
          · simp
          · rcases List.mem_append.mp hl with hl | hl
            · exact hidsNL l hl
            · rcases List.mem_cons.mp hl with rfl | hl
              · exact skipLine_nl sk
              · cases hl
      · intro l hl
        rcases List.mem_cons.mp hl with rfl | hl
        · decide
        · rcases List.mem_cons.mp hl with rfl | hl
          · decide
          · rcases List.mem_append.mp hl with hl | hl
            · exact hidsNB l hl
            · rcases List.mem_cons.mp hl with rfl | hl
              · exact skipLine_ne_begin sk
              · cases hl
    have hpref : hasPref annotHeaderS (joinSep '\n' LL) = true := by
      rw [joinSep_cons_of_ne _ _ _ (by simp)]
      exact hasPref_append _ _
    have hlen : ¬LL.length < 4 := by
      rw [hLLdef]
      simp only [List.length_cons, List.length_append, List.length_map]
      omega
    have hparse : parseAnnotText h (joinSep '\n' LL) = .ok ⟨h, ids, sk, m⟩ := by
      unfold parseAnnotText
      rw [hdec, hsplitLL]
      show (if LL.length < 4 then (.error .invalidEntry : Except RSLErr Annot)
            else parseAnnotLines ⟨h, [], false, m⟩ (LL.drop 2)) = .ok ⟨h, ids, sk, m⟩
      rw [if_neg hlen]
      show parseAnnotLines ⟨h, [], false, m⟩ (ids.map idLine ++
            (skipLine sk :: (beginMsgS :: (chunks64 (b64Encode m) ++ [endMsgS]))))
          = .ok ⟨h, ids, sk, m⟩
      rw [parseAnnotLines_ids ids hwf, parseAnnotLines_skip]
      rw [parseAnnotLines, if_pos (by decide)]
      rfl
    rw [hlist]
    unfold parseRSLEntryText
    rw [htrimLL]
    show (if hasPref annotHeaderS (joinSep '\n' LL) = true
          then Except.map EntryT.annot (parseAnnotText h (joinSep '\n' LL))
          else Except.map EntryT.std (parseEntryText h (joinSep '\n' LL)))
        = Except.ok (.annot ⟨h, ids, sk, m⟩)
    rw [hpref]
    simp only [if_true]
    rw [hparse]
    rfl

/-! ### Error characterization of the codec -/

theorem parseEntryLines_error_iff : ∀ (L : List GoStr) (e : Entry) (err : RSLErr),
    parseEntryLines e L = .error err
      ↔ (err = .invalidEntry ∧ ∃ l ∈ L, (splitOnChar ':' (trimSpaceGo l)).length < 2) := by
  intro L
  induction L with
  | nil =>
    intro e err
    constructor
    · intro hc; cases hc
    · rintro ⟨_, l, hl, _⟩; cases hl
  | cons l rest ih =>
    intro e err
    rw [parseEntryLines]
    cases hsp : splitOnChar ':' (trimSpaceGo l) with
    | nil =>
      constructor
      · intro hc
        exact ⟨(Except.error.inj hc).symm, l, by simp, by rw [hsp]; simp⟩
      · intro ⟨herr, _⟩
        rw [herr]
    | cons k tail =>
      cases tail with
      | nil =>
        constructor
        · intro hc
          exact ⟨(Except.error.inj hc).symm, l, by simp, by rw [hsp]; simp⟩
        · intro ⟨herr, _⟩
          rw [herr]
      | cons v t =>
        have hnotbad : ¬(splitOnChar ':' (trimSpaceGo l)).length < 2 := by
          rw [hsp]; simp
        have hiff : ∀ e2 : Entry, parseEntryLines e2 rest = .error err
            ↔ (err = .invalidEntry
                ∧ ∃ l2 ∈ l :: rest, (splitOnChar ':' (trimSpaceGo l2)).length < 2) := by
          intro e2
          rw [ih e2 err]
          constructor
          · rintro ⟨herr, l2, hl2, hbad⟩
            exact ⟨herr, l2, List.mem_cons_of_mem _ hl2, hbad⟩
          · rintro ⟨herr, l2, hl2, hbad⟩
            rcases List.mem_cons.mp hl2 with rfl | hl2
            · exact absurd hbad hnotbad
            · exact ⟨herr, l2, hl2, hbad⟩
        show (if trimSpaceGo k = refKeyS then
                parseEntryLines { e with RefName := trimSpaceGo v } rest
              else if trimSpaceGo k = targetIDKeyS then
                parseEntryLines { e with TargetID := newHashGo (trimSpaceGo v) } rest
              else parseEntryLines e rest) = .error err ↔ _
        split_ifs with h1 h2
        · exact hiff _
        · exact hiff _
        · exact hiff _

theorem parseAnnotLines_error_iff : ∀ (L : List GoStr) (a : Annot) (err : RSLErr),
    parseAnnotLines a L = .error err
      ↔ (err = .invalidEntry
          ∧ ∃ l ∈ L.takeWhile (fun l => !decide (trimSpaceGo l = beginMsgS)),
              (splitOnChar ':' (trimSpaceGo l)).length < 2) := by
  intro L
  induction L with
  | nil =>
    intro a err
    constructor
    · intro hc; cases hc
    · rintro ⟨_, l, hl, _⟩; cases hl
  | cons l rest ih =>
    intro a err
    rw [parseAnnotLines]
    by_cases hb : trimSpaceGo l = beginMsgS
    · rw [if_pos hb]
      rw [List.takeWhile_cons]
      rw [show (!decide (trimSpaceGo l = beginMsgS)) = false by rw [hb]; simp]
      constructor
      · intro hc; cases hc
      · rintro ⟨_, l2, hl2, _⟩
        simp at hl2
    · rw [if_neg hb]
      rw [List.takeWhile_cons]
      rw [show (!decide (trimSpaceGo l = beginMsgS)) = true by
            rw [Bool.not_eq_eq_eq_not]
            simp [hb]]
      simp only [if_true]
      cases hsp : splitOnChar ':' (trimSpaceGo l) with
      | nil =>
        constructor
        · intro hc
          exact ⟨(Except.error.inj hc).symm, l, by simp, by rw [hsp]; simp⟩
        · intro ⟨herr, _⟩
          rw [herr]
      | cons k tail =>
        cases tail with
        | nil =>
          constructor
          · intro hc
            exact ⟨(Except.error.inj hc).symm, l, by simp, by rw [hsp]; simp⟩
          · intro ⟨herr, _⟩
            rw [herr]
        | cons v t =>
          have hnotbad : ¬(splitOnChar ':' (trimSpaceGo l)).length < 2 := by
            rw [hsp]; simp
          have hiff : ∀ a2 : Annot, parseAnnotLines a2 rest = .error err
              ↔ (err = .invalidEntry
                  ∧ ∃ l2 ∈ l :: rest.takeWhile (fun l => !decide (trimSpaceGo l = beginMsgS)),
                      (splitOnChar ':' (trimSpaceGo l2)).length < 2) := by
            intro a2
            rw [ih a2 err]
            constructor
            · rintro ⟨herr, l2, hl2, hbad⟩
              exact ⟨herr, l2, List.mem_cons_of_mem _ hl2, hbad⟩
            · rintro ⟨herr, l2, hl2, hbad⟩
              rcases List.mem_cons.mp hl2 with rfl | hl2
              · exact absurd hbad hnotbad
              · exact ⟨herr, l2, hl2, hbad⟩
          show (if trimSpaceGo k = entryIDKeyS then
                  parseAnnotLines
                    { a with RSLEntryIDs := a.RSLEntryIDs ++ [newHashGo (trimSpaceGo v)] } rest
                else if trimSpaceGo k = skipKeyS then
                  parseAnnotLines { a with Skip := decide (trimSpaceGo v = "true".toList) } rest
                else parseAnnotLines a rest) = .error err ↔ _
          split_ifs with h1 h2
          · exact hiff _
          · exact hiff _
          · exact hiff _

theorem exceptMap_error_iff {α β : Type} (f : α → β) (x : Except RSLErr α) (err : RSLErr) :
    x.map f = .error err ↔ x = .error err := by
  cases x with
  | error e =>
    constructor
    · intro hc
      exact congrArg (Except.error) (Except.error.inj hc)
    · intro hc
      rw [Except.error.inj hc]
      rfl
  | ok a =>
    constructor
    · intro hc; cases hc
    · intro hc; cases hc

theorem parseAnnotText_error_iff (id : GitHash) (t : GoStr) (err : RSLErr) :
    parseAnnotText id t = .error err
      ↔ (err = .invalidEntry ∧ ((splitOnChar '\n' t).length < 4
          ∨ ∃ l ∈ ((splitOnChar '\n' t).drop 2).takeWhile
                (fun l => !decide (trimSpaceGo l = beginMsgS)),
              (splitOnChar ':' (trimSpaceGo l)).length < 2)) := by
  unfold parseAnnotText
  show (if (splitOnChar '\n' t).length < 4 then (.error .invalidEntry : Except RSLErr Annot)
        else parseAnnotLines ⟨id, [], false, (pemDecodeMsg t).getD []⟩
          ((splitOnChar '\n' t).drop 2)) = .error err ↔ _
  by_cases hlen : (splitOnChar '\n' t).length < 4
  · rw [if_pos hlen]
    constructor
    · intro hc
      exact ⟨(Except.error.inj hc).symm, Or.inl hlen⟩
    · intro ⟨herr, _⟩
      rw [herr]
  · rw [if_neg hlen, parseAnnotLines_error_iff]
    constructor
    · rintro ⟨herr, hex⟩
      exact ⟨herr, Or.inr hex⟩
    · rintro ⟨herr, hor⟩
      rcases hor with hl | hex
      · exact absurd hl hlen
      · exact ⟨herr, hex⟩

theorem parseEntryText_error_iff (id : GitHash) (t : GoStr) (err : RSLErr) :
    parseEntryText id t = .error err
      ↔ (err = .invalidEntry ∧ ((splitOnChar '\n' t).length < 4
          ∨ ∃ l ∈ (splitOnChar '\n' t).drop 2,
              (splitOnChar ':' (trimSpaceGo l)).length < 2)) := by
  unfold parseEntryText
  show (if (splitOnChar '\n' t).length < 4 then (.error .invalidEntry : Except RSLErr Entry)
        else parseEntryLines ⟨id, [], zeroHash⟩ ((splitOnChar '\n' t).drop 2)) = .error err ↔ _
  by_cases hlen : (splitOnChar '\n' t).length < 4
  · rw [if_pos hlen]
    constructor
    · intro hc
      exact ⟨(Except.error.inj hc).symm, Or.inl hlen⟩
    · intro ⟨herr, _⟩
      rw [herr]
  · rw [if_neg hlen, parseEntryLines_error_iff]
    constructor
    · rintro ⟨herr, hex⟩
      exact ⟨herr, Or.inr hex⟩
    · rintro ⟨herr, hor⟩
      rcases hor with hl | hex
      · exact absurd hl hlen
      · exact ⟨herr, hex⟩

/-! ### Claims C2 and C4 (codec) -/

/-- C2 counterexample: a standard entry whose ref name has no newline and no
colon but carries a leading space (`" main"`) does not survive the
round-trip — the per-line `TrimSpace` in the decoder strips the space, so
the decoded entry differs from the encoded one.  This refutes the claim as
stated, which promises the round-trip for every ref name free of newlines
and colons. -/
theorem claim_C2_counterexample :
    ('\n' ∉ " main".toList) ∧ (':' ∉ " main".toList)
    ∧ GitHash.WF ⟨List.replicate 20 170⟩
    ∧ parseRSLEntryText ⟨List.replicate 20 1⟩
        (Entry.createCommitMessage ⟨zeroHash, " main".toList, ⟨List.replicate 20 170⟩⟩)
      ≠ .ok (.std { ID := ⟨List.replicate 20 1⟩, RefName := " main".toList,
                    TargetID := ⟨List.replicate 20 170⟩ }) := by
  refine ⟨by decide, by decide, by decide, ?_⟩
  decide

/-- C2 (amended): `decode(h, encode(e)) = e` with the ID set to `h`, for
both entry kinds — for standard entries the ref name must contain no newline
or colon **and be invariant under whitespace trimming** (the amendment the
counterexample forces); annotations round-trip for any non-empty target list
of well-formed hashes and any message bytes, including binary content, via
the armor block. -/
theorem claim_C2 :
    (∀ (h : GitHash) (e : Entry), '\n' ∉ e.RefName → ':' ∉ e.RefName →
      trimSpaceGo e.RefName = e.RefName → e.TargetID.WF →
      parseRSLEntryText h (Entry.createCommitMessage e) = .ok (.std { e with ID := h }))
    ∧ (∀ (h : GitHash) (a : Annot), a.RSLEntryIDs ≠ [] →
      (∀ t ∈ a.RSLEntryIDs, t.WF) → (∀ b ∈ a.Message, b < 256) →
      parseRSLEntryText h (Annot.createCommitMessage a) = .ok (.annot { a with ID := h })) :=
  ⟨parseEntry_roundtrip, parseAnnot_roundtrip⟩

/-- C2 witness: the round-trip evaluated at a concrete standard entry and at
a concrete annotation with a binary (NUL-containing) message. -/
theorem claim_C2_witness :
    parseRSLEntryText ⟨List.replicate 20 1⟩
        (Entry.createCommitMessage ⟨zeroHash, "refs/heads/main".toList, ⟨List.replicate 20 170⟩⟩)
      = .ok (.std { ID := ⟨List.replicate 20 1⟩, RefName := "refs/heads/main".toList,
                    TargetID := ⟨List.replicate 20 170⟩ })
    ∧ parseRSLEntryText ⟨List.replicate 20 2⟩
        (Annot.createCommitMessage ⟨zeroHash, [⟨List.replicate 20 1⟩], true, [0, 255, 10, 65]⟩)
      = .ok (.annot { ID := ⟨List.replicate 20 2⟩, RSLEntryIDs := [⟨List.replicate 20 1⟩],
                      Skip := true, Message := [0, 255, 10, 65] }) := by
  constructor
  · exact claim_C2.1 ⟨List.replicate 20 1⟩ ⟨zeroHash, "refs/heads/main".toList, ⟨List.replicate 20 170⟩⟩
      (by decide) (by decide) (by decide) (by decide)
  · exact claim_C2.2 ⟨List.replicate 20 2⟩ ⟨zeroHash, [⟨List.replicate 20 1⟩], true, [0, 255, 10, 65]⟩
      (by decide) (by decide) (by decide)

/-- C4 counterexample: the claim lists "missing a required key", "non-hex
target hash" and "truncated message (PEM) block" among the bodies rejected
with `InvalidEntry`, but the decoder accepts all three: a standard-entry
body with no `ref` key and a non-hex `targetID` decodes fine (the bad hash
silently becomes the zero hash), and an annotation body whose message block
is truncated after `-----BEGIN MESSAGE-----` decodes with an empty
message. -/
theorem claim_C4_counterexample :
    parseRSLEntryText ⟨List.replicate 20 1⟩ "RSL Entry\n\nfoo: bar\ntargetID: zz".toList
      = .ok (.std { ID := ⟨List.replicate 20 1⟩, RefName := [], TargetID := zeroHash })
    ∧ parseRSLEntryText ⟨List.replicate 20 1⟩
        "RSL Annotation\n\nentryID: aaaaaaaaaaaaaaaaaaaaaaaaaaaaaaaaaaaaaaaa\nskip: false\n-----BEGIN MESSAGE-----".toList
      = .ok (.annot { ID := ⟨List.replicate 20 1⟩, RSLEntryIDs := [⟨List.replicate 20 170⟩],
                      Skip := false, Message := [] }) := by
  constructor
  · decide
  · decide

/-- C4 (amended): decoding fails — always with `InvalidEntry` — exactly when
the trimmed body has fewer than four lines, or some key-value line (from the
third line on; for annotations only before the `BEGIN MESSAGE` marker)
contains no colon.  Missing keys, non-hex hashes and truncated message
blocks are accepted with zero-value fields. -/
theorem claim_C4 (id : GitHash) (text : GoStr) (err : RSLErr) :
    parseRSLEntryText id text = .error err ↔ (err = .invalidEntry ∧ malformedBody text) := by
  unfold parseRSLEntryText malformedBody
  show (if hasPref annotHeaderS (trimSpaceGo text) = true
        then Except.map EntryT.annot (parseAnnotText id (trimSpaceGo text))
        else Except.map EntryT.std (parseEntryText id (trimSpaceGo text))) = .error err ↔ _
  by_cases hp : hasPref annotHeaderS (trimSpaceGo text) = true
  · rw [if_pos hp, if_pos hp, exceptMap_error_iff]
    exact parseAnnotText_error_iff id (trimSpaceGo text) err
  · rw [if_neg hp, if_neg hp, exceptMap_error_iff]
    exact parseEntryText_error_iff id (trimSpaceGo text) err

/-! ### Claim C10 (header is never checked for standard entries) -/

theorem parseEntryLines_ok : ∀ (L : List GoStr) (e : Entry),
    (∀ l ∈ L, 2 ≤ (splitOnChar ':' (trimSpaceGo l)).length) →
    ∃ e2, parseEntryLines e L = .ok e2 ∧ e2.ID = e.ID
      ∧ ((∀ l ∈ L, ¬lineKey l = refKeyS) → e2.RefName = e.RefName)
      ∧ ((∀ l ∈ L, ¬lineKey l = targetIDKeyS) → e2.TargetID = e.TargetID) := by
  intro L
  induction L with
  | nil =>
    intro e _
    exact ⟨e, rfl, rfl, fun _ => rfl, fun _ => rfl⟩
  | cons l rest ih =>
    intro e hgood
    have hl2 : 2 ≤ (splitOnChar ':' (trimSpaceGo l)).length := hgood l (by simp)
    cases hsp : splitOnChar ':' (trimSpaceGo l) with
    | nil => rw [hsp] at hl2; simp at hl2
    | cons k tail =>
      cases tail with
      | nil => rw [hsp] at hl2; simp at hl2
      | cons v t =>
        have hkey : lineKey l = trimSpaceGo k := by
          unfold lineKey
          rw [hsp]
          rfl
        have hrest : ∀ l2 ∈ rest, 2 ≤ (splitOnChar ':' (trimSpaceGo l2)).length :=
          fun l2 hl => hgood l2 (List.mem_cons_of_mem _ hl)
        rw [parseEntryLines, hsp]
        show ∃ e2, (if trimSpaceGo k = refKeyS then
                parseEntryLines { e with RefName := trimSpaceGo v } rest
              else if trimSpaceGo k = targetIDKeyS then
                parseEntryLines { e with TargetID := newHashGo (trimSpaceGo v) } rest
              else parseEntryLines e rest) = .ok e2 ∧ _
        split_ifs with h1 h2
        · obtain ⟨e2, hok, hid, href, htgt⟩ := ih { e with RefName := trimSpaceGo v } hrest
          refine ⟨e2, hok, hid, ?_, ?_⟩
          · intro hall
            exact absurd (hkey.trans h1) (hall l (by simp))
          · intro hall
            exact htgt (fun l2 hl => hall l2 (List.mem_cons_of_mem _ hl))
        · obtain ⟨e2, hok, hid, href, htgt⟩ := ih { e with TargetID := newHashGo (trimSpaceGo v) } hrest
          refine ⟨e2, hok, hid, ?_, ?_⟩
          · intro hall
            exact href (fun l2 hl => hall l2 (List.mem_cons_of_mem _ hl))
          · intro hall
            exact absurd (hkey.trans h2) (hall l (by simp))
        · obtain ⟨e2, hok, hid, href, htgt⟩ := ih e hrest
          exact ⟨e2, hok, hid,
            fun hall => href (fun l2 hl => hall l2 (List.mem_cons_of_mem _ hl)),
            fun hall => htgt (fun l2 hl => hall l2 (List.mem_cons_of_mem _ hl))⟩

/-- C10: the decoder never checks the `RSL Entry` header.  Whenever the
trimmed body does not start with `RSL Annotation`, has at least four lines,
and every line from the third on contains a colon, `parseRSLEntryText`
returns a StandardEntry without error, carrying the supplied commit id —
and when the `ref` / `targetID` keys are absent the decoded entry has an
empty ref name and the zero target hash. -/
theorem claim_C10 (id : GitHash) (text : GoStr)
    (hpref : hasPref annotHeaderS (trimSpaceGo text) = false)
    (hlen : ¬(splitOnChar '\n' (trimSpaceGo text)).length < 4)
    (hcolon : ∀ l ∈ (splitOnChar '\n' (trimSpaceGo text)).drop 2,
        2 ≤ (splitOnChar ':' (trimSpaceGo l)).length) :
    ∃ e : Entry, parseRSLEntryText id text = .ok (.std e) ∧ e.ID = id
      ∧ ((∀ l ∈ (splitOnChar '\n' (trimSpaceGo text)).drop 2, ¬lineKey l = refKeyS) →
          e.RefName = [])
      ∧ ((∀ l ∈ (splitOnChar '\n' (trimSpaceGo text)).drop 2, ¬lineKey l = targetIDKeyS) →
          e.TargetID = zeroHash) := by
  obtain ⟨e2, hok, hid, href, htgt⟩ :=
    parseEntryLines_ok ((splitOnChar '\n' (trimSpaceGo text)).drop 2) ⟨id, [], zeroHash⟩ hcolon
  refine ⟨e2, ?_, hid, href, htgt⟩
  unfold parseRSLEntryText
  show (if hasPref annotHeaderS (trimSpaceGo text) = true
        then Except.map EntryT.annot (parseAnnotText id (trimSpaceGo text))
        else Except.map EntryT.std (parseEntryText id (trimSpaceGo text)))
      = .ok (.std e2)
  rw [hpref]
  simp only [Bool.false_eq_true, if_false]
  unfold parseEntryText
  show Except.map EntryT.std
      (if (splitOnChar '\n' (trimSpaceGo text)).length < 4
       then (.error .invalidEntry : Except RSLErr Entry)
       else parseEntryLines ⟨id, [], zeroHash⟩ ((splitOnChar '\n' (trimSpaceGo text)).drop 2))
      = .ok (.std e2)
  rw [if_neg hlen, hok]
  rfl

/-- C10 witness: a plain (non-RSL) commit message of the right line shape
decodes as a standard entry with empty ref name and zero target id. -/
theorem claim_C10_witness :
    ∃ e : Entry,
      parseRSLEntryText ⟨List.replicate 20 3⟩
          "Merge branch feature\n\nSigned-off-by: dev\nReviewed-by: lead".toList
        = .ok (.std e) ∧ e.ID = ⟨List.replicate 20 3⟩
        ∧ e.RefName = [] ∧ e.TargetID = zeroHash := by
  obtain ⟨e, hok, hid, href, htgt⟩ := claim_C10 ⟨List.replicate 20 3⟩
    "Merge branch feature\n\nSigned-off-by: dev\nReviewed-by: lead".toList
    (by decide) (by decide) (by decide)
  exact ⟨e, hok, hid, href (by decide), htgt (by decide)⟩

/-! ### Claim C9 (parent step and error propagation) -/

/-- C9: `GetParentForEntry` returns `ErrRSLEntryNotFound` at a genesis
commit (zero parents), `ErrRSLBranchDetected` when the commit has two or
more parents, and otherwise decodes the single parent via `GetEntry`; and
the shared backward-walk loop propagates any parent-step error (so walks
terminate at NotFound and fail on Branch) whenever the current item does not
already stop the walk. -/
theorem claim_C9 (s : RepoState) (entry : EntryT) :
    (∀ c, lookupObj s entry.getID = some c →
      (c.parentHashes = [] → getParentForEntry s entry = .error .entryNotFound)
      ∧ (2 ≤ c.parentHashes.length → getParentForEntry s entry = .error .branchDetected)
      ∧ (∀ p, c.parentHashes = [p] → getParentForEntry s entry = getEntry s p))
    ∧ (∀ (stop : Entry → Bool) (fuel : Nat) (anns : List Annot) (err : RSLErr),
        getParentForEntry s entry = .error err →
        (∀ e, entry = .std e → stop e = false) →
        walkLoop s stop (fuel + 1) entry anns = .error err) := by
  constructor
  · intro c hc
    have hred : getParentForEntry s entry
        = (match c.parentHashes with
           | [] => (.error .entryNotFound : Except RSLErr EntryT)
           | [p] => getEntry s p
           | _ => .error .branchDetected) := by
      unfold getParentForEntry
      rw [hc]
    refine ⟨?_, ?_, ?_⟩
    · intro hp
      rw [hred, hp]
    · intro hlen
      rw [hred]
      cases hps : c.parentHashes with
      | nil => rw [hps] at hlen; simp at hlen
      | cons p1 t1 =>
        cases t1 with
        | nil => rw [hps] at hlen; simp at hlen
        | cons p2 t2 => rfl
    · intro p hp
      rw [hred, hp]
  · intro stop fuel anns err herr hstop
    cases entry with
    | std e =>
      rw [walkLoop, hstop e rfl]
      simp only [Bool.false_eq_true, if_false]
      rw [herr]
      rfl
    | annot a =>
      rw [walkLoop, herr]
      rfl

/-- C9 witness: the three parent-step outcomes and the branch propagation,
evaluated on `c9Repo`. -/
theorem claim_C9_witness :
    getParentForEntry c9Repo (.std ⟨⟨List.replicate 20 1⟩, "refs/heads/main".toList, ⟨List.replicate 20 9⟩⟩)
      = .error .entryNotFound
    ∧ getParentForEntry c9Repo (.std ⟨⟨List.replicate 20 2⟩, "refs/heads/main".toList, ⟨List.replicate 20 9⟩⟩)
      = .error .branchDetected
    ∧ getParentForEntry c9Repo (.std ⟨⟨List.replicate 20 3⟩, "refs/heads/main".toList, ⟨List.replicate 20 9⟩⟩)
      = getEntry c9Repo ⟨List.replicate 20 1⟩
    ∧ walkLoop c9Repo (fun _ => false) 1
        (.std ⟨⟨List.replicate 20 2⟩, "refs/heads/main".toList, ⟨List.replicate 20 9⟩⟩) []
      = .error .branchDetected := by
  refine ⟨?_, ?_, ?_, ?_⟩
  · exact ((claim_C9 c9Repo _).1
      ⟨emptyTreeHash, [],
        Entry.createCommitMessage ⟨zeroHash, "refs/heads/main".toList, ⟨List.replicate 20 9⟩⟩⟩
      (by decide)).1 rfl
  · exact ((claim_C9 c9Repo _).1
      ⟨emptyTreeHash, [⟨List.replicate 20 1⟩, ⟨List.replicate 20 1⟩],
        Entry.createCommitMessage ⟨zeroHash, "refs/heads/main".toList, ⟨List.replicate 20 9⟩⟩⟩
      (by decide)).2.1 (by decide)
  · exact ((claim_C9 c9Repo _).1
      ⟨emptyTreeHash, [⟨List.replicate 20 1⟩],
        Entry.createCommitMessage ⟨zeroHash, "refs/heads/main".toList, ⟨List.replicate 20 9⟩⟩⟩
      (by decide)).2.2 _ rfl
  · exact (claim_C9 c9Repo _).2 (fun _ => false) 0 [] .branchDetected (by decide)
      (fun _ _ => rfl)

/-! ### Walk/chain correspondence -/

theorem chainFrom_cons {s : RepoState} {fuel : Nat} {it : EntryT} {L : List EntryT}
    (h : chainFrom s fuel it = .ok L) : ∃ L2, L = it :: L2 := by
  cases fuel with
  | zero => cases h
  | succ fuel =>
    rw [chainFrom] at h
    cases hp : getParentForEntry s it with
    | error err =>
      rw [hp] at h
      cases err <;> first
        | (exact ⟨[], (Except.ok.inj h).symm⟩)
        | cases h
    | ok p =>
      rw [hp] at h
      replace h : Except.map (fun x => it :: x) (chainFrom s fuel p) = Except.ok L := h
      cases hc : chainFrom s fuel p with
      | error e2 => rw [hc] at h; cases h
      | ok L2 =>
        rw [hc] at h
        replace h : Except.ok (it :: L2) = Except.ok L := h
        exact ⟨L2, (Except.ok.inj h).symm⟩

theorem walkLoop_spec (s : RepoState) (stop : Entry → Bool) :
    ∀ (fuel : Nat) (it : EntryT) (anns : List Annot) (L : List EntryT),
      chainFrom s fuel it = .ok L →
      (∃ pre e rest, L = pre ++ .std e :: rest ∧ stop e = true
          ∧ (∀ x ∈ pre, entStopped stop x = false)
          ∧ walkLoop s stop fuel it anns
              = .ok (e, filterAnnotationsForRelevant (anns ++ annotsIn pre) e.ID))
      ∨ ((∀ x ∈ L, entStopped stop x = false)
          ∧ walkLoop s stop fuel it anns = .error .entryNotFound) := by
  intro fuel
  induction fuel with
  | zero => intro it anns L h; cases h
  | succ fuel ih =>
    intro it anns L h
    rw [chainFrom] at h
    cases hp : getParentForEntry s it with
    | error err =>
      rw [hp] at h
      cases err with
      | rslExists => cases h
      | branchDetected => cases h
      | invalidEntry => cases h
      | noRecordOfCommit => cases h
      | refNotFound => cases h
      | objectNotFound => cases h
      | conflict => cases h
      | outOfFuel => cases h
      | entryNotFound =>
        replace h : (Except.ok [it] : Except RSLErr (List EntryT)) = Except.ok L := h
        have hL : L = [it] := (Except.ok.inj h).symm
        subst hL
        cases it with
        | std e =>
          by_cases hst : stop e = true
          · left
            refine ⟨[], e, [], rfl, hst, by simp, ?_⟩
            rw [walkLoop, if_pos hst]
            simp [annotsIn]
          · have hstF : stop e = false := by
              cases hb : stop e with
              | false => rfl
              | true => exact absurd hb hst
            right
            constructor
            · intro x hx
              have hx2 : x = .std e := by simpa using hx
              rw [hx2]
              exact hstF
            · rw [walkLoop, if_neg hst, hp]
              rfl
        | annot a =>
          right
          constructor
          · intro x hx
            have hx2 : x = .annot a := by simpa using hx
            rw [hx2]
            rfl
          · rw [walkLoop, hp]
            rfl
    | ok p =>
      rw [hp] at h
      replace h : Except.map (fun x => it :: x) (chainFrom s fuel p) = Except.ok L := h
      cases hc : chainFrom s fuel p with
      | error e2 => rw [hc] at h; cases h
      | ok L2 =>
        rw [hc] at h
        replace h : Except.ok (it :: L2) = Except.ok L := h
        have hL : L = it :: L2 := (Except.ok.inj h).symm
        subst hL
        cases it with
        | std e =>
          by_cases hst : stop e = true
          · left
            refine ⟨[], e, L2, rfl, hst, by simp, ?_⟩
            rw [walkLoop, if_pos hst]
            simp [annotsIn]
          · have hstF : stop e = false := by
              cases hb : stop e with
              | false => rfl
              | true => exact absurd hb hst
            have hwl : walkLoop s stop (fuel + 1) (.std e) anns
                = walkLoop s stop fuel p anns := by
              rw [walkLoop, if_neg hst, hp]
              rfl
            rcases ih p anns L2 hc with ⟨pre, e2, rest, hL2, hst2, hpre, hres⟩ | ⟨hall, hres⟩
            · left
              refine ⟨.std e :: pre, e2, rest, by rw [hL2]; rfl, hst2, ?_, ?_⟩
              · intro x hx
                rcases List.mem_cons.mp hx with rfl | hx
                · exact hstF
                · exact hpre x hx
              · rw [hwl, hres]
                simp [annotsIn]
            · right
              constructor
              · intro x hx
                rcases List.mem_cons.mp hx with rfl | hx
                · exact hstF
                · exact hall x hx
              · rw [hwl, hres]
        | annot a =>
          have hwl : walkLoop s stop (fuel + 1) (.annot a) anns
              = walkLoop s stop fuel p (anns ++ [a]) := by
            rw [walkLoop, hp]
            rfl
          rcases ih p (anns ++ [a]) L2 hc with ⟨pre, e2, rest, hL2, hst2, hpre, hres⟩ | ⟨hall, hres⟩
          · left
            refine ⟨.annot a :: pre, e2, rest, by rw [hL2]; rfl, hst2, ?_, ?_⟩
            · intro x hx
              rcases List.mem_cons.mp hx with rfl | hx
              · rfl
              · exact hpre x hx
            · rw [hwl, hres]
              simp [annotsIn, List.append_assoc]
          · right
            constructor
            · intro x hx
              rcases List.mem_cons.mp hx with rfl | hx
              · rfl
              · exact hall x hx
            · rw [hwl, hres]

theorem firstEntryLoop_succ (s : RepoState) (fuel : Nat) (it : EntryT) (anns : List Annot) :
    firstEntryLoop s (fuel + 1) it anns
      = (match getParentForEntry s it with
         | .error .entryNotFound =>
           match it with
           | .std e => .ok (e, filterAnnotationsForRelevant anns e.ID)
           | .annot _ => .error .invalidEntry
         | .error err => .error err
         | .ok parent =>
           match parent with
           | .annot a => firstEntryLoop s fuel parent (anns ++ [a])
           | .std _ => firstEntryLoop s fuel parent anns) := rfl

theorem firstEntryLoop_spec (s : RepoState) :
    ∀ (fuel : Nat) (it : EntryT) (anns : List Annot) (L : List EntryT),
      chainFrom s fuel it = .ok L →
      (∀ g : Entry, L.getLast? = some (.std g) →
          firstEntryLoop s fuel it anns
            = .ok (g, filterAnnotationsForRelevant (anns ++ annotsIn (L.drop 1)) g.ID))
      ∧ (∀ a2 : Annot, L.getLast? = some (.annot a2) →
          firstEntryLoop s fuel it anns = .error .invalidEntry) := by
  intro fuel
  induction fuel with
  | zero => intro it anns L h; cases h
  | succ fuel ih =>
    intro it anns L h
    rw [chainFrom] at h
    cases hp : getParentForEntry s it with
    | error err =>
      rw [hp] at h
      cases err with
      | rslExists => cases h
      | branchDetected => cases h
      | invalidEntry => cases h
      | noRecordOfCommit => cases h
      | refNotFound => cases h
      | objectNotFound => cases h
      | conflict => cases h
      | outOfFuel => cases h
      | entryNotFound =>
        replace h : (Except.ok [it] : Except RSLErr (List EntryT)) = Except.ok L := h
        have hL : L = [it] := (Except.ok.inj h).symm
        subst hL
        constructor
        · intro g hg
          have hit : it = .std g := by simpa using hg
          subst hit
          rw [firstEntryLoop_succ, hp]
          simp [annotsIn]
        · intro a2 hg
          have hit : it = .annot a2 := by simpa using hg
          subst hit
          rw [firstEntryLoop_succ, hp]
    | ok p =>
      rw [hp] at h
      replace h : Except.map (fun x => it :: x) (chainFrom s fuel p) = Except.ok L := h
      cases hc : chainFrom s fuel p with
      | error e2 => rw [hc] at h; cases h
      | ok L2 =>
        rw [hc] at h
        replace h : Except.ok (it :: L2) = Except.ok L := h
        have hL : L = it :: L2 := (Except.ok.inj h).symm
        subst hL
        obtain ⟨L3, hL3⟩ := chainFrom_cons hc
        have hlast : (it :: L2).getLast? = L2.getLast? := by
          rw [hL3]
          exact List.getLast?_cons_cons
        have hdrop : (it :: L2).drop 1 = L2 := rfl
        cases hpc : p with
        | std e =>
          have hwl : firstEntryLoop s (fuel + 1) it anns = firstEntryLoop s fuel p anns := by
            rw [firstEntryLoop_succ, hp, hpc]
          obtain ⟨ih1, ih2⟩ := ih p anns L2 hc
          constructor
          · intro g hg
            rw [hlast] at hg
            rw [hwl, ih1 g hg, hdrop]
            rw [hL3, hpc]
            simp [annotsIn]
          · intro a2 hg
            rw [hlast] at hg
            rw [hwl, ih2 a2 hg]
        | annot a =>
          have hwl : firstEntryLoop s (fuel + 1) it anns
              = firstEntryLoop s fuel p (anns ++ [a]) := by
            rw [firstEntryLoop_succ, hp, hpc]
          obtain ⟨ih1, ih2⟩ := ih p (anns ++ [a]) L2 hc
          constructor
          · intro g hg
            rw [hlast] at hg
            rw [hwl, ih1 g hg, hdrop]
            rw [hL3, hpc]
            simp [annotsIn, List.append_assoc]
          · intro a2 hg
            rw [hlast] at hg
            rw [hwl, ih2 a2 hg]

/-! ### Claim C5 (annotation order in entry-with-annotations queries) -/

/-- C5 counterexample: with two annotations (at ids 2…2 and 3…3) both
targeting the genesis user entry, `GetLatestNonGittufEntry` returns them in
backward-walk order — newest (3…3) first — and not reversed/oldest-first as
the claim states. -/
theorem claim_C5_counterexample :
    getLatestNonGittufEntry c5Repo 10
      = .ok (⟨⟨List.replicate 20 1⟩, "refs/heads/main".toList, ⟨List.replicate 20 9⟩⟩,
             [⟨⟨List.replicate 20 3⟩, [⟨List.replicate 20 1⟩], false, []⟩,
              ⟨⟨List.replicate 20 2⟩, [⟨List.replicate 20 1⟩], true, []⟩])
    ∧ getLatestNonGittufEntry c5Repo 10
      ≠ .ok (⟨⟨List.replicate 20 1⟩, "refs/heads/main".toList, ⟨List.replicate 20 9⟩⟩,
             [⟨⟨List.replicate 20 2⟩, [⟨List.replicate 20 1⟩], true, []⟩,
              ⟨⟨List.replicate 20 3⟩, [⟨List.replicate 20 1⟩], false, []⟩]) := by
  exact ⟨by decide, by decide⟩

/-- C5 (amended): each query returning an entry with its annotations
(`GetLatestNonGittufEntry`, `GetNonGittufParentForEntry`,
`GetLatestEntryForRefBefore`, `GetFirstEntry`) returns exactly the
annotations accumulated by the backward walk whose target lists contain the
returned entry's id, **in the order the walk encountered them (newest
first)** — `filterAnnotationsForRelevantAnnotations` preserves the
accumulation order and performs no reversal.  The pool is characterized
against the decoded parent chain `chainFrom`. -/
theorem claim_C5 (s : RepoState) (fuel : Nat) :
    (∀ (it : EntryT) (L : List EntryT) (e : Entry) (anns : List Annot),
      getLatestEntry s = .ok it → chainFrom s fuel it = .ok L →
      getLatestNonGittufEntry s fuel = .ok (e, anns) →
      ∃ pre rest, L = pre ++ .std e :: rest
        ∧ (∀ x ∈ pre, entStopped isUserEntry x = false)
        ∧ anns = filterAnnotationsForRelevant (annotsIn pre) e.ID)
    ∧ (∀ (start it : EntryT) (L : List EntryT) (e : Entry) (anns : List Annot),
      getParentForEntry s start = .ok it → chainFrom s fuel it = .ok L →
      getNonGittufParentForEntry s fuel start = .ok (e, anns) →
      ∃ pre rest, L = pre ++ .std e :: rest
        ∧ (∀ x ∈ pre, entStopped isUserEntry x = false)
        ∧ anns = filterAnnotationsForRelevant (annotsIn pre) e.ID)
    ∧ (∀ (refName : GoStr) (anchor : GitHash) (it : EntryT) (L : List EntryT)
         (e : Entry) (anns : List Annot),
      refBeforeStart s anchor = .ok it → chainFrom s fuel it = .ok L →
      getLatestEntryForRefBefore s fuel refName anchor = .ok (e, anns) →
      ∃ pre rest, L = pre ++ .std e :: rest
        ∧ (∀ x ∈ pre, entStopped (fun e2 => decide (e2.RefName = refName)) x = false)
        ∧ anns = filterAnnotationsForRelevant (annotsIn pre) e.ID)
    ∧ (∀ (it : EntryT) (L : List EntryT) (e : Entry) (anns : List Annot),
      getLatestEntry s = .ok it → chainFrom s fuel it = .ok L →
      getFirstEntry s fuel = .ok (e, anns) →
      L.getLast? = some (.std e)
        ∧ anns = filterAnnotationsForRelevant (annotsIn L) e.ID) := by
  refine ⟨?_, ?_, ?_, ?_⟩
  · intro it L e anns hstart hchain hres
    have hq : getLatestNonGittufEntry s fuel = walkLoop s isUserEntry fuel it [] := by
      unfold getLatestNonGittufEntry
      rw [hstart]
      rfl
    rcases walkLoop_spec s isUserEntry fuel it [] L hchain with
      ⟨pre, e0, rest, hdec, _, hpre, hres2⟩ | ⟨_, hres2⟩
    · rw [hq, hres2] at hres
      obtain ⟨he, ha⟩ := Prod.mk.injEq .. ▸ Except.ok.inj hres
      subst he
      exact ⟨pre, rest, hdec, hpre, by rw [← ha]; rw [List.nil_append]⟩
    · rw [hq, hres2] at hres
      cases hres
  · intro start it L e anns hstart hchain hres
    have hq : getNonGittufParentForEntry s fuel start = walkLoop s isUserEntry fuel it [] := by
      unfold getNonGittufParentForEntry
      rw [hstart]
      rfl
    rcases walkLoop_spec s isUserEntry fuel it [] L hchain with
      ⟨pre, e0, rest, hdec, _, hpre, hres2⟩ | ⟨_, hres2⟩
    · rw [hq, hres2] at hres
      obtain ⟨he, ha⟩ := Prod.mk.injEq .. ▸ Except.ok.inj hres
      subst he
      exact ⟨pre, rest, hdec, hpre, by rw [← ha]; rw [List.nil_append]⟩
    · rw [hq, hres2] at hres
      cases hres
  · intro refName anchor it L e anns hstart hchain hres
    have hq : getLatestEntryForRefBefore s fuel refName anchor
        = walkLoop s (fun e2 => decide (e2.RefName = refName)) fuel it [] := by
      unfold getLatestEntryForRefBefore
      rw [hstart]
      rfl
    rcases walkLoop_spec s (fun e2 => decide (e2.RefName = refName)) fuel it [] L hchain with
      ⟨pre, e0, rest, hdec, _, hpre, hres2⟩ | ⟨_, hres2⟩
    · rw [hq, hres2] at hres
      obtain ⟨he, ha⟩ := Prod.mk.injEq .. ▸ Except.ok.inj hres
      subst he
      exact ⟨pre, rest, hdec, hpre, by rw [← ha]; rw [List.nil_append]⟩
    · rw [hq, hres2] at hres
      cases hres
  · intro it L e anns hstart hchain hres
    obtain ⟨L2, hL2⟩ := chainFrom_cons hchain
    cases it with
    | std e1 =>
      have hq : getFirstEntry s fuel = firstEntryLoop s fuel (.std e1) [] := by
        unfold getFirstEntry
        rw [hstart]
        rfl
      obtain ⟨hspec1, hspec2⟩ := firstEntryLoop_spec s fuel (.std e1) [] L hchain
      cases hlast : L.getLast? with
      | none =>
        rw [hL2] at hlast
        simp at hlast
      | some x =>
        cases x with
        | std g =>
          rw [hq, hspec1 g hlast] at hres
          obtain ⟨he, ha⟩ := Prod.mk.injEq .. ▸ Except.ok.inj hres
          subst he
          refine ⟨rfl, ?_⟩
          rw [← ha, hL2]
          simp [annotsIn]
        | annot a2 =>
          rw [hq, hspec2 a2 hlast] at hres
          cases hres
    | annot a1 =>
      have hq : getFirstEntry s fuel = firstEntryLoop s fuel (.annot a1) [a1] := by
        unfold getFirstEntry
        rw [hstart]
        rfl
      obtain ⟨hspec1, hspec2⟩ := firstEntryLoop_spec s fuel (.annot a1) [a1] L hchain
      cases hlast : L.getLast? with
      | none =>
        rw [hL2] at hlast
        simp at hlast
      | some x =>
        cases x with
        | std g =>
          rw [hq, hspec1 g hlast] at hres
          obtain ⟨he, ha⟩ := Prod.mk.injEq .. ▸ Except.ok.inj hres
          subst he
          refine ⟨rfl, ?_⟩
          rw [← ha, hL2]
          simp [annotsIn]
        | annot a2 =>
          rw [hq, hspec2 a2 hlast] at hres
          cases hres

/-- C5 witness: the amended characterization evaluated on `c5Repo` for all
four queries. -/
theorem claim_C5_witness :
    (∃ pre rest, c5Chain = pre ++ .std c5G :: rest
      ∧ (∀ x ∈ pre, entStopped isUserEntry x = false)
      ∧ [c5A2, c5A1] = filterAnnotationsForRelevant (annotsIn pre) c5G.ID)
    ∧ (∃ pre rest, ([.annot c5A1, .std c5G] : List EntryT) = pre ++ .std c5G :: rest
      ∧ (∀ x ∈ pre, entStopped isUserEntry x = false)
      ∧ [c5A1] = filterAnnotationsForRelevant (annotsIn pre) c5G.ID)
    ∧ (∃ pre rest, c5Chain = pre ++ .std c5G :: rest
      ∧ (∀ x ∈ pre, entStopped (fun e2 => decide (e2.RefName = "refs/heads/main".toList)) x = false)
      ∧ [c5A2, c5A1] = filterAnnotationsForRelevant (annotsIn pre) c5G.ID)
    ∧ (c5Chain.getLast? = some (.std c5G)
      ∧ [c5A2, c5A1] = filterAnnotationsForRelevant (annotsIn c5Chain) c5G.ID) := by
  refine ⟨?_, ?_, ?_, ?_⟩
  · exact (claim_C5 c5Repo 10).1 (.annot c5A2) c5Chain c5G [c5A2, c5A1]
      (by decide) (by decide) (by decide)
  · exact (claim_C5 c5Repo 10).2.1 (.annot c5A2) (.annot c5A1) [.annot c5A1, .std c5G]
      c5G [c5A1] (by decide) (by decide) (by decide)
  · exact (claim_C5 c5Repo 10).2.2.1 "refs/heads/main".toList zeroHash (.annot c5A2)
      c5Chain c5G [c5A2, c5A1] (by decide) (by decide) (by decide)
  · exact (claim_C5 c5Repo 10).2.2.2 (.annot c5A2) c5Chain c5G [c5A2, c5A1]
      (by decide) (by decide) (by decide)

/-! ### Claim C7 (GetLatestEntryForRefBefore) -/

/-- C7: with a non-zero anchor the walk starts at the parent of the
anchor's entry (at the tip when the anchor is zero); on success it returns
the first standard entry whose ref name equals the requested one, together
with the relevant accumulated annotations, and its id differs from the
anchor whenever the anchor does not reappear in the walked chain (true in a
content-addressed repository); when the walk reaches genesis without a
match it fails with `ErrRSLEntryNotFound`. -/
theorem claim_C7 (s : RepoState) (fuel : Nat) (refName : GoStr) (anchor : GitHash) :
    (anchor.IsZero = true → refBeforeStart s anchor = getLatestEntry s)
    ∧ (anchor.IsZero = false → ∀ ae, getEntry s anchor = .ok ae →
        refBeforeStart s anchor = getParentForEntry s ae)
    ∧ (∀ (it : EntryT) (L : List EntryT),
        refBeforeStart s anchor = .ok it → chainFrom s fuel it = .ok L →
        (∀ (e : Entry) (anns : List Annot),
          getLatestEntryForRefBefore s fuel refName anchor = .ok (e, anns) →
          e.RefName = refName
          ∧ (∃ pre rest, L = pre ++ .std e :: rest
              ∧ (∀ x ∈ pre, entStopped (fun e2 => decide (e2.RefName = refName)) x = false)
              ∧ anns = filterAnnotationsForRelevant (annotsIn pre) e.ID)
          ∧ (anchor ∉ L.map EntryT.getID → ¬e.ID = anchor))
        ∧ ((∀ x ∈ L, entStopped (fun e2 => decide (e2.RefName = refName)) x = false) →
            getLatestEntryForRefBefore s fuel refName anchor = .error .entryNotFound)) := by
  refine ⟨?_, ?_, ?_⟩
  · intro hz
    unfold refBeforeStart
    rw [hz]
    rfl
  · intro hz ae hae
    unfold refBeforeStart
    rw [hz]
    simp only [Bool.false_eq_true, if_false]
    rw [hae]
    rfl
  · intro it L hstart hchain
    have hq : getLatestEntryForRefBefore s fuel refName anchor
        = walkLoop s (fun e2 => decide (e2.RefName = refName)) fuel it [] := by
      unfold getLatestEntryForRefBefore
      rw [hstart]
      rfl
    constructor
    · intro e anns hres
      rcases walkLoop_spec s (fun e2 => decide (e2.RefName = refName)) fuel it [] L hchain with
        ⟨pre, e0, rest, hdec, hst, hpre, hres2⟩ | ⟨_, hres2⟩
      · rw [hq, hres2] at hres
        obtain ⟨he, ha⟩ := Prod.mk.injEq .. ▸ Except.ok.inj hres
        subst he
        refine ⟨of_decide_eq_true hst, ⟨pre, rest, hdec, hpre, by rw [← ha]; rw [List.nil_append]⟩, ?_⟩
        intro hnomem heq
        apply hnomem
        rw [hdec, ← heq]
        simp
        exact Or.inr (Or.inl rfl)
      · rw [hq, hres2] at hres
        cases hres
    · intro hall
      rcases walkLoop_spec s (fun e2 => decide (e2.RefName = refName)) fuel it [] L hchain with
        ⟨pre, e0, rest, hdec, hst, _, _⟩ | ⟨_, hres2⟩
      · exfalso
        have : entStopped (fun e2 => decide (e2.RefName = refName)) (.std e0) = false := by
          apply hall
          rw [hdec]
          simp
        rw [show entStopped (fun e2 => decide (e2.RefName = refName)) (.std e0)
              = decide (e0.RefName = refName) from rfl, hst] at this
        cases this
      · rw [hq, hres2]

/-- C7 witness: on `c5Repo` with the non-zero anchor 3…3 (the tip
annotation) the walk starts at the parent, finds the genesis `main` entry
with its relevant annotation, with an id different from the anchor; for a
ref with no entries it reports `entryNotFound`; with a zero anchor it
starts at the tip. -/
theorem claim_C7_witness :
    refBeforeStart c5Repo ⟨List.replicate 20 3⟩ = getParentForEntry c5Repo (.annot c5A2)
    ∧ (c5G.RefName = "refs/heads/main".toList
        ∧ (∃ pre rest, ([.annot c5A1, .std c5G] : List EntryT) = pre ++ .std c5G :: rest
            ∧ (∀ x ∈ pre,
                entStopped (fun e2 => decide (e2.RefName = "refs/heads/main".toList)) x = false)
            ∧ [c5A1] = filterAnnotationsForRelevant (annotsIn pre) c5G.ID)
        ∧ ((⟨List.replicate 20 3⟩ : GitHash)
              ∉ ([.annot c5A1, .std c5G] : List EntryT).map EntryT.getID →
            ¬c5G.ID = ⟨List.replicate 20 3⟩))
    ∧ getLatestEntryForRefBefore c5Repo 10 "refs/heads/other".toList ⟨List.replicate 20 3⟩
      = .error .entryNotFound
    ∧ refBeforeStart c5Repo zeroHash = getLatestEntry c5Repo := by
  refine ⟨?_, ?_, ?_, ?_⟩
  · exact (claim_C7 c5Repo 10 "refs/heads/main".toList ⟨List.replicate 20 3⟩).2.1
      (by decide) (.annot c5A2) (by decide)
  · exact ((claim_C7 c5Repo 10 "refs/heads/main".toList ⟨List.replicate 20 3⟩).2.2
      (.annot c5A1) [.annot c5A1, .std c5G] (by decide) (by decide)).1 c5G [c5A1] (by decide)
  · exact ((claim_C7 c5Repo 10 "refs/heads/other".toList ⟨List.replicate 20 3⟩).2.2
      (.annot c5A1) [.annot c5A1, .std c5G] (by decide) (by decide)).2 (by decide)
  · exact (claim_C7 c5Repo 10 "refs/heads/main".toList zeroHash).1 (by decide)

/-! ### Claim C6 (GetFirstEntryForCommit) -/

theorem firstForCommitLoop_succ (s : RepoState) (kfuel wfuel : Nat) (commit : GitHash)
    (ofuel : Nat) (firstEntry : Entry) (firstAnns : List Annot) :
    firstForCommitLoop s kfuel wfuel commit (ofuel + 1) firstEntry firstAnns
      = (match getNonGittufParentForEntry s wfuel (.std firstEntry) with
         | .error .entryNotFound => .ok (firstEntry, firstAnns)
         | .error err => .error err
         | .ok (iterEntry, iterAnns) =>
           if knowsCommit s kfuel iterEntry.TargetID commit then
             firstForCommitLoop s kfuel wfuel commit ofuel iterEntry iterAnns
           else .ok (firstEntry, firstAnns)) := rfl

theorem firstForCommitLoop_spec (s : RepoState) (kfuel wfuel : Nat) (commit : GitHash) :
    ∀ (ofuel : Nat) (e : Entry) (anns : List Annot) (r : Entry × List Annot),
      firstForCommitLoop s kfuel wfuel commit ofuel e anns = .ok r →
      knowsCommit s kfuel e.TargetID commit = true →
      knowsCommit s kfuel r.1.TargetID commit = true
      ∧ (∀ prev panns, getNonGittufParentForEntry s wfuel (.std r.1) = .ok (prev, panns) →
          knowsCommit s kfuel prev.TargetID commit = false) := by
  intro ofuel
  induction ofuel with
  | zero => intro e anns r hr; cases hr
  | succ ofuel ih =>
    intro e anns r hr hk
    rw [firstForCommitLoop_succ] at hr
    cases hp : getNonGittufParentForEntry s wfuel (.std e) with
    | error err =>
      rw [hp] at hr
      cases err with
      | rslExists => cases hr
      | branchDetected => cases hr
      | invalidEntry => cases hr
      | noRecordOfCommit => cases hr
      | refNotFound => cases hr
      | objectNotFound => cases hr
      | conflict => cases hr
      | outOfFuel => cases hr
      | entryNotFound =>
        replace hr : (Except.ok (e, anns) : Except RSLErr (Entry × List Annot)) = .ok r := hr
        have : (e, anns) = r := Except.ok.inj hr
        subst this
        refine ⟨hk, ?_⟩
        intro prev panns hprev
        rw [hp] at hprev
        cases hprev
    | ok pr =>
      obtain ⟨iterEntry, iterAnns⟩ := pr
      rw [hp] at hr
      replace hr : (if knowsCommit s kfuel iterEntry.TargetID commit then
          firstForCommitLoop s kfuel wfuel commit ofuel iterEntry iterAnns
        else .ok (e, anns)) = .ok r := hr
      by_cases hki : knowsCommit s kfuel iterEntry.TargetID commit = true
      · rw [if_pos hki] at hr
        exact ih iterEntry iterAnns r hr hki
      · have hkiF : knowsCommit s kfuel iterEntry.TargetID commit = false := by
          cases hb : knowsCommit s kfuel iterEntry.TargetID commit with
          | false => rfl
          | true => exact absurd hb hki
        rw [if_neg (by rw [hkiF]; exact Bool.false_ne_true)] at hr
        have : (e, anns) = r := Except.ok.inj hr
        subst this
        refine ⟨hk, ?_⟩
        intro prev panns hprev
        rw [hp] at hprev
        have := Except.ok.inj hprev
        obtain ⟨h1, h2⟩ := Prod.mk.injEq .. ▸ this
        rw [← h1]
        exact hkiF

/-- C6 counterexample: the claim says the function returns "the unique
entry E" with `knows_commit(E.target, C)` true and the previous user
entry's target not knowing C.  On `c6Repo` with C = 100…, the entry E3
(id 3…3) is returned and satisfies that property — but so does E1 (id 1…1):
its target t1 knows C and it has no previous user entry.  The property is
not unique, because `knows_commit` is not monotone along the ledger (E2's
target is unrelated to C). -/
theorem claim_C6_counterexample :
    getFirstEntryForCommit c6Repo 10 10 10 ⟨List.replicate 20 100⟩
      = .ok (⟨⟨List.replicate 20 3⟩, "refs/heads/main".toList, ⟨List.replicate 20 103⟩⟩, [])
    ∧ knowsCommit c6Repo 10 ⟨List.replicate 20 101⟩ ⟨List.replicate 20 100⟩ = true
    ∧ getNonGittufParentForEntry c6Repo 10
        (.std ⟨⟨List.replicate 20 1⟩, "refs/heads/main".toList, ⟨List.replicate 20 101⟩⟩)
      = .error .entryNotFound
    ∧ (⟨⟨List.replicate 20 1⟩, "refs/heads/main".toList, ⟨List.replicate 20 101⟩⟩ : Entry)
      ≠ ⟨⟨List.replicate 20 3⟩, "refs/heads/main".toList, ⟨List.replicate 20 103⟩⟩ := by
  refine ⟨by decide, by decide, by decide, by decide⟩

/-- C6 (amended): `GetFirstEntryForCommit` returns `ErrNoRecordOfCommit`
when there is no user entry at all or when the latest user entry's target
does not know the commit; otherwise it returns **an** entry E (the earliest
of the contiguous knowing block ending at the latest user entry) such that
`knows_commit(E.target, C)` holds and the previous user entry, when one
exists, does not know C — such an entry need not be unique. -/
theorem claim_C6 (s : RepoState) (kfuel wfuel ofuel : Nat) (c : GitHash) :
    (getLatestNonGittufEntry s wfuel = .error .entryNotFound →
      getFirstEntryForCommit s kfuel wfuel ofuel c = .error .noRecordOfCommit)
    ∧ (∀ e0 anns0, getLatestNonGittufEntry s wfuel = .ok (e0, anns0) →
        knowsCommit s kfuel e0.TargetID c = false →
        getFirstEntryForCommit s kfuel wfuel ofuel c = .error .noRecordOfCommit)
    ∧ (∀ E anns, getFirstEntryForCommit s kfuel wfuel ofuel c = .ok (E, anns) →
        knowsCommit s kfuel E.TargetID c = true
        ∧ (∀ prev panns, getNonGittufParentForEntry s wfuel (.std E) = .ok (prev, panns) →
            knowsCommit s kfuel prev.TargetID c = false)) := by
  refine ⟨?_, ?_, ?_⟩
  · intro hno
    unfold getFirstEntryForCommit
    rw [hno]
  · intro e0 anns0 hok hkf
    unfold getFirstEntryForCommit
    rw [hok]
    replace hkf : ¬knowsCommit s kfuel e0.TargetID c = true := by
      rw [hkf]
      exact Bool.false_ne_true
    show (if knowsCommit s kfuel e0.TargetID c = true then
            firstForCommitLoop s kfuel wfuel c ofuel e0 anns0
          else Except.error RSLErr.noRecordOfCommit) = Except.error RSLErr.noRecordOfCommit
    rw [if_neg hkf]
  · intro E anns hres
    unfold getFirstEntryForCommit at hres
    cases hlat : getLatestNonGittufEntry s wfuel with
    | error err =>
      rw [hlat] at hres
      cases err with
      | rslExists => cases hres
      | branchDetected => cases hres
      | invalidEntry => cases hres
      | noRecordOfCommit => cases hres
      | refNotFound => cases hres
      | objectNotFound => cases hres
      | conflict => cases hres
      | outOfFuel => cases hres
      | entryNotFound =>
        replace hres : (Except.error RSLErr.noRecordOfCommit
            : Except RSLErr (Entry × List Annot)) = .ok (E, anns) := hres
        cases hres
    | ok pr =>
      obtain ⟨e0, anns0⟩ := pr
      rw [hlat] at hres
      replace hres : (if knowsCommit s kfuel e0.TargetID c then
          firstForCommitLoop s kfuel wfuel c ofuel e0 anns0
        else .error .noRecordOfCommit) = .ok (E, anns) := hres
      by_cases hk : knowsCommit s kfuel e0.TargetID c = true
      · rw [if_pos hk] at hres
        exact firstForCommitLoop_spec s kfuel wfuel c ofuel e0 anns0 (E, anns) hres hk
      · rw [if_neg hk] at hres
        cases hres

/-- C6 witness: the no-record cases (empty ledger; latest target unaware of
the commit) and the returned-entry characterization, all on concrete
repositories. -/
theorem claim_C6_witness :
    getFirstEntryForCommit emptyRSLRepo 10 10 10 ⟨List.replicate 20 100⟩
      = .error .noRecordOfCommit
    ∧ getFirstEntryForCommit c6Repo 10 10 10 ⟨List.replicate 20 102⟩
      = .error .noRecordOfCommit
    ∧ (knowsCommit c6Repo 10
         (⟨⟨List.replicate 20 3⟩, "refs/heads/main".toList, ⟨List.replicate 20 103⟩⟩ : Entry).TargetID
         ⟨List.replicate 20 100⟩ = true
       ∧ (∀ prev panns, getNonGittufParentForEntry c6Repo 10
            (.std ⟨⟨List.replicate 20 3⟩, "refs/heads/main".toList, ⟨List.replicate 20 103⟩⟩)
            = .ok (prev, panns) →
          knowsCommit c6Repo 10 prev.TargetID ⟨List.replicate 20 100⟩ = false)) := by
  refine ⟨?_, ?_, ?_⟩
  · exact (claim_C6 emptyRSLRepo 10 10 10 ⟨List.replicate 20 100⟩).1 (by decide)
  · exact (claim_C6 c6Repo 10 10 10 ⟨List.replicate 20 102⟩).2.1
      ⟨⟨List.replicate 20 3⟩, "refs/heads/main".toList, ⟨List.replicate 20 103⟩⟩
      [] (by decide) (by decide)
  · exact (claim_C6 c6Repo 10 10 10 ⟨List.replicate 20 100⟩).2.2
      ⟨⟨List.replicate 20 3⟩, "refs/heads/main".toList, ⟨List.replicate 20 103⟩⟩
      [] (by decide)

/-! ### Writer-side lemmas (C1, C3) -/

theorem lookupRef_addObj (s : RepoState) (id : GitHash) (c : CommitObj) (name : GoStr) :
    lookupRef (addObj s id c) name = lookupRef s name := rfl

theorem lookupRef_setRef_same (s : RepoState) (name : GoStr) (h : GitHash) :
    lookupRef (setRef s name h) name = some h := by
  unfold lookupRef setRef
  simp [List.find?]

theorem lookupObj_setRef (s : RepoState) (name : GoStr) (h : GitHash) (id : GitHash) :
    lookupObj (setRef s name h) id = lookupObj s id := rfl

theorem lookupObj_addObj_same (s : RepoState) (id : GitHash) (c : CommitObj) :
    lookupObj (addObj s id c) id = some c := by
  unfold lookupObj addObj
  simp [List.find?]

theorem lookupObj_addObj_ne (s : RepoState) (id : GitHash) (c : CommitObj) (h : GitHash)
    (hne : ¬h = id) : lookupObj (addObj s id c) h = lookupObj s h := by
  unfold lookupObj addObj
  simp only [List.find?]
  rw [show (decide ((id, c).1 = h)) = false by
    simp only [decide_eq_false_iff_not]
    intro heq
    exact hne (heq.symm)]

theorem mem_objKeys_of_lookup (s : RepoState) (h : GitHash) (c : CommitObj)
    (hl : lookupObj s h = some c) : h ∈ objKeys s := by
  unfold lookupObj at hl
  cases hf : s.objects.find? (fun p => decide (p.1 = h)) with
  | none => rw [hf] at hl; cases hl
  | some p =>
    have hmem := List.mem_of_find?_eq_some hf
    have hpred := List.find?_some hf
    have hp1 : p.1 = h := of_decide_eq_true hpred
    rw [← hp1]
    exact List.mem_map_of_mem _ hmem

theorem checkAndSetRef_after (s2 : RepoState) (name : GoStr) (newH oldH : GitHash)
    (hcur : lookupRef s2 name = some oldH) :
    checkAndSetRef s2 name newH oldH = .ok (setRef s2 name newH) := by
  unfold checkAndSetRef
  rw [hcur]
  show (if oldH = oldH then (.ok (setRef s2 name newH) : Except RSLErr RepoState)
        else .error .conflict) = .ok (setRef s2 name newH)
  rw [if_pos rfl]

/-- `GoGitClient.Commit` in this sequential model always succeeds, writing
the commit built from the observed tip and CAS-ing the reference onto it. -/
theorem gitClientCommit_eq (hf : CommitObj → GitHash) (s : RepoState) (treeHash : GitHash)
    (targetRef message : GoStr) (sign : Bool) :
    gitClientCommit hf s treeHash targetRef message sign
      = (let cur := (lookupRef s targetRef).getD zeroHash
         let s1 := match lookupRef s targetRef with
                   | some _ => s
                   | none => setRef s targetRef zeroHash
         let c := createCommitObjectGo treeHash [cur] message
         .ok (hf c, setRef (addObj s1 (hf c) c) targetRef (hf c))) := by
  unfold gitClientCommit applyCommitGo
  cases hlr : lookupRef s targetRef with
  | some h =>
    show Except.map (fun s3 => (hf (createCommitObjectGo treeHash [h] message), s3))
        (checkAndSetRef
          (addObj s (hf (createCommitObjectGo treeHash [h] message))
            (createCommitObjectGo treeHash [h] message))
          targetRef (hf (createCommitObjectGo treeHash [h] message)) h)
      = .ok (hf (createCommitObjectGo treeHash [h] message),
             setRef (addObj s (hf (createCommitObjectGo treeHash [h] message))
               (createCommitObjectGo treeHash [h] message)) targetRef
               (hf (createCommitObjectGo treeHash [h] message)))
    rw [checkAndSetRef_after _ _ _ _ (by rw [lookupRef_addObj]; exact hlr)]
    rfl
  | none =>
    show Except.map (fun s3 => (hf (createCommitObjectGo treeHash [zeroHash] message), s3))
        (checkAndSetRef
          (addObj (setRef s targetRef zeroHash)
            (hf (createCommitObjectGo treeHash [zeroHash] message))
            (createCommitObjectGo treeHash [zeroHash] message))
          targetRef (hf (createCommitObjectGo treeHash [zeroHash] message)) zeroHash)
      = .ok (hf (createCommitObjectGo treeHash [zeroHash] message),
             setRef (addObj (setRef s targetRef zeroHash)
               (hf (createCommitObjectGo treeHash [zeroHash] message))
               (createCommitObjectGo treeHash [zeroHash] message)) targetRef
               (hf (createCommitObjectGo treeHash [zeroHash] message)))
    rw [checkAndSetRef_after _ _ _ _
      (by rw [lookupRef_addObj]; exact lookupRef_setRef_same s targetRef zeroHash)]
    rfl

theorem chainShapeOk_addObj (s : RepoState) (id : GitHash) (c : CommitObj)
    (hfresh : id ∉ objKeys s) :
    ∀ (n : Nat) (h : GitHash), chainShapeOk s n h = true → chainShapeOk (addObj s id c) n h = true := by
  intro n
  induction n with
  | zero => intro h hc; cases hc
  | succ n ih =>
    intro h hc
    rw [chainShapeOk] at hc ⊢
    cases hl : lookupObj s h with
    | none => rw [hl] at hc; cases hc
    | some c0 =>
      rw [hl] at hc
      replace hc : (match c0.parentHashes with
        | [] => true
        | [p] => chainShapeOk s n p
        | _ => false) = true := hc
      have hne : ¬h = id := by
        intro heq
        exact hfresh (heq ▸ mem_objKeys_of_lookup s h c0 hl)
      rw [lookupObj_addObj_ne s id c h hne, hl]
      show (match c0.parentHashes with
        | [] => true
        | [p] => chainShapeOk (addObj s id c) n p
        | _ => false) = true
      cases hps : c0.parentHashes with
      | nil => rfl
      | cons p t =>
        cases t with
        | nil =>
          rw [hps] at hc
          exact ih p hc
        | cons p2 t2 => rw [hps] at hc; cases hc

/-! ### C1: the target check of `Annotation.Commit` -/

theorem checkAnnotTargets_none_iff (s : RepoState) :
    ∀ ids : List GitHash, checkAnnotTargets s ids = none ↔
      ∀ i ∈ ids, ∃ et, getEntry s i = .ok et := by
  intro ids
  induction ids with
  | nil =>
    constructor
    · intro _ i hi; cases hi
    · intro _; rfl
  | cons id0 rest ih =>
    unfold checkAnnotTargets
    cases hge : getEntry s id0 with
    | error e =>
      constructor
      · intro hnone
        replace hnone : (some e : Option RSLErr) = none := hnone
        cases hnone
      · intro hall
        rcases hall id0 (List.mem_cons_self id0 rest) with ⟨et, het⟩
        rw [hge] at het
        cases het
    | ok et0 =>
      constructor
      · intro hnone i hi
        replace hnone : checkAnnotTargets s rest = none := hnone
        cases List.mem_cons.mp hi with
        | inl heq => exact ⟨et0, heq ▸ hge⟩
        | inr hmem => exact (ih.mp hnone) i hmem
      · intro hall
        show checkAnnotTargets s rest = none
        exact ih.mpr (fun i hi => hall i (List.mem_cons.mpr (Or.inr hi)))

/-- **C1** (corrected).  `Annotation.Commit` succeeds exactly when every id
in `RSLEntryIDs` resolves through `GetEntry`, i.e. names any parseable
commit in the object store — membership in the ancestor chain of the ledger
tip is never checked; on failure the operation propagates the first failing
`GetEntry` error (there is no dedicated `UnknownTarget` error in the code)
and produces no new state. -/
theorem claim_C1 (hf : CommitObj → GitHash) (s : RepoState) (a : Annot) (sign : Bool) :
    ((∃ r, Annot.commitOp hf s a sign = .ok r) ↔
      ∀ i ∈ a.RSLEntryIDs, ∃ et, getEntry s i = .ok et)
    ∧ (∀ err, Annot.commitOp hf s a sign = .error err →
        checkAnnotTargets s a.RSLEntryIDs = some err) := by
  unfold Annot.commitOp
  cases hct : checkAnnotTargets s a.RSLEntryIDs with
  | some e =>
    constructor
    · constructor
      · intro hex
        rcases hex with ⟨r, hr⟩
        replace hr : (.error e : Except RSLErr (GitHash × RepoState)) = .ok r := hr
        cases hr
      · intro hall
        have hn := (checkAnnotTargets_none_iff s a.RSLEntryIDs).mpr hall
        rw [hct] at hn
        cases hn
    · intro err herr
      replace herr : (.error e : Except RSLErr (GitHash × RepoState)) = .error err := herr
      injection herr with hh
      rw [hh]
  | none =>
    constructor
    · constructor
      · intro _; exact (checkAnnotTargets_none_iff s a.RSLEntryIDs).mp hct
      · intro _
        show ∃ r, gitClientCommit hf s emptyTreeHash rslRefS a.createCommitMessage sign = .ok r
        rw [gitClientCommit_eq]
        exact ⟨_, rfl⟩
    · intro err herr
      replace herr :
          gitClientCommit hf s emptyTreeHash rslRefS a.createCommitMessage sign
            = .error err := herr
      rw [gitClientCommit_eq] at herr
      cases herr

/-- C1 counterexample: in `c1Repo` the annotation targeting the stray entry
commit `4…4` commits successfully although `4…4` is not an ancestor of the
ledger tip `1…1` at any search depth. -/
theorem claim_C1_counterexample :
    (Annot.commitOp constOracle c1Repo ⟨zeroHash, [⟨List.replicate 20 4⟩], false, []⟩
        false).isOk = true
    ∧ (∀ n < 64, commitReachable c1Repo n ⟨List.replicate 20 1⟩ ⟨List.replicate 20 4⟩
        = false) := by
  refine ⟨by decide, by decide⟩

/-! ### C3: commit shape and the append-only chain of `recordSeq` -/

theorem chainShapeOk_setRef (name : GoStr) (h0 : GitHash) :
    ∀ (n : Nat) (s : RepoState) (h : GitHash),
      chainShapeOk (setRef s name h0) n h = chainShapeOk s n h := by
  intro n
  induction n with
  | zero => intro s h; rfl
  | succ n ih =>
    intro s h
    rw [chainShapeOk, chainShapeOk, lookupObj_setRef]
    cases lookupObj s h with
    | none => rfl
    | some c =>
      show (match c.parentHashes with
        | [] => true
        | [p] => chainShapeOk (setRef s name h0) n p
        | _ => false)
        = (match c.parentHashes with
        | [] => true
        | [p] => chainShapeOk s n p
        | _ => false)
      cases hps : c.parentHashes with
      | nil => rfl
      | cons p t =>
        cases t with
        | nil => exact ih s p
        | cons _ _ => rfl

theorem createCommitObjectGo_single_parent (treeHash : GitHash) (t : GitHash) (m : GoStr) :
    (createCommitObjectGo treeHash [t] m).parentHashes
      = if t = zeroHash then [] else [t] := by
  by_cases ht : t = zeroHash
  · rw [if_pos ht]
    subst ht
    rfl
  · rw [if_neg ht]
    show List.filter (fun p => !p.IsZero) [t] = [t]
    simp [GitHash.IsZero, ht]

/-- Appending one fresh commit whose parent list is the observed tip keeps
the chain well shaped. -/
theorem chain_step (s : RepoState) (name : GoStr) (n : Nat) (t : GitHash)
    (C : CommitObj) (H : GitHash)
    (hpar : C.parentHashes = if t = zeroHash then [] else [t])
    (hinv : t = zeroHash ∨ (t.IsZero = false ∧ chainShapeOk s n t = true))
    (hmem : H ∉ objKeys s) :
    chainShapeOk (setRef (addObj s H C) name H) (n + 1) H = true := by
  rw [chainShapeOk_setRef name H (n + 1) (addObj s H C) H]
  rw [chainShapeOk, lookupObj_addObj_same]
  show (match C.parentHashes with
    | [] => true
    | [p] => chainShapeOk (addObj s H C) n p
    | _ => false) = true
  rw [hpar]
  rcases hinv with ht | ⟨htz, hcs⟩
  · rw [if_pos ht]
  · rw [if_neg (of_decide_eq_false htz)]
    exact chainShapeOk_addObj s H C hmem n t hcs

/-- The `recordSeq` invariant: starting from a tip that is either the zero
hash or the head of a well-shaped chain, a fresh run of records keeps the
ledger reference on a chain in which every non-genesis commit has exactly
one parent. -/
theorem recordSeq_spec (hashOf : CommitObj → GitHash) :
    ∀ (ops : List (GoStr × GitHash)) (s : RepoState) (n : Nat) (t : GitHash),
      lookupRef s rslRefS = some t →
      (t = zeroHash ∨ (t.IsZero = false ∧ chainShapeOk s n t = true)) →
      recordFresh hashOf s ops = true →
      lookupRef (recordSeq hashOf s ops).1 rslRefS
          = some ((recordSeq hashOf s ops).2.getLastD t)
        ∧ ((recordSeq hashOf s ops).2.getLastD t = zeroHash
           ∨ (((recordSeq hashOf s ops).2.getLastD t).IsZero = false
              ∧ chainShapeOk (recordSeq hashOf s ops).1 (n + ops.length)
                  ((recordSeq hashOf s ops).2.getLastD t) = true)) := by
  intro ops
  induction ops with
  | nil =>
    intro s n t hlr hinv _
    exact ⟨hlr, hinv⟩
  | cons op rest ih =>
    rcases op with ⟨refName, targetID⟩
    intro s n t hlr hinv hfresh
    have hpar := createCommitObjectGo_single_parent emptyTreeHash t
      (Entry.createCommitMessage ⟨zeroHash, refName, targetID⟩)
    have hcommit : Entry.commitOp hashOf s ⟨zeroHash, refName, targetID⟩ false
        = .ok (hashOf (createCommitObjectGo emptyTreeHash [t]
                 (Entry.createCommitMessage ⟨zeroHash, refName, targetID⟩)),
               setRef (addObj s
                   (hashOf (createCommitObjectGo emptyTreeHash [t]
                     (Entry.createCommitMessage ⟨zeroHash, refName, targetID⟩)))
                   (createCommitObjectGo emptyTreeHash [t]
                     (Entry.createCommitMessage ⟨zeroHash, refName, targetID⟩)))
                 rslRefS
                 (hashOf (createCommitObjectGo emptyTreeHash [t]
                   (Entry.createCommitMessage ⟨zeroHash, refName, targetID⟩)))) := by
      unfold Entry.commitOp
      rw [gitClientCommit_eq, hlr]
      rfl
    generalize hC : createCommitObjectGo emptyTreeHash [t]
      (Entry.createCommitMessage ⟨zeroHash, refName, targetID⟩) = C at hpar hcommit
    generalize hH : hashOf C = H at hcommit
    have hrec : recordSeq hashOf s ((refName, targetID) :: rest)
        = ((recordSeq hashOf (setRef (addObj s H C) rslRefS H) rest).1,
           H :: (recordSeq hashOf (setRef (addObj s H C) rslRefS H) rest).2) := by
      rw [recordSeq, hcommit]
    rw [recordFresh, hcommit] at hfresh
    replace hfresh : (!decide (H ∈ objKeys s) && !(H.IsZero)
        && recordFresh hashOf (setRef (addObj s H C) rslRefS H) rest) = true := hfresh
    rw [Bool.and_eq_true, Bool.and_eq_true] at hfresh
    obtain ⟨⟨hmem, hz⟩, hrest⟩ := hfresh
    have hmem2 : H ∉ objKeys s := by simpa using hmem
    have hz2 : H.IsZero = false := by simpa using hz
    have hlr2 : lookupRef (setRef (addObj s H C) rslRefS H) rslRefS = some H :=
      lookupRef_setRef_same _ _ _
    have hinv2 : H = zeroHash ∨ (H.IsZero = false
        ∧ chainShapeOk (setRef (addObj s H C) rslRefS H) (n + 1) H = true) :=
      Or.inr ⟨hz2, chain_step s rslRefS n t C H hpar hinv hmem2⟩
    have hmain := ih (setRef (addObj s H C) rslRefS H) (n + 1) H hlr2 hinv2 hrest
    rw [hrec]
    have hfuel : n + ((refName, targetID) :: rest).length = (n + 1) + rest.length := by
      simp only [List.length_cons]
      omega
    rw [hfuel, List.getLastD_cons]
    exact hmain

/-- **C3**, confirmed.  A successful `record` (`Entry.Commit`) or `annotate`
(`Annotation.Commit`, once its targets resolve) writes exactly one commit:
its tree is the canonical empty tree, its parent list is the observed ledger
tip (empty when that tip is the zero hash, by `createCommitObject`'s
zero-filter), and the ledger reference is compare-and-swapped from the
observed tip onto the new commit.  Consequently a sequence of `record`
calls started at a zero tip leaves a chain in which every non-genesis entry
has exactly one parent (`chainShapeOk`), provided the content hashes of the
written commits are fresh (`recordFresh`, the guarantee of
content-addressed storage absent collisions). -/
theorem claim_C3 :
    (∀ (hashOf : CommitObj → GitHash) (s : RepoState) (e : Entry) (sign : Bool),
      Entry.commitOp hashOf s e sign
        = (let cur := (lookupRef s rslRefS).getD zeroHash
           let s1 := match lookupRef s rslRefS with
                     | some _ => s
                     | none => setRef s rslRefS zeroHash
           let c := createCommitObjectGo emptyTreeHash [cur] e.createCommitMessage
           .ok (hashOf c, setRef (addObj s1 (hashOf c) c) rslRefS (hashOf c))))
    ∧ (∀ (hashOf : CommitObj → GitHash) (s : RepoState) (a : Annot) (sign : Bool),
        checkAnnotTargets s a.RSLEntryIDs = none →
        Annot.commitOp hashOf s a sign
          = (let cur := (lookupRef s rslRefS).getD zeroHash
             let s1 := match lookupRef s rslRefS with
                       | some _ => s
                       | none => setRef s rslRefS zeroHash
             let c := createCommitObjectGo emptyTreeHash [cur] a.createCommitMessage
             .ok (hashOf c, setRef (addObj s1 (hashOf c) c) rslRefS (hashOf c))))
    ∧ (∀ (treeHash t : GitHash) (m : GoStr),
        (createCommitObjectGo emptyTreeHash [t] m).treeHash = emptyTreeHash
        ∧ (createCommitObjectGo treeHash [t] m).parentHashes
            = if t = zeroHash then [] else [t])
    ∧ (∀ (hashOf : CommitObj → GitHash) (s : RepoState) (ops : List (GoStr × GitHash)),
        lookupRef s rslRefS = some zeroHash →
        recordFresh hashOf s ops = true →
        ((recordSeq hashOf s ops).2.getLastD zeroHash = zeroHash
         ∨ chainShapeOk (recordSeq hashOf s ops).1 ops.length
             ((recordSeq hashOf s ops).2.getLastD zeroHash) = true)) := by
  refine ⟨?_, ?_, ?_, ?_⟩
  · intro hashOf s e sign
    unfold Entry.commitOp
    exact gitClientCommit_eq hashOf s emptyTreeHash rslRefS e.createCommitMessage sign
  · intro hashOf s a sign hct
    unfold Annot.commitOp
    rw [hct]
    show gitClientCommit hashOf s emptyTreeHash rslRefS a.createCommitMessage sign = _
    exact gitClientCommit_eq hashOf s emptyTreeHash rslRefS a.createCommitMessage sign
  · intro treeHash t m
    exact ⟨rfl, createCommitObjectGo_single_parent treeHash t m⟩
  · intro hashOf s ops hlr hfr
    have h := recordSeq_spec hashOf ops s 0 zeroHash hlr (Or.inl rfl) hfr
    rw [Nat.zero_add] at h
    rcases h.2 with hz | ⟨_, hc⟩
    · exact Or.inl hz
    · exact Or.inr hc

set_option maxRecDepth 40000 in
/-- C3 witness: a concrete two-record run from an initialised empty ledger
with a content-determined oracle is fresh, and the resulting two-entry
chain is well shaped. -/
theorem claim_C3_witness :
    recordFresh c3Oracle emptyRSLRepo
        [("refs/heads/main".toList, ⟨List.replicate 20 7⟩),
         ("refs/heads/main".toList, ⟨List.replicate 20 8⟩)] = true
    ∧ chainShapeOk
        (recordSeq c3Oracle emptyRSLRepo
          [("refs/heads/main".toList, ⟨List.replicate 20 7⟩),
           ("refs/heads/main".toList, ⟨List.replicate 20 8⟩)]).1 2
        ((recordSeq c3Oracle emptyRSLRepo
          [("refs/heads/main".toList, ⟨List.replicate 20 7⟩),
           ("refs/heads/main".toList, ⟨List.replicate 20 8⟩)]).2.getLastD zeroHash)
      = true := by
  refine ⟨by decide, by decide⟩

/-! ### C8: range queries -/

theorem chainFrom_mono (s : RepoState) :
    ∀ (n : Nat) (m : Nat), n ≤ m → ∀ (it : EntryT) (L : List EntryT),
      chainFrom s n it = .ok L → chainFrom s m it = .ok L := by
  intro n
  induction n with
  | zero => intro m _ it L h; cases h
  | succ n ih =>
    intro m hnm it L h
    cases m with
    | zero => exact absurd hnm (by omega)
    | succ m =>
      rw [chainFrom] at h ⊢
      cases hp : getParentForEntry s it with
      | error err =>
        rw [hp] at h
        cases err with
        | rslExists => cases h
        | branchDetected => cases h
        | invalidEntry => cases h
        | noRecordOfCommit => cases h
        | refNotFound => cases h
        | objectNotFound => cases h
        | conflict => cases h
        | outOfFuel => cases h
        | entryNotFound => exact h
      | ok p =>
        rw [hp] at h
        replace h : Except.map (fun x => it :: x) (chainFrom s n p) = Except.ok L := h
        show Except.map (fun x => it :: x) (chainFrom s m p) = Except.ok L
        cases hc : chainFrom s n p with
        | error e2 => rw [hc] at h; cases h
        | ok L2 =>
          rw [hc] at h
          rw [ih m (by omega) p L2 hc]
          exact h

theorem chainFrom_suffix (s : RepoState) :
    ∀ (pre : List EntryT) (n : Nat) (it et : EntryT) (rest : List EntryT),
      chainFrom s n it = .ok (pre ++ et :: rest) → chainFrom s n et = .ok (et :: rest) := by
  intro pre
  induction pre with
  | nil =>
    intro n it et rest h
    simp only [List.nil_append] at h
    rcases chainFrom_cons h with ⟨L2, hL⟩
    injection hL with h1 h2
    rw [h1] at h ⊢
    exact h
  | cons x pre ih =>
    intro n it et rest h
    cases n with
    | zero => cases h
    | succ n =>
      rw [chainFrom] at h
      cases hp : getParentForEntry s it with
      | error err =>
        rw [hp] at h
        cases err with
        | rslExists => cases h
        | branchDetected => cases h
        | invalidEntry => cases h
        | noRecordOfCommit => cases h
        | refNotFound => cases h
        | objectNotFound => cases h
        | conflict => cases h
        | outOfFuel => cases h
        | entryNotFound =>
          replace h : (Except.ok [it] : Except RSLErr (List EntryT))
              = .ok ((x :: pre) ++ et :: rest) := h
          rw [List.cons_append] at h
          have h2 := Except.ok.inj h
          injection h2 with h3 h4
          cases pre with
          | nil => cases h4
          | cons y ys => cases h4
      | ok p =>
        rw [hp] at h
        replace h : Except.map (fun x => it :: x) (chainFrom s n p)
            = .ok ((x :: pre) ++ et :: rest) := h
        cases hc : chainFrom s n p with
        | error e2 => rw [hc] at h; cases h
        | ok L2 =>
          rw [hc] at h
          replace h : (Except.ok (it :: L2) : Except RSLErr (List EntryT))
              = .ok ((x :: pre) ++ et :: rest) := h
          rw [List.cons_append] at h
          have h2 := Except.ok.inj h
          injection h2 with h3 h4
          rw [h4] at hc
          exact chainFrom_mono s n (n + 1) (by omega) et (et :: rest) (ih n p et rest hc)

theorem stdRel_cons_std (r : GoStr) (e : Entry) (L : List EntryT) :
    stdRel r (.std e :: L)
      = if relevantEntry r e then e :: stdRel r L else stdRel r L := by
  by_cases hrel : relevantEntry r e
  · simp [stdRel, List.filterMap_cons, hrel]
  · simp [stdRel, List.filterMap_cons, hrel]

theorem stdRel_cons_annot (r : GoStr) (a : Annot) (L : List EntryT) :
    stdRel r (.annot a :: L) = stdRel r L := by
  simp [stdRel, List.filterMap_cons]

theorem stdRel_append (r : GoStr) (A B : List EntryT) :
    stdRel r (A ++ B) = stdRel r A ++ stdRel r B := by
  simp [stdRel, List.filterMap_append]

theorem rangePhase1_succ (s : RepoState) (lastID : GitHash) (fuel : Nat) (it : EntryT)
    (anns : List Annot) :
    rangePhase1 s lastID (fuel + 1) it anns
      = (if it.getID = lastID then .ok (it, anns)
         else
           (getParentForEntry s it).bind (fun p =>
             rangePhase1 s lastID fuel p
               (match it with | .annot a => anns ++ [a] | .std _ => anns))) := rfl

theorem rangePhase1_found (s : RepoState) (lastID : GitHash) :
    ∀ (pre : List EntryT) (fuel : Nat) (it et : EntryT) (rest : List EntryT)
      (anns : List Annot),
      chainFrom s fuel it = .ok (pre ++ et :: rest) →
      et.getID = lastID →
      (∀ x ∈ pre, x.getID ≠ lastID) →
      rangePhase1 s lastID fuel it anns = .ok (et, anns ++ annotsIn pre) := by
  intro pre
  induction pre with
  | nil =>
    intro fuel it et rest anns h het _
    simp only [List.nil_append] at h
    rcases chainFrom_cons h with ⟨L2, hL⟩
    injection hL with h1 h2
    rw [h1] at het ⊢
    cases fuel with
    | zero => cases h
    | succ fuel =>
      rw [rangePhase1_succ, if_pos het]
      simp [annotsIn]
  | cons x pre ih =>
    intro fuel it et rest anns h het hpre
    cases fuel with
    | zero => cases h
    | succ fuel =>
      rw [chainFrom] at h
      cases hp : getParentForEntry s it with
      | error err =>
        rw [hp] at h
        cases err with
        | rslExists => cases h
        | branchDetected => cases h
        | invalidEntry => cases h
        | noRecordOfCommit => cases h
        | refNotFound => cases h
        | objectNotFound => cases h
        | conflict => cases h
        | outOfFuel => cases h
        | entryNotFound =>
          replace h : (Except.ok [it] : Except RSLErr (List EntryT))
              = .ok ((x :: pre) ++ et :: rest) := h
          rw [List.cons_append] at h
          have h2 := Except.ok.inj h
          injection h2 with h3 h4
          cases pre with
          | nil => cases h4
          | cons y ys => cases h4
      | ok p =>
        rw [hp] at h
        replace h : Except.map (fun x => it :: x) (chainFrom s fuel p)
            = .ok ((x :: pre) ++ et :: rest) := h
        cases hc : chainFrom s fuel p with
        | error e2 => rw [hc] at h; cases h
        | ok L2 =>
          rw [hc] at h
          replace h : (Except.ok (it :: L2) : Except RSLErr (List EntryT))
              = .ok ((x :: pre) ++ et :: rest) := h
          rw [List.cons_append] at h
          have h2 := Except.ok.inj h
          injection h2 with h3 h4
          rw [h4] at hc
          rw [← h3] at hpre ⊢
          have hne : ¬(it.getID = lastID) := hpre it (List.mem_cons_self it pre)
          have hpre2 : ∀ y ∈ pre, y.getID ≠ lastID :=
            fun y hy => hpre y (List.mem_cons_of_mem _ hy)
          rw [rangePhase1_succ, if_neg hne, hp]
          cases it with
          | std e =>
            show rangePhase1 s lastID fuel p anns
              = .ok (et, anns ++ annotsIn (EntryT.std e :: pre))
            rw [ih fuel p et rest anns hc het hpre2]
            simp [annotsIn]
          | annot a =>
            show rangePhase1 s lastID fuel p (anns ++ [a])
              = .ok (et, anns ++ annotsIn (EntryT.annot a :: pre))
            rw [ih fuel p et rest (anns ++ [a]) hc het hpre2]
            simp [annotsIn]

theorem rangePhase2_succ (s : RepoState) (firstID : GitHash) (refName : GoStr)
    (fuel : Nat) (it : EntryT) (stack : List Entry) (inRange : List GitHash)
    (anns : List Annot) :
    rangePhase2 s firstID refName (fuel + 1) it stack inRange anns
      = (if it.getID = firstID then .ok (stack, inRange, anns, it)
         else
           match it with
           | .std e =>
             if relevantEntry refName e then
               (getParentForEntry s it).bind (fun p =>
                 rangePhase2 s firstID refName fuel p (stack ++ [e])
                   (inRange ++ [e.ID]) anns)
             else
               (getParentForEntry s it).bind (fun p =>
                 rangePhase2 s firstID refName fuel p stack inRange anns)
           | .annot a =>
             (getParentForEntry s it).bind (fun p =>
               rangePhase2 s firstID refName fuel p stack inRange (anns ++ [a]))) := rfl

theorem rangePhase2_found (s : RepoState) (firstID : GitHash) (refName : GoStr) :
    ∀ (pre : List EntryT) (fuel : Nat) (it et : EntryT) (rest : List EntryT)
      (stack : List Entry) (inRange : List GitHash) (anns : List Annot),
      chainFrom s fuel it = .ok (pre ++ et :: rest) →
      et.getID = firstID →
      (∀ x ∈ pre, x.getID ≠ firstID) →
      rangePhase2 s firstID refName fuel it stack inRange anns
        = .ok (stack ++ stdRel refName pre,
               inRange ++ (stdRel refName pre).map Entry.ID,
               anns ++ annotsIn pre, et) := by
  intro pre
  induction pre with
  | nil =>
    intro fuel it et rest stack inRange anns h het _
    simp only [List.nil_append] at h
    rcases chainFrom_cons h with ⟨L2, hL⟩
    injection hL with h1 h2
    rw [h1] at het ⊢
    cases fuel with
    | zero => cases h
    | succ fuel =>
      rw [rangePhase2_succ, if_pos het]
      simp [stdRel, annotsIn]
  | cons x pre ih =>
    intro fuel it et rest stack inRange anns h het hpre
    cases fuel with
    | zero => cases h
    | succ fuel =>
      rw [chainFrom] at h
      cases hp : getParentForEntry s it with
      | error err =>
        rw [hp] at h
        cases err with
        | rslExists => cases h
        | branchDetected => cases h
        | invalidEntry => cases h
        | noRecordOfCommit => cases h
        | refNotFound => cases h
        | objectNotFound => cases h
        | conflict => cases h
        | outOfFuel => cases h
        | entryNotFound =>
          replace h : (Except.ok [it] : Except RSLErr (List EntryT))
              = .ok ((x :: pre) ++ et :: rest) := h
          rw [List.cons_append] at h
          have h2 := Except.ok.inj h
          injection h2 with h3 h4
          cases pre with
          | nil => cases h4
          | cons y ys => cases h4
      | ok p =>
        rw [hp] at h
        replace h : Except.map (fun x => it :: x) (chainFrom s fuel p)
            = .ok ((x :: pre) ++ et :: rest) := h
        cases hc : chainFrom s fuel p with
        | error e2 => rw [hc] at h; cases h
        | ok L2 =>
          rw [hc] at h
          replace h : (Except.ok (it :: L2) : Except RSLErr (List EntryT))
              = .ok ((x :: pre) ++ et :: rest) := h
          rw [List.cons_append] at h
          have h2 := Except.ok.inj h
          injection h2 with h3 h4
          rw [h4] at hc
          rw [← h3] at hpre ⊢
          have hne : ¬(it.getID = firstID) := hpre it (List.mem_cons_self it pre)
          have hpre2 : ∀ y ∈ pre, y.getID ≠ firstID :=
            fun y hy => hpre y (List.mem_cons_of_mem _ hy)
          rw [rangePhase2_succ, if_neg hne, hp]
          cases it with
          | std e =>
            show (if relevantEntry refName e then
                rangePhase2 s firstID refName fuel p (stack ++ [e])
                  (inRange ++ [e.ID]) anns
              else rangePhase2 s firstID refName fuel p stack inRange anns)
              = .ok (stack ++ stdRel refName (EntryT.std e :: pre),
                     inRange ++ (stdRel refName (EntryT.std e :: pre)).map Entry.ID,
                     anns ++ annotsIn (EntryT.std e :: pre), et)
            by_cases hrel : relevantEntry refName e
            · rw [if_pos hrel,
                ih fuel p et rest (stack ++ [e]) (inRange ++ [e.ID]) anns hc het hpre2]
              simp [stdRel_cons_std, hrel, annotsIn]
            · rw [if_neg hrel, ih fuel p et rest stack inRange anns hc het hpre2]
              simp [stdRel_cons_std, hrel, annotsIn]
          | annot a =>
            show rangePhase2 s firstID refName fuel p stack inRange (anns ++ [a])
              = .ok (stack ++ stdRel refName (EntryT.annot a :: pre),
                     inRange ++ (stdRel refName (EntryT.annot a :: pre)).map Entry.ID,
                     anns ++ annotsIn (EntryT.annot a :: pre), et)
            rw [ih fuel p et rest stack inRange (anns ++ [a]) hc het hpre2]
            simp [stdRel_cons_annot, annotsIn]

theorem refersTo_iff_mem (a : Annot) (k : GitHash) :
    a.RefersTo k = true ↔ k ∈ a.RSLEntryIDs := by
  unfold Annot.RefersTo
  rw [List.any_eq_true]
  constructor
  · rintro ⟨x, hx, hxk⟩
    have : x = k := of_decide_eq_true hxk
    exact this ▸ hx
  · intro hk
    exact ⟨k, hk, by simp⟩

theorem lookupAnnMap_mapAppend_same (k : GitHash) (a : Annot) :
    ∀ m : List (GitHash × List Annot),
      lookupAnnMap (mapAppend m k a) k = lookupAnnMap m k ++ [a] := by
  intro m
  induction m with
  | nil => simp [mapAppend, lookupAnnMap, List.find?]
  | cons p rest ih =>
    rcases p with ⟨k2, l⟩
    by_cases hk : k2 = k
    · subst hk
      simp [mapAppend, lookupAnnMap, List.find?]
    · unfold mapAppend
      rw [if_neg hk]
      unfold lookupAnnMap
      rw [List.find?_cons_of_neg _ (by simpa using hk),
        List.find?_cons_of_neg _ (by simpa using hk)]
      exact ih

theorem lookupAnnMap_mapAppend_ne (k2 k : GitHash) (a : Annot) (hne : k2 ≠ k) :
    ∀ m : List (GitHash × List Annot),
      lookupAnnMap (mapAppend m k2 a) k = lookupAnnMap m k := by
  intro m
  induction m with
  | nil => simp [mapAppend, lookupAnnMap, List.find?, hne]
  | cons p rest ih =>
    rcases p with ⟨k3, l⟩
    by_cases hk : k3 = k2
    · subst hk
      unfold mapAppend
      rw [if_pos rfl]
      unfold lookupAnnMap
      rw [List.find?_cons_of_neg _ (by simpa using hne),
        List.find?_cons_of_neg _ (by simpa using hne)]
    · unfold mapAppend
      rw [if_neg hk]
      by_cases hk3 : k3 = k
      · subst hk3
        unfold lookupAnnMap
        rw [List.find?_cons_of_pos _ (by simp), List.find?_cons_of_pos _ (by simp)]
      · unfold lookupAnnMap
        rw [List.find?_cons_of_neg _ (by simpa using hk3),
          List.find?_cons_of_neg _ (by simpa using hk3)]
        exact ih

theorem annFold_not_mem (R : List GitHash) (a : Annot) (k : GitHash) :
    ∀ (ids : List GitHash) (m : List (GitHash × List Annot)), k ∉ ids →
      lookupAnnMap (ids.foldl (fun m t =>
        if R.any (fun x => decide (x = t)) then mapAppend m t a else m) m) k
      = lookupAnnMap m k := by
  intro ids
  induction ids with
  | nil => intro m _; rfl
  | cons t rest ih =>
    intro m hk
    have htk : t ≠ k := fun h => hk (h ▸ List.mem_cons_self t rest)
    have hk2 : k ∉ rest := fun h => hk (List.mem_cons_of_mem _ h)
    rw [List.foldl_cons, ih _ hk2]
    by_cases hR : R.any (fun x => decide (x = t)) = true
    · rw [if_pos hR]
      exact lookupAnnMap_mapAppend_ne t k a htk m
    · rw [if_neg hR]

theorem annFold_mem (R : List GitHash) (a : Annot) (k : GitHash)
    (hkR : R.any (fun x => decide (x = k)) = true) :
    ∀ (ids : List GitHash) (m : List (GitHash × List Annot)),
      ids.Nodup → k ∈ ids →
      lookupAnnMap (ids.foldl (fun m t =>
        if R.any (fun x => decide (x = t)) then mapAppend m t a else m) m) k
      = lookupAnnMap m k ++ [a] := by
  intro ids
  induction ids with
  | nil => intro m _ hk; cases hk
  | cons t rest ih =>
    intro m hnd hk
    rw [List.foldl_cons]
    by_cases htk : t = k
    · subst htk
      have hk2 : t ∉ rest := (List.nodup_cons.mp hnd).1
      rw [annFold_not_mem R a t rest _ hk2, if_pos hkR]
      exact lookupAnnMap_mapAppend_same t a m
    · have hk2 : k ∈ rest := by
        rcases List.mem_cons.mp hk with h | h
        · exact absurd h.symm htk
        · exact h
      rw [ih _ (List.nodup_cons.mp hnd).2 hk2]
      by_cases hR : R.any (fun x => decide (x = t)) = true
      · rw [if_pos hR, lookupAnnMap_mapAppend_ne t k a htk m]
      · rw [if_neg hR]

theorem addAnnotTargets_lookup (R : List GitHash) (a : Annot) (k : GitHash)
    (m : List (GitHash × List Annot))
    (hnd : a.RSLEntryIDs.Nodup) (hkR : R.any (fun x => decide (x = k)) = true) :
    lookupAnnMap (addAnnotTargets R m a) k
      = lookupAnnMap m k ++ (if a.RefersTo k then [a] else []) := by
  unfold addAnnotTargets
  by_cases href : a.RefersTo k = true
  · rw [if_pos href]
    exact annFold_mem R a k hkR a.RSLEntryIDs m hnd ((refersTo_iff_mem a k).mp href)
  · rw [if_neg href]
    have hk : k ∉ a.RSLEntryIDs := fun h => href ((refersTo_iff_mem a k).mpr h)
    rw [annFold_not_mem R a k a.RSLEntryIDs m hk]
    simp

theorem annPool_foldl (R : List GitHash) (k : GitHash)
    (hkR : R.any (fun x => decide (x = k)) = true) :
    ∀ (pool : List Annot) (m : List (GitHash × List Annot)),
      (∀ a ∈ pool, a.RSLEntryIDs.Nodup) →
      lookupAnnMap (pool.foldl (addAnnotTargets R) m) k
        = lookupAnnMap m k ++ pool.filter (fun a => a.RefersTo k) := by
  intro pool
  induction pool with
  | nil => intro m _; simp
  | cons a pool ih =>
    intro m hnd
    rw [List.foldl_cons,
      ih _ (fun a2 h2 => hnd a2 (List.mem_cons_of_mem _ h2)),
      addAnnotTargets_lookup R a k m (hnd a (List.mem_cons_self a pool)) hkR]
    by_cases href : a.RefersTo k = true
    · rw [if_pos href]
      simp [List.filter_cons, href]
    · rw [if_neg href]
      simp [List.filter_cons, href]

theorem buildAnnotationMap_lookup (R : List GitHash) (k : GitHash)
    (hkR : R.any (fun x => decide (x = k)) = true)
    (pool : List Annot) (hnd : ∀ a ∈ pool, a.RSLEntryIDs.Nodup) :
    lookupAnnMap (buildAnnotationMap R pool) k
      = (pool.filter (fun a => a.RefersTo k)).reverse := by
  unfold buildAnnotationMap
  rw [annPool_foldl R k hkR pool.reverse []
    (fun a h => hnd a (List.mem_reverse.mp h))]
  show [] ++ List.filter (fun a => a.RefersTo k) pool.reverse = _
  rw [List.nil_append, List.filter_reverse]

theorem stdRel_nil (r : GoStr) : stdRel r [] = [] := rfl

/-- **C8**, confirmed.  When `lastID` names an item reachable from the tip
and `firstID` an item further down the chain, `GetEntriesInRangeForRef`
returns exactly the relevant standard entries of the segment from the
`lastID` item down to the `firstID` item (endpoints included when they are
relevant standard entries) in strict chronological order, and the
annotation map is built from the pool of every annotation seen from the tip
down to just above the `firstID` item; for any in-range id the map lists
precisely the pooled annotations referring to it, in ledger (chronological)
order — the reverse iteration over the pool restores it. -/
theorem claim_C8 (s : RepoState) (fuel : Nat) (refName : GoStr)
    (tip lastE firstE : EntryT) (pre1 mid post : List EntryT)
    (firstID lastID : GitHash)
    (hlat : getLatestEntry s = .ok tip)
    (hchain : chainFrom s fuel tip = .ok (pre1 ++ lastE :: (mid ++ firstE :: post)))
    (hlast : lastE.getID = lastID)
    (hpre1 : ∀ x ∈ pre1, x.getID ≠ lastID)
    (hfirst : firstE.getID = firstID)
    (hmid : ∀ x ∈ lastE :: mid, x.getID ≠ firstID) :
    getEntriesInRangeForRef s fuel firstID lastID refName
      = .ok ((stdRel refName ((lastE :: mid) ++ [firstE])).reverse,
             buildAnnotationMap
               ((stdRel refName ((lastE :: mid) ++ [firstE])).map Entry.ID)
               (annotsIn (pre1 ++ lastE :: mid)))
    ∧ (∀ (R : List GitHash) (pool : List Annot) (k : GitHash),
        R.any (fun x => decide (x = k)) = true →
        (∀ a ∈ pool, a.RSLEntryIDs.Nodup) →
        lookupAnnMap (buildAnnotationMap R pool) k
          = (pool.filter (fun a => a.RefersTo k)).reverse) := by
  constructor
  · have h1 : rangePhase1 s lastID fuel tip [] = .ok (lastE, [] ++ annotsIn pre1) :=
      rangePhase1_found s lastID pre1 fuel tip lastE (mid ++ firstE :: post) []
        hchain hlast hpre1
    have hch2 : chainFrom s fuel lastE = .ok ((lastE :: mid) ++ firstE :: post) := by
      have h0 := chainFrom_suffix s pre1 fuel tip lastE (mid ++ firstE :: post) hchain
      rw [h0]
      simp
    have h2 : rangePhase2 s firstID refName fuel lastE [] [] ([] ++ annotsIn pre1)
        = .ok ([] ++ stdRel refName (lastE :: mid),
               [] ++ (stdRel refName (lastE :: mid)).map Entry.ID,
               ([] ++ annotsIn pre1) ++ annotsIn (lastE :: mid), firstE) :=
      rangePhase2_found s firstID refName (lastE :: mid) fuel lastE firstE post
        [] [] ([] ++ annotsIn pre1) hch2 hfirst hmid
    unfold getEntriesInRangeForRef
    rw [hlat]
    show (match rangePhase1 s lastID fuel tip [] with
      | .error e => Except.error e
      | .ok (itLast, anns1) =>
        match rangePhase2 s firstID refName fuel itLast [] [] anns1 with
        | .error e => Except.error e
        | .ok (stack, inRange, anns2, itFirst) =>
          let (stack2, inRange2) :=
            match itFirst with
            | .std e =>
              if relevantEntry refName e then (stack ++ [e], inRange ++ [e.ID])
              else (stack, inRange)
            | .annot _ => (stack, inRange)
          (.ok (stack2.reverse, buildAnnotationMap inRange2 anns2)
            : Except RSLErr (List Entry × List (GitHash × List Annot))))
      = _
    rw [h1]
    show (match rangePhase2 s firstID refName fuel lastE [] [] ([] ++ annotsIn pre1) with
      | .error e => Except.error e
      | .ok (stack, inRange, anns2, itFirst) =>
        let (stack2, inRange2) :=
          match itFirst with
          | .std e =>
            if relevantEntry refName e then (stack ++ [e], inRange ++ [e.ID])
            else (stack, inRange)
          | .annot _ => (stack, inRange)
        (.ok (stack2.reverse, buildAnnotationMap inRange2 anns2)
          : Except RSLErr (List Entry × List (GitHash × List Annot))))
      = _
    rw [h2]
    show (let (stack2, inRange2) :=
        match firstE with
        | .std e =>
          if relevantEntry refName e then
            (([] ++ stdRel refName (lastE :: mid)) ++ [e],
             ([] ++ (stdRel refName (lastE :: mid)).map Entry.ID) ++ [e.ID])
          else ([] ++ stdRel refName (lastE :: mid),
                [] ++ (stdRel refName (lastE :: mid)).map Entry.ID)
        | .annot _ => ([] ++ stdRel refName (lastE :: mid),
                       [] ++ (stdRel refName (lastE :: mid)).map Entry.ID)
      (.ok (stack2.reverse,
          buildAnnotationMap inRange2 (([] ++ annotsIn pre1) ++ annotsIn (lastE :: mid)))
        : Except RSLErr (List Entry × List (GitHash × List Annot))))
      = _
    cases firstE with
    | std e =>
      show (match (if relevantEntry refName e then
              (([] ++ stdRel refName (lastE :: mid)) ++ [e],
               ([] ++ (stdRel refName (lastE :: mid)).map Entry.ID) ++ [e.ID])
            else ([] ++ stdRel refName (lastE :: mid),
                  [] ++ (stdRel refName (lastE :: mid)).map Entry.ID)) with
        | (stack2, inRange2) =>
          (Except.ok (stack2.reverse, buildAnnotationMap inRange2
              (([] ++ annotsIn pre1) ++ annotsIn (lastE :: mid)))
            : Except RSLErr (List Entry × List (GitHash × List Annot)))) = _
      rw [stdRel_append refName (lastE :: mid) [EntryT.std e],
        stdRel_cons_std refName e [],
        show annotsIn (pre1 ++ lastE :: mid) = annotsIn pre1 ++ annotsIn (lastE :: mid)
          from by simp [annotsIn, List.filterMap_append]]
      by_cases hrel : relevantEntry refName e
      · rw [if_pos hrel, if_pos hrel]
        simp [stdRel_nil]
      · rw [if_neg hrel, if_neg hrel]
        simp [stdRel_nil]
    | annot a =>
      show (.ok (([] ++ stdRel refName (lastE :: mid)).reverse,
          buildAnnotationMap ([] ++ (stdRel refName (lastE :: mid)).map Entry.ID)
            (([] ++ annotsIn pre1) ++ annotsIn (lastE :: mid)))
        : Except RSLErr (List Entry × List (GitHash × List Annot))) = _
      rw [stdRel_append refName (lastE :: mid) [EntryT.annot a],
        stdRel_cons_annot refName a [],
        show annotsIn (pre1 ++ lastE :: mid) = annotsIn pre1 ++ annotsIn (lastE :: mid)
          from by simp [annotsIn, List.filterMap_append]]
      simp [stdRel_nil]
  · intro R pool k hkR hnd
    exact buildAnnotationMap_lookup R k hkR pool hnd

set_option maxRecDepth 40000 in
/-- C8 witness: on the six-item ledger `c8Repo`, the range query from user
entry `c8E1` up to gittuf entry `c8E3` with no ref filter returns
`[c8E1, c8E2, c8E3]` in chronological order (both endpoints included) and
attributes `c8A2` to `c8E2` and the tip annotation `c8A1` to `c8E3` and
`c8E1`. -/
theorem claim_C8_witness :
    (getEntriesInRangeForRef c8Repo 10 c8E1.ID c8E3.ID []
      = .ok ((stdRel []
               ((EntryT.std c8E3 :: [.annot c8A2, .std c8E2]) ++ [EntryT.std c8E1])).reverse,
             buildAnnotationMap
               ((stdRel []
                 ((EntryT.std c8E3 :: [.annot c8A2, .std c8E2]) ++ [EntryT.std c8E1])).map
                   Entry.ID)
               (annotsIn ([EntryT.annot c8A1] ++ EntryT.std c8E3 :: [.annot c8A2, .std c8E2])))
    ∧ (∀ (R : List GitHash) (pool : List Annot) (k : GitHash),
        R.any (fun x => decide (x = k)) = true →
        (∀ a ∈ pool, a.RSLEntryIDs.Nodup) →
        lookupAnnMap (buildAnnotationMap R pool) k
          = (pool.filter (fun a => a.RefersTo k)).reverse))
    ∧ getEntriesInRangeForRef c8Repo 10 c8E1.ID c8E3.ID []
      = .ok ([c8E1, c8E2, c8E3],
             [(c8E2.ID, [c8A2]), (c8E3.ID, [c8A1]), (c8E1.ID, [c8A1])]) := by
  refine ⟨?_, by decide⟩
  exact claim_C8 c8Repo 10 [] (.annot c8A1) (.std c8E3) (.std c8E1)
    [.annot c8A1] [.annot c8A2, .std c8E2] [.std c8E0] c8E1.ID c8E3.ID
    (by decide) (by decide) (by decide) (by decide) (by decide) (by decide)
